import Mathlib

/-!
# Verification of the zink descriptor-set cache/pool allocator

Shallow embedding of `src/gallium/drivers/zink/zink_descriptors.c` (mesa,
zink gallium driver): descriptor-state fingerprints (`desc_state_equal`,
`desc_state_hash`), the batched-allocation bucket computation
(`allocate_desc_set`), and the pool cache state machine
(`zink_descriptor_set_get`, `zink_descriptor_set_recycle`,
`zink_descriptor_set_invalidate`, `desc_set_ref_add`,
`zink_descriptor_set_refs_clear`).

Machine integers are modelled as `Nat` with explicit `% 2^32` where 32-bit
overflow matters (the hash computations).  The mesa hash tables
(`_mesa_hash_table_*`) are modelled as entry lists searched by stored hash
plus key equality, with mesa's replace-on-insert semantics; an entry stores
the key by pointer (`&zds->key`), which the model renders by deriving the
entry's key from the current state of the referenced set.
-/

namespace ZinkDesc

/-- `ZINK_SHADER_COUNT`: number of graphics shader stages (vertex,
fragment, geometry, tess ctrl, tess eval). -/
def ZINK_SHADER_COUNT : Nat := 5

/-- `PIPE_SHADER_FRAGMENT` stage index. -/
def PIPE_SHADER_FRAGMENT : Fin 5 := 1

/-- `struct zink_descriptor_state_key`: per-stage existence flag and
32-bit state (revision) value. -/
structure DKey where
  ex : Fin 5 → Bool
  st : Fin 5 → Nat
deriving DecidableEq

instance : Inhabited DKey := ⟨⟨fun _ => false, fun _ => 0⟩⟩

/-- `desc_state_equal`: keys are equal when the existence patterns agree
and the states agree on every stage marked present in both. -/
def descStateEqual (a b : DKey) : Bool :=
  (List.finRange 5).all fun i =>
    a.ex i == b.ex i && (!(a.ex i && b.ex i) || a.st i == b.st i)

/-! ## XXH32 on a single 32-bit word

`desc_state_hash` calls `XXH32(&state[i], sizeof(uint32_t), hash)`.  The
vendored xxHash implementation is not among the given sources, so the
function is reproduced here from the public xxHash32 specification,
specialised to a 4-byte (one little-endian `uint32_t`) input:
`h = seed + PRIME32_5 + len`; one 4-byte round
`h = rotl32(h + input*PRIME32_3, 17) * PRIME32_4`; then the final
avalanche. -/

def PRIME32_2 : Nat := 2246822519
def PRIME32_3 : Nat := 3266489917
def PRIME32_4 : Nat := 668265263
def PRIME32_5 : Nat := 374761393

/-- 32-bit left rotation. -/
def rotl32 (x r : Nat) : Nat := ((x <<< r) ||| (x >>> (32 - r))) % 2 ^ 32

/-- xxHash32 final avalanche mix. -/
def xxh32Avalanche (h0 : Nat) : Nat :=
  let h1 := h0 ^^^ (h0 >>> 15)
  let h2 := (h1 * PRIME32_2) % 2 ^ 32
  let h3 := h2 ^^^ (h2 >>> 13)
  let h4 := (h3 * PRIME32_3) % 2 ^ 32
  h4 ^^^ (h4 >>> 16)

/-- `XXH32` of the four little-endian bytes of `input`, with `seed`. -/
def xxh32u32 (input seed : Nat) : Nat :=
  let h0 := (seed + PRIME32_5 + 4) % 2 ^ 32
  let h1 := (h0 + input * PRIME32_3) % 2 ^ 32
  let h2 := (rotl32 h1 17 * PRIME32_4) % 2 ^ 32
  xxh32Avalanche h2

/-- `desc_state_hash`: if the fragment stage is absent (a compute key) the
hash is the bare `state[0]`; otherwise fold `XXH32` over the states of the
present stages in stage order, seeding each round with the running hash. -/
def descStateHash (k : DKey) : Nat :=
  if k.ex PIPE_SHADER_FRAGMENT = false then k.st 0
  else (List.finRange 5).foldl
    (fun h i => if k.ex i then xxh32u32 (k.st i) h else h) 0

/-! ## Bucket sizing in `allocate_desc_set`

```
#define DESC_BUCKET_FACTOR 10
unsigned bucket_size = pool->num_descriptors ? DESC_BUCKET_FACTOR : 1;
if (pool->num_descriptors) {
   for (unsigned desc_factor = DESC_BUCKET_FACTOR; desc_factor < descs_used;
        desc_factor *= DESC_BUCKET_FACTOR)
      bucket_size = desc_factor;
}
```
`desc_factor` is a 32-bit `unsigned`, so the repeated `*= 10` wraps: the
factor runs through `10^k % 2^32` and is 0 from `k = 32` on, after which
the loop can never exit — the C function does not terminate when every
wrapped factor stays below `descs_used` (e.g. `descs_used = 2^32 - 1`).
The recursion is made structural with a fuel argument and `none` marks
fuel exhaustion; 33 units of fuel decide the loop started from the actual
entry point (factor 10): by then the loop has exited, or the factor is 0
and the state repeats forever, so any larger fuel computes the same
result (`bucketLoop_fuel`) and `none` at fuel 33 is genuine
non-termination. -/

def DESC_BUCKET_FACTOR : Nat := 10

def bucketLoop : Nat → Nat → Nat → Nat → Option Nat
  | 0, _, _, _ => none
  | fuel + 1, N, f, b =>
    if f < N then bucketLoop fuel N (f * DESC_BUCKET_FACTOR % 2 ^ 32) f
    else some b

/-- Bucket size computed by `allocate_desc_set` from the pool's
`num_descriptors` and the request's `descs_used`.  The `getD 0` default
stands for the non-terminating runs of the C loop, on which
`allocate_desc_set` never returns; it is never exercised by the state
machine, whose only call sites pass `descs_used = 1`. -/
def allocBucketSize (num_descriptors descs_used : Nat) : Nat :=
  if num_descriptors = 0 then 1
  else (bucketLoop 33 descs_used DESC_BUCKET_FACTOR DESC_BUCKET_FACTOR).getD 0

/-! ## Pool / descriptor-set state machine -/

/-- Descriptor sets are identified by allocation order. -/
abbrev SetId := Nat

/-- `ZINK_DESCRIPTOR_TYPES = 4` binding categories; each program owns one
pool per category (`pg->pool[type]`).  The model keeps one program and a
total pool per category. -/
abbrev TypeIdx := Fin 4

/-- `struct zink_descriptor_set`: owning pool, cached hash, key, `invalid`
and `recycled` flags, reference count, and the per-slot bound-resource
array (`resources[]`, a resource modelled as a `Nat` handle, `none` =
NULL). -/
structure ZDS where
  pool : TypeIdx
  hash : Nat
  key : DKey
  invalid : Bool
  recycled : Bool
  refcount : Nat
  slots : Nat → Option Nat

/-- Value of `s.sets` at ids that were never allocated (no such object
exists in C; refcount 0 makes every operation on it inert). -/
def defaultZDS : ZDS :=
  { pool := 0, hash := 0, key := default, invalid := true,
    recycled := false, refcount := 0, slots := fun _ => none }

/-- A mesa hash-table entry: the stored hash and the data pointer (set
id).  The entry's key pointer is `&zds->key`, so the key is derived from
the current state of the referenced set rather than stored. -/
structure Entry where
  hash : Nat
  id : SetId
deriving DecidableEq

/-- `struct zink_descriptor_pool`: schema slot count, active cache
(`desc_sets`), recycle cache (`free_desc_sets`), shell free-list
(`alloc_desc_sets`, a dynarray pushed/popped at the end), and the
monotone `num_sets_allocated` counter. -/
structure Pool where
  num_descriptors : Nat
  desc_sets : List Entry
  free_desc_sets : List Entry
  alloc_desc_sets : List SetId
  num_sets_allocated : Nat

/-- Whole-system state: the arena of sets ever allocated (`sets` below
`nextId`), the program's pools and last-used shortcuts
(`pg->last_set[type]`), and each resource's back-reference list
(`desc_set_refs`, entries = (set id, slot index)). -/
structure St where
  nextId : Nat
  sets : SetId → ZDS
  pools : TypeIdx → Pool
  last_set : TypeIdx → Option SetId
  refs : Nat → List (SetId × Nat)

def updSet (s : St) (id : SetId) (f : ZDS → ZDS) : St :=
  { s with sets := Function.update s.sets id (f (s.sets id)) }

def updPool (s : St) (t : TypeIdx) (f : Pool → Pool) : St :=
  { s with pools := Function.update s.pools t (f (s.pools t)) }

/-- mesa `_mesa_hash_table_search_pre_hashed` match condition: stored hash
equals the probe hash and `desc_state_equal(key, entry->key)`. -/
def entryMatches (s : St) (h : Nat) (k : DKey) (e : Entry) : Bool :=
  e.hash == h && descStateEqual k (s.sets e.id).key

def searchPreHashed (s : St) (m : List Entry) (h : Nat) (k : DKey) : Option Entry :=
  m.find? (entryMatches s h k)

/-- mesa `_mesa_hash_table_insert_pre_hashed`: replace the matching entry
if present, else append. -/
def insertPreHashed (s : St) (h : Nat) (k : DKey) (id : SetId) :
    List Entry → List Entry
  | [] => [⟨h, id⟩]
  | e :: rest =>
    if entryMatches s h k e then ⟨h, id⟩ :: rest
    else e :: insertPreHashed s h k id rest

/-- The reclamation scan of `zink_descriptor_set_get` (step over
`free_desc_sets`): take the first entry that is invalidated with refcount
1 (`get_invalidated_desc_set`), or — once 100 entries have been passed —
any entry with refcount 1. -/
def scanFree (s : St) : Nat → List Entry → Option Entry
  | _, [] => none
  | count, e :: rest =>
    if (100 ≤ count && (s.sets e.id).refcount == 1)
        || ((s.sets e.id).invalid && (s.sets e.id).refcount == 1)
    then some e
    else scanFree s (count + 1) rest

/-- A set as produced by `allocate_desc_set`: refcount 1, `invalid`,
not recycled, hash 0, empty slots.  The C code leaves `zds->key`
uninitialized (`ralloc_array`); the model fixes it to the default key —
the key is never read before `populate_zds_key` overwrites it on the
only paths that surface such a set. -/
def mkFreshZDS (t : TypeIdx) : ZDS :=
  { pool := t, hash := 0, key := default, invalid := true,
    recycled := false, refcount := 1, slots := fun _ => none }

/-- `allocate_desc_set`: create `bucket_size` fresh sets in one block,
return the first, push the rest onto the shell free-list, and advance
`num_sets_allocated`.  (`descs_used` is 1 at every call site in this
file.) -/
def allocateDescSet (s : St) (t : TypeIdx) (descs_used : Nat) : St × SetId :=
  let bucket := allocBucketSize (s.pools t).num_descriptors descs_used
  let base := s.nextId
  let s1 : St :=
    { s with
      nextId := base + bucket,
      sets := fun i => if base ≤ i ∧ i < base + bucket then mkFreshZDS t else s.sets i }
  let s2 := updPool s1 t (fun p =>
    { p with
      alloc_desc_sets :=
        p.alloc_desc_sets ++ (List.range (bucket - 1)).map (fun j => base + 1 + j),
      num_sets_allocated := p.num_sets_allocated + bucket })
  (s2, base)

/-- Result of `zink_descriptor_set_get`: the returned set and
`*cache_hit`, or the forced-flush path (`zink_flush_batch` + retry), whose
re-invocation the trace semantics models as a subsequent `get`. -/
inductive GetRes where
  | ok (id : SetId) (cacheHit : Bool)
  | flushRetry
deriving DecidableEq

/-- The `quick_out` tail of `zink_descriptor_set_get`: clear `invalid`,
register with the batch (`zink_batch_add_desc_set`; when it newly adds the
set the batch takes a reference — modelled by the external `batchAdd`
flag), and update the category's last-used shortcut. -/
def quickOut (s : St) (t : TypeIdx) (id : SetId) (batchAdd hit : Bool) :
    St × GetRes :=
  let s1 := updSet s id (fun z =>
    { z with invalid := false,
             refcount := if batchAdd then z.refcount + 1 else z.refcount })
  let s2 := { s1 with last_set := Function.update s1.last_set t (some id) }
  (s2, .ok id hit)

/-- The `out:` tail: stamp hash and key (`populate_zds_key`), clear
`recycled`, then either insert into the active map (caching pools) or —
for a pool with no schema slots — adopt the set as the shortcut of every
category whose pool has no slots; finally fall through to `quick_out`. -/
def outTail (s : St) (t : TypeIdx) (hash : Nat) (key : DKey) (id : SetId)
    (batchAdd hit : Bool) : St × GetRes :=
  let s1 := updSet s id (fun z => { z with hash := hash, key := key, recycled := false })
  let s2 :=
    if (s1.pools t).num_descriptors ≠ 0 then
      updPool s1 t (fun p =>
        { p with desc_sets := insertPreHashed s1 hash key id p.desc_sets })
    else
      { s1 with last_set := fun i =>
          if (s1.pools i).num_descriptors = 0 then some id else s1.last_set i }
  quickOut s2 t id batchAdd hit

/-- `zink_descriptor_set_get` after the last-used-shortcut test: probe the
active map, then the recycle map (migrating a hit back to active), then
the shell free-list, then the reclamation scan; on exhaustion either force
a flush (capacity ceiling reached) or batch-allocate. -/
def getMain (maxDescs : Nat) (s : St) (t : TypeIdx) (hash : Nat) (key : DKey)
    (batchAdd : Bool) : St × GetRes :=
  let pool := s.pools t
  if pool.num_descriptors ≠ 0 then
    match searchPreHashed s pool.desc_sets hash key with
    | some he =>
      -- active hit; `assert(!zds->invalid)` is a no-op in release builds
      quickOut s t he.id batchAdd (!(s.sets he.id).invalid)
    | none =>
      match searchPreHashed s pool.free_desc_sets hash key with
      | some he =>
        let hit := !(s.sets he.id).invalid
        let s1 := updPool s t (fun p =>
          { p with free_desc_sets := p.free_desc_sets.eraseP (entryMatches s hash key) })
        outTail s1 t hash key he.id batchAdd hit
      | none =>
        match pool.alloc_desc_sets.getLast? with
        | some id =>
          let s1 := updPool s t (fun p =>
            { p with alloc_desc_sets := p.alloc_desc_sets.dropLast })
          outTail s1 t hash key id batchAdd false
        | none =>
          match scanFree s 0 pool.free_desc_sets with
          | some e =>
            let s1 := updSet s e.id (fun z => { z with invalid := true })
            let s2 := updPool s1 t (fun p =>
              { p with free_desc_sets := p.free_desc_sets.erase e })
            outTail s2 t hash key e.id batchAdd false
          | none =>
            if pool.num_sets_allocated + pool.num_descriptors > maxDescs then
              (s, .flushRetry)
            else
              let r := allocateDescSet s t 1
              outTail r.1 t hash key r.2 batchAdd false
  else
    match s.last_set t with
    | some ls =>
      if (s.sets ls).hash == 0 then quickOut s t ls batchAdd true
      else
        let r := allocateDescSet s t 1
        outTail r.1 t hash key r.2 batchAdd false
    | none =>
      let r := allocateDescSet s t 1
      outTail r.1 t hash key r.2 batchAdd false

/-- `zink_descriptor_set_get`: the hash is the context-supplied value for
caching pools and 0 for a pool without schema slots; the last-used
shortcut (same hash, equal key) is tried first, unlinking the set from the
recycle map if it was recycled. -/
def zinkDescriptorSetGet (maxDescs : Nat) (s : St) (t : TypeIdx)
    (hashIn : Nat) (key : DKey) (batchAdd : Bool) : St × GetRes :=
  let pool := s.pools t
  let hash := if pool.num_descriptors ≠ 0 then hashIn else 0
  match s.last_set t with
  | some ls =>
    if (s.sets ls).hash == hash && descStateEqual (s.sets ls).key key then
      let hit := !(s.sets ls).invalid
      let s1 :=
        if pool.num_descriptors ≠ 0 && (s.sets ls).recycled then
          updPool s t (fun p =>
            { p with free_desc_sets := p.free_desc_sets.eraseP (entryMatches s hash key) })
        else s
      outTail s1 t hash key ls batchAdd hit
    else getMain maxDescs s t hash key batchAdd
  | none => getMain maxDescs s t hash key batchAdd

/-- `zink_descriptor_set_recycle`: no-op unless the refcount is exactly 1;
no-op for a pool with no schema slots; otherwise remove the set's entry
from the active map (absence means it was reused in the same batch: leave
it alone), then reclaim an invalidated set to the shell free-list or mark
it recycled and insert it into the recycle map. -/
def zinkDescriptorSetRecycle (s : St) (id : SetId) : St :=
  let z := s.sets id
  if z.refcount ≠ 1 then s
  else if (s.pools z.pool).num_descriptors = 0 then s
  else
    match searchPreHashed s (s.pools z.pool).desc_sets z.hash z.key with
    | none => s
    | some _ =>
      let s1 := updPool s z.pool (fun p =>
        { p with desc_sets := p.desc_sets.eraseP (entryMatches s z.hash z.key) })
      if z.invalid then
        let s2 := updSet s1 id (fun w => { w with invalid := true })
        updPool s2 z.pool (fun p =>
          { p with alloc_desc_sets := p.alloc_desc_sets ++ [id] })
      else
        let s2 := updSet s1 id (fun w => { w with recycled := true })
        updPool s2 z.pool (fun p =>
          { p with free_desc_sets := insertPreHashed s2 z.hash z.key id p.free_desc_sets })

/-- `zink_descriptor_set_invalidate`. -/
def zinkDescriptorSetInvalidate (s : St) (id : SetId) : St :=
  updSet s id (fun z => { z with invalid := true })

/-- `desc_set_ref_add` as used by `zink_resource_desc_set_add` and
siblings: store the resource in the slot and append
{slot pointer, &zds->invalid} to the resource's back-reference list
(the stored pointers are rendered as the (set id, slot index) pair). -/
def descSetRefAdd (s : St) (id : SetId) (idx : Nat) (res : Nat) : St :=
  let s1 := updSet s id (fun z =>
    { z with slots := Function.update z.slots idx (some res) })
  { s1 with refs := Function.update s1.refs res (s1.refs res ++ [(id, idx)]) }

/-- `zink_descriptor_set_refs_clear`: for every back-reference of `res`
whose slot still holds `res`, set the set's `invalid` flag and null the
slot; then discard the list. -/
def zinkDescriptorSetRefsClear (s : St) (res : Nat) : St :=
  let s1 := (s.refs res).foldl
    (fun acc r =>
      if (acc.sets r.1).slots r.2 = some res then
        updSet acc r.1 (fun z =>
          { z with invalid := true, slots := Function.update z.slots r.2 none })
      else acc) s
  { s1 with refs := Function.update s1.refs res [] }

/-- Modelled from the spec: batch retirement releases the batch's
reference on each dependent set (the batch code is not among the given
sources; §3 of the spec: the refcount is "decremented on batch
retirement"). -/
def releaseRef (s : St) (id : SetId) : St :=
  updSet s id (fun z => { z with refcount := z.refcount - 1 })

/-- External calls into the subsystem. -/
inductive Op where
  | get (t : TypeIdx) (hash : Nat) (key : DKey) (batchAdd : Bool)
  | recycle (id : SetId)
  | invalidate (id : SetId)
  | bind (id : SetId) (idx : Nat) (res : Nat)
  | refsClear (res : Nat)
  | release (id : SetId)

def stepOp (maxDescs : Nat) (s : St) : Op → St
  | .get t h k a => (zinkDescriptorSetGet maxDescs s t h k a).1
  | .recycle id => zinkDescriptorSetRecycle s id
  | .invalidate id => zinkDescriptorSetInvalidate s id
  | .bind id idx res => descSetRefAdd s id idx res
  | .refsClear res => zinkDescriptorSetRefsClear s res
  | .release id => releaseRef s id

/-- State right after `descriptor_pool_create` for every category:
empty maps, empty shell list, counter 0, no shortcuts. -/
def initSt (nd : TypeIdx → Nat) : St :=
  { nextId := 0, sets := fun _ => defaultZDS,
    pools := fun t =>
      { num_descriptors := nd t, desc_sets := [], free_desc_sets := [],
        alloc_desc_sets := [], num_sets_allocated := 0 },
    last_set := fun _ => none, refs := fun _ => [] }

/-- States reachable by any sequence of calls. -/
inductive Reach (maxDescs : Nat) : St → Prop
  | init (nd : TypeIdx → Nat) : Reach maxDescs (initSt nd)
  | step {s : St} (op : Op) : Reach maxDescs s → Reach maxDescs (stepOp maxDescs s op)

/-- Run a concrete call sequence from a fresh program. -/
def runOps (maxDescs : Nat) (nd : TypeIdx → Nat) (ops : List Op) : St :=
  ops.foldl (stepOp maxDescs) (initSt nd)

theorem reach_runOps (maxDescs : Nat) (nd : TypeIdx → Nat) (ops : List Op) :
    Reach maxDescs (runOps maxDescs nd ops) := by
  suffices h : ∀ s, Reach maxDescs s → Reach maxDescs (ops.foldl (stepOp maxDescs) s) by
    exact h _ (Reach.init nd)
  induction ops with
  | nil => exact fun s hs => hs
  | cons op rest ih => exact fun s hs => ih _ (Reach.step op hs)

/-- Modelled from the spec: the pool capacity ceiling
`ZINK_DEFAULT_MAX_DESCS`.  The header defining the constant
(`zink_descriptors.h`) is not among the given sources; the driver's value
is 5000 ("arena sized to a configured maximum object count"). -/
def ZINK_DEFAULT_MAX_DESCS : Nat := 5000

/-! ## Auxiliary notions used by the claims -/

/-- The multiset of revision numbers of the present stages of a
fingerprint. -/
def presentStates (k : DKey) : Multiset Nat :=
  ↑(((List.finRange 5).filter (fun i => k.ex i)).map k.st)

/-- Smallest power of 10 that is ≥ `N` (the spec's growth formula);
fuel-structured like `bucketLoop`. -/
def pow10Loop : Nat → Nat → Nat → Nat
  | 0, _, p => p
  | fuel + 1, N, p => if p < N then pow10Loop fuel N (p * 10) else p

def smallestPow10GE (N : Nat) : Nat := pow10Loop N N 1

/-- Modelled from the spec (§4.2), for refinement comparison with
`allocBucketSize`: "1 if this pool has never allocated anything needing
dedup bookkeeping, otherwise the smallest power of a fixed growth factor
(e.g. 10) that is ≥ N, clamped to remain within the pool's
allocated-count headroom under the capacity ceiling". -/
def specBucketSize (everDedup : Bool) (N headroom : Nat) : Nat :=
  if everDedup = false then 1 else min (smallestPow10GE N) headroom

/-- A fingerprint is present in a map when some entry's (pointer-derived)
key is `desc_state_equal` to it. -/
def keyInMap (s : St) (m : List Entry) (k : DKey) : Bool :=
  m.any fun e => descStateEqual (s.sets e.id).key k

/-- Concrete graphics fingerprints (vertex and fragment stages present)
with revisions (1,2) respectively (2,1): the same multiset of
present-stage revisions, permuted across the present stages. -/
def keyVF12 : DKey :=
  ⟨fun i => decide (i.val < 2), fun i => if i.val = 0 then 1 else if i.val = 1 then 2 else 0⟩

def keyVF21 : DKey :=
  ⟨fun i => decide (i.val < 2), fun i => if i.val = 0 then 2 else if i.val = 1 then 1 else 0⟩

/-- Concrete fingerprints with every stage absent and differing stage-0
state (stage-0 state is ignored by `desc_state_equal` when absent but
read by `desc_state_hash`). -/
def keyNone1 : DKey := ⟨fun _ => false, fun i => if i.val = 0 then 1 else 0⟩

def keyNone2 : DKey := ⟨fun _ => false, fun i => if i.val = 0 then 2 else 0⟩

/-- Pool configuration for the concrete traces: category 0 caches (one
schema slot), the other categories have no schema slots. -/
def ndOne : TypeIdx → Nat := fun t => if t = 0 then 1 else 0

/-- Call sequence after which the fingerprint `keyVF21` is present in both
the active map and the recycle map of pool 0: the set is invalidated and
reclaimed to the shell list while still cached as the last-used shortcut,
re-activated through the shortcut (leaving it both in the active map and
on the shell list), re-used from the shell list under the second
fingerprint (leaving a stale active entry), and finally recycled. -/
def disjointCexOps : List Op :=
  [.get 0 1 keyVF12 true, .invalidate 0, .release 0, .recycle 0,
   .get 0 1 keyVF12 true, .get 0 2 keyVF21 false, .release 0, .recycle 0]

/-- `zink_descriptor_set_recycle` would reach its invalid-reclaim branch
(refcount 1, caching pool, entry found in the active map, `invalid` set)
on this set in this state. -/
def recycleTakesInvalidBranch (s : St) (id : SetId) : Prop :=
  (s.sets id).refcount = 1 ∧
  (s.pools (s.sets id).pool).num_descriptors ≠ 0 ∧
  (searchPreHashed s (s.pools (s.sets id).pool).desc_sets
      (s.sets id).hash (s.sets id).key).isSome = true ∧
  (s.sets id).invalid = true

instance (s : St) (id : SetId) : Decidable (recycleTakesInvalidBranch s id) := by
  unfold recycleTakesInvalidBranch; infer_instance

/-- States reachable when the context presents each fingerprint with a
fixed hash (`H`), and batch retirement never recycles an invalidated set
(the invalid-reclaim branch of `zink_descriptor_set_recycle` is never
exercised). -/
inductive ReachC (maxDescs : Nat) (H : DKey → Nat) : St → Prop
  | init (nd : TypeIdx → Nat) : ReachC maxDescs H (initSt nd)
  | get {s : St} (t : TypeIdx) (k : DKey) (a : Bool) :
      ReachC maxDescs H s → ReachC maxDescs H (stepOp maxDescs s (.get t (H k) k a))
  | recycle {s : St} (id : SetId) :
      ReachC maxDescs H s → ¬ recycleTakesInvalidBranch s id →
      ReachC maxDescs H (stepOp maxDescs s (.recycle id))
  | invalidate {s : St} (id : SetId) :
      ReachC maxDescs H s → ReachC maxDescs H (stepOp maxDescs s (.invalidate id))
  | bind {s : St} (id : SetId) (idx res : Nat) :
      ReachC maxDescs H s → ReachC maxDescs H (stepOp maxDescs s (.bind id idx res))
  | refsClear {s : St} (res : Nat) :
      ReachC maxDescs H s → ReachC maxDescs H (stepOp maxDescs s (.refsClear res))
  | release {s : St} (id : SetId) :
      ReachC maxDescs H s → ReachC maxDescs H (stepOp maxDescs s (.release id))

/-- A state with one invalidated, unreferenced set in pool 0's recycle
map (used to exercise the reclamation scan on a concrete input). -/
def scanWitSt : St := runOps 5000 ndOne [.get 0 1 keyVF12 false, .recycle 0, .invalidate 0]

/-! ## Basic lemmas on the fingerprint functions -/

theorem descStateEqual_iff (a b : DKey) :
    descStateEqual a b = true ↔
      (∀ i, a.ex i = b.ex i) ∧
      ∀ i, a.ex i = true → b.ex i = true → a.st i = b.st i := by
  simp only [descStateEqual, List.all_eq_true, List.mem_finRange, Bool.and_eq_true,
    beq_iff_eq, Bool.or_eq_true, Bool.not_eq_true', Bool.and_eq_false_iff, true_implies]
  constructor
  · intro h
    refine ⟨fun i => (h i).1, fun i ha hb => ?_⟩
    rcases (h i).2 with h' | h'
    · rcases h' with h' | h' <;> simp [ha, hb] at h'
    · exact h'
  · intro h i
    refine ⟨h.1 i, ?_⟩
    by_cases ha : a.ex i = true
    · exact Or.inr (h.2 i ha ((h.1 i) ▸ ha))
    · exact Or.inl (Or.inl (by simpa using ha))

theorem descStateEqual_refl (a : DKey) : descStateEqual a a = true := by
  rw [descStateEqual_iff]; exact ⟨fun _ => rfl, fun _ _ _ => rfl⟩

theorem descStateEqual_symm {a b : DKey} (h : descStateEqual a b = true) :
    descStateEqual b a = true := by
  rw [descStateEqual_iff] at h ⊢
  exact ⟨fun i => (h.1 i).symm, fun i hb ha => (h.2 i ha hb).symm⟩

theorem descStateEqual_trans {a b c : DKey} (h₁ : descStateEqual a b = true)
    (h₂ : descStateEqual b c = true) : descStateEqual a c = true := by
  rw [descStateEqual_iff] at h₁ h₂ ⊢
  refine ⟨fun i => (h₁.1 i).trans (h₂.1 i), fun i ha hc => ?_⟩
  have hb : b.ex i = true := (h₁.1 i) ▸ ha
  exact (h₁.2 i ha hb).trans (h₂.2 i hb hc)

theorem hashFold_congr (f : Nat → Nat → Nat) (a b : DKey) (hex : ∀ i, a.ex i = b.ex i)
    (hst : ∀ i, a.ex i = true → a.st i = b.st i) (l : List (Fin 5)) (h0 : Nat) :
    l.foldl (fun h i => if a.ex i then f (a.st i) h else h) h0 =
    l.foldl (fun h i => if b.ex i then f (b.st i) h else h) h0 := by
  induction l generalizing h0 with
  | nil => rfl
  | cons i rest ih =>
    simp only [List.foldl_cons]
    by_cases hi : a.ex i = true
    · rw [if_pos hi, if_pos ((hex i) ▸ hi), hst i hi]; exact ih _
    · rw [if_neg hi, if_neg (by rw [← hex i]; exact hi)]; exact ih _

/-! ## C6 — the fingerprint hash is not an order-independent combine -/

/-- C6 counterexample: `keyVF12` and `keyVF21` have the same existence
pattern and the same multiset of present-stage revision numbers (the
revisions 1 and 2 swapped between the two present stages), yet
`desc_state_hash` differs — the XXH32 fold seeds each round with the
previous hash, so it is order-dependent. -/
theorem C6_counterexample :
    keyVF12.ex = keyVF21.ex ∧ presentStates keyVF12 = presentStates keyVF21 ∧
    descStateHash keyVF12 ≠ descStateHash keyVF21 := by
  refine ⟨by decide, ?_, by decide⟩
  show ((List.map keyVF12.st _ : List Nat) : Multiset Nat) = _
  have h1 : (List.map keyVF12.st ((List.finRange 5).filter fun i => keyVF12.ex i)) = [1, 2] := by
    decide
  have h2 : (List.map keyVF21.st ((List.finRange 5).filter fun i => keyVF21.ex i)) = [2, 1] := by
    decide
  unfold presentStates
  rw [h1, h2]
  exact Quot.sound (List.Perm.swap 2 1 [])

/-- C6 (amended): the hash is the order-dependent XXH32 fold, seeded with
the running hash, over present-stage revisions in stage order; only the
single-stage shortcut of the claim holds — a fingerprint whose fragment
stage is absent (every compute fingerprint) hashes to the bare stage-0
revision number. -/
theorem C6_compute_hash (k : DKey) (h : k.ex PIPE_SHADER_FRAGMENT = false) :
    descStateHash k = k.st 0 := by
  unfold descStateHash
  rw [if_pos h]

theorem C6_compute_hash_witness : descStateHash keyNone1 = keyNone1.st 0 :=
  C6_compute_hash keyNone1 (by decide)

/-! ## C10 — hash consistency with equality -/

/-- C10 counterexample: two keys with every stage absent are
`desc_state_equal` (stage-0 state is ignored by equality when the stage is
absent), but `desc_state_hash` reads the bare stage-0 state whenever the
fragment stage is absent, so the hashes differ. -/
theorem C10_counterexample :
    descStateEqual keyNone1 keyNone2 = true ∧
    descStateHash keyNone1 ≠ descStateHash keyNone2 := by decide

/-- C10 (amended): `desc_state_equal` implies equal `desc_state_hash`
provided stage 0 or the fragment stage is present (the failure needs a key
whose stage 0 and fragment stage are both absent, so that the compute
shortcut reads a state that equality never compared). -/
theorem C10_hash_consistent (a b : DKey) (heq : descStateEqual a b = true)
    (hpresent : a.ex 0 = true ∨ a.ex PIPE_SHADER_FRAGMENT = true) :
    descStateHash a = descStateHash b := by
  rw [descStateEqual_iff] at heq
  unfold descStateHash
  by_cases hf : a.ex PIPE_SHADER_FRAGMENT = true
  · rw [if_neg (by simp [hf]), if_neg (by simp [← heq.1 PIPE_SHADER_FRAGMENT, hf])]
    exact hashFold_congr xxh32u32 a b heq.1 (fun i hi => heq.2 i hi ((heq.1 i) ▸ hi)) _ _
  · have hf' : a.ex PIPE_SHADER_FRAGMENT = false := by simpa using hf
    have h0 : a.ex 0 = true := hpresent.resolve_right (by simp [hf'])
    rw [if_pos hf', if_pos (by rw [← heq.1 PIPE_SHADER_FRAGMENT]; exact hf')]
    exact heq.2 0 h0 ((heq.1 0) ▸ h0)

theorem C10_hash_consistent_witness :
    descStateEqual keyVF12 keyVF12 = true ∧ (keyVF12.ex 0 = true ∨ keyVF12.ex PIPE_SHADER_FRAGMENT = true) ∧
    descStateHash keyVF12 = descStateHash keyVF12 :=
  ⟨by decide, Or.inl (by decide),
    C10_hash_consistent keyVF12 keyVF12 (by decide) (Or.inl (by decide))⟩

/-! ## C5 — batched-allocation bucket size -/

/-- Once the wrapped factor has reached 0 (with target count positive) the
loop never exits. -/
theorem bucketLoop_zero (N : Nat) (hN : 0 < N) :
    ∀ fuel b, bucketLoop fuel N 0 b = none := by
  intro fuel
  induction fuel with
  | zero => intro b; rfl
  | succ n ih =>
    intro b
    show (if 0 < N then bucketLoop n N (0 * DESC_BUCKET_FACTOR % 2 ^ 32) 0
      else some b) = none
    rw [if_pos hN]
    rw [show (0 * DESC_BUCKET_FACTOR % 2 ^ 32 : Nat) = 0 from rfl]
    exact ih 0

theorem bucketLoop_tail (N : Nat) :
    ∀ m, m ≤ 31 → ∀ fuel b,
      bucketLoop (fuel + m + 2) N (10 ^ (32 - m) % 2 ^ 32) b =
      bucketLoop (m + 2) N (10 ^ (32 - m) % 2 ^ 32) b := by
  intro m
  induction m with
  | zero =>
    intro _ fuel b
    rw [show (10 : Nat) ^ (32 - 0) % 2 ^ 32 = 0 by norm_num]
    rcases Nat.eq_zero_or_pos N with hN | hN
    · subst hN
      show (if (0:Nat) < 0 then bucketLoop (fuel + 0 + 1) 0
          (0 * DESC_BUCKET_FACTOR % 2 ^ 32) 0 else some b) =
        (if (0:Nat) < 0 then bucketLoop 1 0 (0 * DESC_BUCKET_FACTOR % 2 ^ 32) 0
          else some b)
      rw [if_neg (lt_irrefl 0), if_neg (lt_irrefl 0)]
    · rw [bucketLoop_zero N hN, bucketLoop_zero N hN]
  | succ m ih =>
    intro hm fuel b
    have hm' : m ≤ 31 := Nat.le_of_succ_le hm
    have hexp : (10 : Nat) ^ (32 - (m + 1)) * DESC_BUCKET_FACTOR =
        10 ^ (32 - m) := by
      show (10 : Nat) ^ (32 - (m + 1)) * 10 = 10 ^ (32 - m)
      rw [← pow_succ]
      congr 1
      omega
    show (if 10 ^ (32 - (m + 1)) % 2 ^ 32 < N then
        bucketLoop (fuel + m + 2) N
          (10 ^ (32 - (m + 1)) % 2 ^ 32 * DESC_BUCKET_FACTOR % 2 ^ 32)
          (10 ^ (32 - (m + 1)) % 2 ^ 32)
      else some b) =
      (if 10 ^ (32 - (m + 1)) % 2 ^ 32 < N then
        bucketLoop (m + 2) N
          (10 ^ (32 - (m + 1)) % 2 ^ 32 * DESC_BUCKET_FACTOR % 2 ^ 32)
          (10 ^ (32 - (m + 1)) % 2 ^ 32)
      else some b)
    by_cases hc : 10 ^ (32 - (m + 1)) % 2 ^ 32 < N
    · rw [if_pos hc, if_pos hc]
      rw [Nat.mod_mul_mod, hexp]
      exact ih hm' fuel _
    · rw [if_neg hc, if_neg hc]

/-- 33 units of fuel suffice for the actual entry point: any extra fuel
computes the same result. -/
theorem bucketLoop_fuel (N fuel : Nat) :
    bucketLoop (fuel + 33) N DESC_BUCKET_FACTOR DESC_BUCKET_FACTOR =
      bucketLoop 33 N DESC_BUCKET_FACTOR DESC_BUCKET_FACTOR := by
  have h := bucketLoop_tail N 31 (le_refl 31) fuel DESC_BUCKET_FACTOR
  rw [show (10 : Nat) ^ (32 - 31) % 2 ^ 32 = 10 from by norm_num] at h
  exact h

/-- Loop invariant in the wrap-free regime `N ≤ 10^9`: the iterated factor
stays a power of 10 small enough that the `% 2^32` never bites, and the
result is the largest power of 10 strictly below `N`. -/
theorem bucketLoop_inv : ∀ (fuel f b N : Nat),
    b * 10 = f → 10 ≤ b → (∃ k, b = 10 ^ (k + 1)) → b < N → N ≤ 10 ^ 9 →
    N ≤ 10 ^ fuel * f →
    ∃ r, bucketLoop (fuel + 1) N f b = some r ∧ 10 ≤ r ∧
      (∃ k, r = 10 ^ (k + 1)) ∧ N ≤ r * 10 ∧ r < N := by
  intro fuel
  induction fuel with
  | zero =>
    intro f b N hrel hb hpow hbN hN9 hfuel
    refine ⟨b, ?_, hb, hpow, by rw [hrel]; simpa using hfuel, hbN⟩
    show (if f < N then bucketLoop 0 N (f * DESC_BUCKET_FACTOR % 2 ^ 32) f
      else some b) = some b
    rw [if_neg (by simp at hfuel; omega)]
  | succ n ih =>
    intro f b N hrel hb hpow hbN hN9 hfuel
    have hunfold : bucketLoop (n + 1 + 1) N f b =
        if f < N then bucketLoop (n + 1) N (f * DESC_BUCKET_FACTOR % 2 ^ 32) f
        else some b := rfl
    rw [hunfold]
    by_cases hfN : f < N
    · rw [if_pos hfN]
      have hfpow : ∃ k, f = 10 ^ (k + 1) := by
        obtain ⟨k, hk⟩ := hpow
        exact ⟨k + 1, by rw [← hrel, hk]; ring⟩
      obtain ⟨k, hk⟩ := hfpow
      have hf9 : f * 10 ≤ 10 ^ 9 := by
        have h1 : (10 : Nat) ^ (k + 1) < 10 ^ 9 := lt_of_lt_of_le (hk ▸ hfN) hN9
        have h2 : k + 1 < 9 := by
          by_contra hge
          exact absurd h1
            (not_lt.mpr (Nat.pow_le_pow_right (by norm_num) (Nat.le_of_not_lt hge)))
        calc f * 10 = 10 ^ (k + 2) := by rw [hk]; ring
          _ ≤ 10 ^ 9 := Nat.pow_le_pow_right (by norm_num) (by omega)
      have hmod : f * DESC_BUCKET_FACTOR % 2 ^ 32 = f * 10 := by
        show f * 10 % 2 ^ 32 = f * 10
        exact Nat.mod_eq_of_lt (lt_of_le_of_lt hf9 (by norm_num))
      rw [hmod]
      refine ih (f * 10) f N rfl (by omega) ⟨k, hk⟩ hfN hN9 ?_
      calc N ≤ 10 ^ (n + 1) * f := hfuel
        _ = 10 ^ n * (f * 10) := by ring
    · rw [if_neg hfN]
      exact ⟨b, rfl, hb, hpow, by rw [hrel]; omega, hbN⟩

/-- In the boundary regime `10^9 < N ≤ 10^10 % 2^32 = 1410065408` the first
wrapped factor already ends the loop, so the result is still the ideal
`10^9`. -/
theorem bucketLoop_wrapEdge (N : Nat) (h1 : 10 ^ 9 < N) (h2 : N ≤ 1410065408) :
    bucketLoop 33 N 10 10 = some 1000000000 := by
  have h1' : 1000000000 < N := by
    calc (1000000000 : Nat) = 10 ^ 9 := by norm_num
      _ < N := h1
  show (if 10 < N then bucketLoop 32 N (10 * DESC_BUCKET_FACTOR % 2 ^ 32) 10
    else some 10) = some 1000000000
  rw [if_pos (by omega)]
  show (if 100 < N then bucketLoop 31 N (100 * DESC_BUCKET_FACTOR % 2 ^ 32) 100
    else some 10) = some 1000000000
  rw [if_pos (by omega)]
  show (if 1000 < N then bucketLoop 30 N (1000 * DESC_BUCKET_FACTOR % 2 ^ 32) 1000
    else some 100) = some 1000000000
  rw [if_pos (by omega)]
  show (if 10000 < N then bucketLoop 29 N (10000 * DESC_BUCKET_FACTOR % 2 ^ 32) 10000
    else some 1000) = some 1000000000
  rw [if_pos (by omega)]
  show (if 100000 < N then
      bucketLoop 28 N (100000 * DESC_BUCKET_FACTOR % 2 ^ 32) 100000
    else some 10000) = some 1000000000
  rw [if_pos (by omega)]
  show (if 1000000 < N then
      bucketLoop 27 N (1000000 * DESC_BUCKET_FACTOR % 2 ^ 32) 1000000
    else some 100000) = some 1000000000
  rw [if_pos (by omega)]
  show (if 10000000 < N then
      bucketLoop 26 N (10000000 * DESC_BUCKET_FACTOR % 2 ^ 32) 10000000
    else some 1000000) = some 1000000000
  rw [if_pos (by omega)]
  show (if 100000000 < N then
      bucketLoop 25 N (100000000 * DESC_BUCKET_FACTOR % 2 ^ 32) 100000000
    else some 10000000) = some 1000000000
  rw [if_pos (by omega)]
  show (if 1000000000 < N then
      bucketLoop 24 N (1000000000 * DESC_BUCKET_FACTOR % 2 ^ 32) 1000000000
    else some 100000000) = some 1000000000
  rw [if_pos (by omega)]
  show (if 1410065408 < N then
      bucketLoop 23 N (1410065408 * DESC_BUCKET_FACTOR % 2 ^ 32) 1410065408
    else some 1000000000) = some 1000000000
  rw [if_neg (by omega)]

/-- For an odd target count that no wrapped factor ever reaches, the loop
never exits: the factor is always even (a multiple of 10 reduced mod the
even modulus 2^32), so it never equals `2^32 - 1` and never passes it. -/
theorem bucketLoop_even_none :
    ∀ fuel f b, 2 ∣ f → f < 2 ^ 32 →
      bucketLoop fuel (2 ^ 32 - 1) f b = none := by
  intro fuel
  induction fuel with
  | zero => intro f b _ _; rfl
  | succ n ih =>
    intro f b hf hlt
    have h32 : (2 : Nat) ^ 32 = 4294967296 := by norm_num
    have hflt : f < 2 ^ 32 - 1 := by
      obtain ⟨c, rfl⟩ := hf
      rw [h32] at hlt ⊢
      omega
    show (if f < 2 ^ 32 - 1 then
        bucketLoop n (2 ^ 32 - 1) (f * DESC_BUCKET_FACTOR % 2 ^ 32) f
      else some b) = none
    rw [if_pos hflt]
    refine ih _ _ ?_ (Nat.mod_lt _ (by norm_num))
    have h1 : (2 : Nat) ∣ f * DESC_BUCKET_FACTOR := ⟨f * 5, by
      show f * 10 = 2 * (f * 5)
      ring⟩
    have h2 : (2 : Nat) ∣ 2 ^ 32 := dvd_pow_self 2 (by norm_num)
    exact (Nat.dvd_mod_iff h2).mpr h1

theorem allocBucketSize_spec (d N : Nat) (hd : d ≠ 0) (hN : N ≤ 1410065408) :
    10 ≤ allocBucketSize d N ∧ (∃ k, allocBucketSize d N = 10 ^ (k + 1)) ∧
    N ≤ allocBucketSize d N * 10 ∧ (allocBucketSize d N = 10 ∨ allocBucketSize d N < N) := by
  unfold allocBucketSize DESC_BUCKET_FACTOR
  rw [if_neg hd]
  by_cases hN9 : N ≤ 10 ^ 9
  · by_cases hN10 : 10 < N
    · have hstep : bucketLoop 33 N 10 10 = bucketLoop 32 N 100 10 := by
        show (if 10 < N then bucketLoop 32 N (10 * DESC_BUCKET_FACTOR % 2 ^ 32) 10
          else some 10) = _
        rw [if_pos hN10]
        rfl
      obtain ⟨r, hr, hr10, hrpow, hrN, hrlt⟩ :=
        bucketLoop_inv 31 100 10 N rfl (by norm_num) ⟨0, by norm_num⟩ hN10 hN9
          (by calc N ≤ 10 ^ 9 := hN9
              _ ≤ 10 ^ 31 * 100 := by norm_num)
      rw [show (31 + 1 : Nat) = 32 from rfl] at hr
      rw [hstep, hr]
      exact ⟨hr10, hrpow, hrN, Or.inr hrlt⟩
    · have hres : bucketLoop 33 N 10 10 = some 10 := by
        show (if 10 < N then bucketLoop 32 N (10 * DESC_BUCKET_FACTOR % 2 ^ 32) 10
          else some 10) = _
        rw [if_neg hN10]
      rw [hres]
      exact ⟨le_refl 10, ⟨0, by norm_num⟩, by show N ≤ 10 * 10; omega, Or.inl rfl⟩
  · have h9 : 10 ^ 9 < N := Nat.lt_of_not_le hN9
    rw [bucketLoop_wrapEdge N h9 hN]
    refine ⟨by norm_num, ⟨8, rfl⟩, ?_, Or.inr ?_⟩
    · calc N ≤ 1410065408 := hN
        _ ≤ (some 1000000000).getD 0 * 10 := by norm_num
    · show (1000000000 : Nat) < N
      calc (1000000000 : Nat) = 10 ^ 9 := by norm_num
        _ < N := h9

/-- C5 counterexample.  In range: for target count N = 11 in a caching
pool (`num_descriptors = 3`) with ample headroom (4997), the code's
bucket is 10 — the loop keeps the largest power of 10 strictly below N —
while the spec formula gives the smallest power of 10 ≥ N (here 100)
clamped to the headroom; there is no headroom clamp in the code at all.
Out of range: the 32-bit wrap of `desc_factor` makes the universally
quantified power-of-10 shape false — for N = 2·10^9 the loop returns
1215752192, which is no power of 10 — and for N = 2^32 − 1 the loop
never terminates at any fuel. -/
theorem C5_counterexample :
    (allocBucketSize 3 11 = 10 ∧ specBucketSize true 11 4997 = 100 ∧
      allocBucketSize 3 11 ≠ specBucketSize true 11 4997) ∧
    (allocBucketSize 3 2000000000 = 1215752192 ∧
      (∀ k, (1215752192 : Nat) ≠ 10 ^ k)) ∧
    (∀ fuel, bucketLoop fuel (2 ^ 32 - 1) 10 10 = none) := by
  refine ⟨by decide, ⟨by decide, ?_⟩, ?_⟩
  · intro k
    cases k with
    | zero => decide
    | succ m =>
      intro h
      have hd : (10 : Nat) ∣ 1215752192 := by
        rw [h]
        exact dvd_pow_self 10 (Nat.succ_ne_zero m)
      exact absurd hd (by decide)
  · intro fuel
    exact bucketLoop_even_none fuel 10 10 ⟨5, rfl⟩ (by norm_num)

/-- C5 (amended): the bucket size is 1 when the pool's schema has no slots
(`num_descriptors == 0`: a null pool whose sets need no dedup
bookkeeping); otherwise, for every target count N up to
`10^10 % 2^32 = 1410065408` — beyond which the 32-bit wrap of
`desc_factor` yields non-powers of 10 or non-termination — it is a power
of 10, at least `DESC_BUCKET_FACTOR = 10`, satisfying `N ≤ bucket * 10`
and `bucket = 10 ∨ bucket < N` — i.e. the largest power of the growth
factor strictly below N (not the smallest one ≥ N), with no clamping to
the pool's remaining capacity headroom. -/
theorem C5_bucket_size (d N : Nat) :
    allocBucketSize 0 N = 1 ∧
    (d ≠ 0 → N ≤ 1410065408 →
      10 ≤ allocBucketSize d N ∧ (∃ k, allocBucketSize d N = 10 ^ (k + 1)) ∧
      N ≤ allocBucketSize d N * 10 ∧ (allocBucketSize d N = 10 ∨ allocBucketSize d N < N)) :=
  ⟨rfl, fun hd hN => allocBucketSize_spec d N hd hN⟩

theorem C5_bucket_size_witness :
    allocBucketSize 0 11 = 1 ∧
    (10 ≤ allocBucketSize 3 11 ∧ (∃ k, allocBucketSize 3 11 = 10 ^ (k + 1)) ∧
      11 ≤ allocBucketSize 3 11 * 10 ∧ (allocBucketSize 3 11 = 10 ∨ allocBucketSize 3 11 < 11)) :=
  ⟨(C5_bucket_size 3 11).1, (C5_bucket_size 3 11).2 (by decide) (by decide)⟩

/-! ## C4 — refcount safety of the reclamation scan and of recycle -/

theorem scanFree_refcount (s : St) (l : List Entry) (e : Entry) :
    ∀ count, scanFree s count l = some e → (s.sets e.id).refcount = 1 := by
  induction l with
  | nil => intro count h; simp [scanFree] at h
  | cons e' rest ih =>
    intro count h
    simp only [scanFree] at h
    split at h
    case isTrue hc =>
      cases h
      rcases Bool.or_eq_true _ _ ▸ hc with h' | h' <;>
        exact beq_iff_eq.mp (Bool.and_eq_true _ _ ▸ h').2
    case isFalse hc => exact ih _ h

/-- C4: the reclamation scan of `zink_descriptor_set_get` (over
`free_desc_sets`) only ever selects an entry whose set has reference
count exactly 1 (both disjuncts of its condition require
`reference.count == 1`), and `zink_descriptor_set_recycle` on a set whose
atomically read refcount is not exactly 1 returns with the state
unchanged — nothing is inserted into the recycle map. -/
theorem C4_refcount_safety (s : St) (id : SetId) (l : List Entry) (e : Entry) (count : Nat) :
    (scanFree s count l = some e → (s.sets e.id).refcount = 1) ∧
    ((s.sets id).refcount ≠ 1 → zinkDescriptorSetRecycle s id = s) := by
  refine ⟨scanFree_refcount s l e count, fun h => ?_⟩
  unfold zinkDescriptorSetRecycle
  rw [if_pos h]

theorem C4_refcount_safety_witness :
    (scanWitSt.sets (0 : SetId)).refcount = 1 ∧
    zinkDescriptorSetRecycle (initSt ndOne) 0 = initSt ndOne :=
  ⟨(C4_refcount_safety scanWitSt 0 (scanWitSt.pools 0).free_desc_sets ⟨1, 0⟩ 0).1 (by decide),
   (C4_refcount_safety (initSt ndOne) 0 [] ⟨1, 0⟩ 0).2 (by decide)⟩

/-! ## State-projection lemmas -/

@[simp] theorem updSet_sets (s : St) (id : SetId) (f : ZDS → ZDS) (j : SetId) :
    (updSet s id f).sets j = if j = id then f (s.sets id) else s.sets j := by
  simp [updSet, Function.update_apply]

@[simp] theorem updSet_pools (s : St) (id : SetId) (f : ZDS → ZDS) :
    (updSet s id f).pools = s.pools := rfl

@[simp] theorem updSet_last_set (s : St) (id : SetId) (f : ZDS → ZDS) :
    (updSet s id f).last_set = s.last_set := rfl

@[simp] theorem updSet_nextId (s : St) (id : SetId) (f : ZDS → ZDS) :
    (updSet s id f).nextId = s.nextId := rfl

@[simp] theorem updSet_refs (s : St) (id : SetId) (f : ZDS → ZDS) :
    (updSet s id f).refs = s.refs := rfl

@[simp] theorem updPool_pools (s : St) (t : TypeIdx) (f : Pool → Pool) (u : TypeIdx) :
    (updPool s t f).pools u = if u = t then f (s.pools t) else s.pools u := by
  simp [updPool, Function.update_apply]

@[simp] theorem updPool_sets (s : St) (t : TypeIdx) (f : Pool → Pool) :
    (updPool s t f).sets = s.sets := rfl

@[simp] theorem updPool_last_set (s : St) (t : TypeIdx) (f : Pool → Pool) :
    (updPool s t f).last_set = s.last_set := rfl

@[simp] theorem updPool_nextId (s : St) (t : TypeIdx) (f : Pool → Pool) :
    (updPool s t f).nextId = s.nextId := rfl

@[simp] theorem updPool_refs (s : St) (t : TypeIdx) (f : Pool → Pool) :
    (updPool s t f).refs = s.refs := rfl

theorem find?_congr {α : Type} (p q : α → Bool) (l : List α) (h : ∀ a, p a = q a) :
    l.find? p = l.find? q := by
  induction l with
  | nil => rfl
  | cons x xs ih =>
    simp only [List.find?]
    rw [h x]
    cases q x with
    | true => rfl
    | false => exact ih

/-- `entryMatches` only reads the stored hash and the referenced set's
key, so it is unchanged by a set update that preserves the key. -/
theorem entryMatches_updSet (s : St) (id : SetId) (f : ZDS → ZDS)
    (hkey : (f (s.sets id)).key = (s.sets id).key) (h : Nat) (k : DKey) (e : Entry) :
    entryMatches (updSet s id f) h k e = entryMatches s h k e := by
  unfold entryMatches
  by_cases hid : e.id = id
  · simp [hid, hkey]
  · simp [hid]

/-! ## quick_out / out facts -/

theorem quickOut_snd (s : St) (t : TypeIdx) (id : SetId) (a hit : Bool) :
    (quickOut s t id a hit).2 = .ok id hit := rfl

theorem quickOut_fst_pools (s : St) (t : TypeIdx) (id : SetId) (a hit : Bool) :
    (quickOut s t id a hit).1.pools = s.pools := rfl

theorem quickOut_fst_last_set (s : St) (t : TypeIdx) (id : SetId) (a hit : Bool) (u : TypeIdx) :
    (quickOut s t id a hit).1.last_set u = if u = t then some id else s.last_set u := by
  simp [quickOut, Function.update_apply]

theorem quickOut_fst_sets_same (s : St) (t : TypeIdx) (id : SetId) (a hit : Bool) :
    (quickOut s t id a hit).1.sets id =
      { s.sets id with
          invalid := false,
          refcount := (if a then (s.sets id).refcount + 1 else (s.sets id).refcount) } := by
  simp [quickOut]

theorem quickOut_fst_sets_ne (s : St) (t : TypeIdx) (id : SetId) (a hit : Bool)
    (j : SetId) (hj : j ≠ id) : (quickOut s t id a hit).1.sets j = s.sets j := by
  simp [quickOut, hj]

theorem outTail_snd (s : St) (t : TypeIdx) (h : Nat) (k : DKey) (id : SetId) (a hit : Bool) :
    (outTail s t h k id a hit).2 = .ok id hit := by
  dsimp only [outTail]
  split <;> rfl

theorem outTail_fst_last_set_t (s : St) (t : TypeIdx) (h : Nat) (k : DKey)
    (id : SetId) (a hit : Bool) : (outTail s t h k id a hit).1.last_set t = some id := by
  dsimp only [outTail]
  split <;> simp [quickOut_fst_last_set]

theorem outTail_fst_sets_same (s : St) (t : TypeIdx) (h : Nat) (k : DKey)
    (id : SetId) (a hit : Bool) :
    ∃ rc, (outTail s t h k id a hit).1.sets id =
      { s.sets id with
          hash := h, key := k, recycled := false, invalid := false,
          refcount := rc } := by
  dsimp only [outTail]
  split <;>
    exact ⟨(if a then (s.sets id).refcount + 1 else (s.sets id).refcount), by simp [quickOut]⟩

theorem outTail_fst_pools_nd (s : St) (t : TypeIdx) (h : Nat) (k : DKey)
    (id : SetId) (a hit : Bool) (u : TypeIdx) :
    ((outTail s t h k id a hit).1.pools u).num_descriptors = (s.pools u).num_descriptors := by
  dsimp only [outTail]
  split <;> simp [quickOut] <;>
    rcases eq_or_ne u t with hu | hu <;> simp [hu]

theorem allocateDescSet_pools_nd (s : St) (t : TypeIdx) (n : Nat) (u : TypeIdx) :
    ((allocateDescSet s t n).1.pools u).num_descriptors = (s.pools u).num_descriptors := by
  dsimp only [allocateDescSet]
  rcases eq_or_ne u t with hu | hu <;> simp [hu]

theorem searchPreHashed_quickOut (s : St) (t : TypeIdx) (id : SetId) (a hit : Bool)
    (m : List Entry) (h : Nat) (k : DKey) :
    searchPreHashed (quickOut s t id a hit).1 m h k = searchPreHashed s m h k := by
  unfold searchPreHashed
  refine find?_congr _ _ m fun e => ?_
  unfold entryMatches
  by_cases hid : e.id = id <;> simp [quickOut, hid]

/-! ## A repeated lookup lands on the set just returned -/

/-- After any path of `zink_descriptor_set_get` that ends in `out:`, an
immediate repeat of the same lookup hits the last-used shortcut and
reports a cache hit on the same set. -/
theorem get_after_outTail (maxDescs : Nat) (s : St) (t : TypeIdx) (hIn h : Nat) (k : DKey)
    (id : SetId) (a hit a₂ : Bool)
    (hh : h = (if (s.pools t).num_descriptors ≠ 0 then hIn else 0)) :
    (zinkDescriptorSetGet maxDescs (outTail s t h k id a hit).1 t hIn k a₂).2 =
      .ok id true := by
  obtain ⟨rc, hset⟩ := outTail_fst_sets_same s t h k id a hit
  have hls := outTail_fst_last_set_t s t h k id a hit
  have hnd := outTail_fst_pools_nd s t h k id a hit t
  dsimp only [zinkDescriptorSetGet]
  simp only [hls, hnd, ← hh, hset, descStateEqual_refl, beq_self_eq_true, Bool.and_true,
    Bool.true_and, if_true, Bool.and_false, Bool.not_false, outTail_snd]

/-- After an active-map hit (the `quick_out` path), an immediate repeat of
the same lookup returns the same set with a cache hit. -/
theorem get_after_activeHit (maxDescs : Nat) (s : St) (t : TypeIdx) (h : Nat) (k : DKey)
    (he : Entry) (a₁ hit' a₂ : Bool)
    (hnd : (s.pools t).num_descriptors ≠ 0)
    (hfind : searchPreHashed s (s.pools t).desc_sets h k = some he) :
    (zinkDescriptorSetGet maxDescs (quickOut s t he.id a₁ hit').1 t h k a₂).2 =
      .ok he.id true := by
  have hls : (quickOut s t he.id a₁ hit').1.last_set t = some he.id := by
    rw [quickOut_fst_last_set, if_pos rfl]
  have hpools := quickOut_fst_pools s t he.id a₁ hit'
  have hinv : ((quickOut s t he.id a₁ hit').1.sets he.id).invalid = false := by
    rw [quickOut_fst_sets_same]
  dsimp only [zinkDescriptorSetGet]
  simp only [hls, hpools]
  rw [if_pos hnd]
  by_cases hc : (((quickOut s t he.id a₁ hit').1.sets he.id).hash == h &&
      descStateEqual ((quickOut s t he.id a₁ hit').1.sets he.id).key k) = true
  · rw [if_pos hc, outTail_snd, hinv]
    rfl
  · rw [if_neg hc]
    dsimp only [getMain]
    simp only [hpools]
    rw [if_pos hnd]
    simp only [searchPreHashed_quickOut, hfind]
    rw [quickOut_snd, hinv]
    rfl

/-- After the empty-schema shortcut path, an immediate repeat of the same
lookup returns the same placeholder set with `cacheHit = true`. -/
theorem get_after_nullQuick (maxDescs : Nat) (s : St) (t : TypeIdx) (h : Nat) (k : DKey)
    (ls : SetId) (a₁ a₂ : Bool)
    (hnd : (s.pools t).num_descriptors = 0)
    (hlast : s.last_set t = some ls)
    (hk0 : ((s.sets ls).hash == 0) = true) :
    (zinkDescriptorSetGet maxDescs (quickOut s t ls a₁ true).1 t h k a₂).2 =
      .ok ls true := by
  have hls : (quickOut s t ls a₁ true).1.last_set t = some ls := by
    rw [quickOut_fst_last_set, if_pos rfl]
  have hpools := quickOut_fst_pools s t ls a₁ true
  have hset : (quickOut s t ls a₁ true).1.sets ls = { s.sets ls with
      invalid := false,
      refcount := (if a₁ then (s.sets ls).refcount + 1 else (s.sets ls).refcount) } := by
    rw [quickOut_fst_sets_same]
  have hnd' : ¬ (s.pools t).num_descriptors ≠ 0 := by simpa using hnd
  dsimp only [zinkDescriptorSetGet]
  simp only [hls, hpools]
  rw [if_neg hnd']
  by_cases hc : (((quickOut s t ls a₁ true).1.sets ls).hash == 0 &&
      descStateEqual ((quickOut s t ls a₁ true).1.sets ls).key k) = true
  · rw [if_pos hc]
    have hinv : ((quickOut s t ls a₁ true).1.sets ls).invalid = false := by rw [hset]
    rw [outTail_snd, hinv]
    rfl
  · rw [if_neg hc]
    dsimp only [getMain]
    simp only [hpools]
    rw [if_neg hnd']
    simp only [hls]
    rw [show ((quickOut s t ls a₁ true).1.sets ls).hash = (s.sets ls).hash by rw [hset],
      if_pos hk0]
    exact quickOut_snd _ _ _ _ _

theorem prod_eq_split {α β : Type} {x : α × β} {a : α} {b : β} (h : x = (a, b)) :
    x.1 = a ∧ x.2 = b := by rw [h]; exact ⟨rfl, rfl⟩

/-- Any successful return of the post-shortcut portion of
`zink_descriptor_set_get` is immediately repeatable: the same lookup on
the produced state returns the same set with a cache hit. -/
theorem getMain_then_get (maxDescs : Nat) (s : St) (t : TypeIdx) (h : Nat) (k : DKey)
    (a₁ a₂ : Bool) (id : SetId) (hit₁ : Bool) (s₁ : St) (res : GetRes)
    (hr : getMain maxDescs s t (if (s.pools t).num_descriptors ≠ 0 then h else 0) k a₁ =
      (s₁, res))
    (hres : res = .ok id hit₁) :
    (zinkDescriptorSetGet maxDescs s₁ t h k a₂).2 = .ok id true := by
  by_cases hnd : (s.pools t).num_descriptors ≠ 0
  · rw [if_pos hnd] at hr
    dsimp only [getMain] at hr
    rw [if_pos hnd] at hr
    rcases hfind : searchPreHashed s (s.pools t).desc_sets h k with _ | he <;>
      simp only [hfind] at hr
    · rcases hfree : searchPreHashed s (s.pools t).free_desc_sets h k with _ | he <;>
        simp only [hfree] at hr
      · rcases hpop : (s.pools t).alloc_desc_sets.getLast? with _ | pid <;>
          simp only [hpop] at hr
        · rcases hscan : scanFree s 0 (s.pools t).free_desc_sets with _ | e <;>
            simp only [hscan] at hr
          · by_cases hcap :
                (s.pools t).num_sets_allocated + (s.pools t).num_descriptors > maxDescs
            · rw [if_pos hcap] at hr
              obtain ⟨h1, h2⟩ := prod_eq_split hr
              rw [hres] at h2
              exact absurd h2.symm (by simp)
            · rw [if_neg hcap] at hr
              obtain ⟨h1, h2⟩ := prod_eq_split hr
              rw [outTail_snd, hres] at h2
              obtain ⟨hid, _⟩ := GetRes.ok.inj h2
              rw [← h1, ← hid]
              exact get_after_outTail maxDescs _ t h h k _ a₁ false a₂
                (by rw [allocateDescSet_pools_nd, if_pos hnd])
          · obtain ⟨h1, h2⟩ := prod_eq_split hr
            rw [outTail_snd, hres] at h2
            obtain ⟨hid, _⟩ := GetRes.ok.inj h2
            rw [← h1, ← hid]
            exact get_after_outTail maxDescs _ t h h k _ a₁ false a₂
              (by simp [if_pos hnd])
        · obtain ⟨h1, h2⟩ := prod_eq_split hr
          rw [outTail_snd, hres] at h2
          obtain ⟨hid, _⟩ := GetRes.ok.inj h2
          rw [← h1, ← hid]
          exact get_after_outTail maxDescs _ t h h k _ a₁ false a₂
            (by simp [if_pos hnd])
      · obtain ⟨h1, h2⟩ := prod_eq_split hr
        rw [outTail_snd, hres] at h2
        obtain ⟨hid, _⟩ := GetRes.ok.inj h2
        rw [← h1, ← hid]
        exact get_after_outTail maxDescs _ t h h k _ a₁ _ a₂
          (by simp [if_pos hnd])
    · obtain ⟨h1, h2⟩ := prod_eq_split hr
      rw [quickOut_snd, hres] at h2
      obtain ⟨hid, _⟩ := GetRes.ok.inj h2
      rw [← h1, ← hid]
      exact get_after_activeHit maxDescs s t h k he a₁ _ a₂ hnd hfind
  · rw [if_neg hnd] at hr
    have hnd0 : (s.pools t).num_descriptors = 0 := by simpa using hnd
    dsimp only [getMain] at hr
    rw [if_neg hnd] at hr
    rcases hlast : s.last_set t with _ | ls <;> simp only [hlast] at hr
    · obtain ⟨h1, h2⟩ := prod_eq_split hr
      rw [outTail_snd, hres] at h2
      obtain ⟨hid, _⟩ := GetRes.ok.inj h2
      rw [← h1, ← hid]
      exact get_after_outTail maxDescs _ t h 0 k _ a₁ false a₂
        (by rw [allocateDescSet_pools_nd, if_neg hnd])
    · by_cases hk0 : ((s.sets ls).hash == 0) = true
      · rw [if_pos hk0] at hr
        obtain ⟨h1, h2⟩ := prod_eq_split hr
        rw [quickOut_snd, hres] at h2
        obtain ⟨hid, _⟩ := GetRes.ok.inj h2
        rw [← h1, ← hid]
        exact get_after_nullQuick maxDescs s t h k ls a₁ a₂ hnd0 hlast hk0
      · rw [if_neg hk0] at hr
        obtain ⟨h1, h2⟩ := prod_eq_split hr
        rw [outTail_snd, hres] at h2
        obtain ⟨hid, _⟩ := GetRes.ok.inj h2
        rw [← h1, ← hid]
        exact get_after_outTail maxDescs _ t h 0 k _ a₁ false a₂
          (by rw [allocateDescSet_pools_nd, if_neg hnd])

/-- If the last-used shortcut's set matches the lookup (same effective
hash, equal key) and is valid, the lookup returns it with a cache hit. -/
theorem get_shortcut_hit (maxDescs : Nat) (s : St) (t : TypeIdx) (h : Nat) (k : DKey)
    (a₂ : Bool) (id : SetId)
    (hls : s.last_set t = some id)
    (hhash : (s.sets id).hash = (if (s.pools t).num_descriptors ≠ 0 then h else 0))
    (hkey : descStateEqual (s.sets id).key k = true)
    (hinv : (s.sets id).invalid = false) :
    (zinkDescriptorSetGet maxDescs s t h k a₂).2 = .ok id true := by
  dsimp only [zinkDescriptorSetGet]
  simp only [hls]
  rw [if_pos (by rw [hhash, hkey]; simp)]
  rw [outTail_snd, hinv]
  rfl

/-- For an empty-schema pool, a valid last-used set with hash 0 is always
returned with `cacheHit = true`. -/
theorem get_null_hit (maxDescs : Nat) (s : St) (t : TypeIdx) (h : Nat) (k : DKey)
    (a₂ : Bool) (ls : SetId)
    (hnd : (s.pools t).num_descriptors = 0)
    (hls : s.last_set t = some ls)
    (hk0 : ((s.sets ls).hash == 0) = true)
    (hinv : (s.sets ls).invalid = false) :
    (zinkDescriptorSetGet maxDescs s t h k a₂).2 = .ok ls true := by
  have hnd' : ¬ (s.pools t).num_descriptors ≠ 0 := by simpa using hnd
  dsimp only [zinkDescriptorSetGet]
  simp only [hls]
  rw [if_neg hnd']
  by_cases hc : ((s.sets ls).hash == 0 && descStateEqual (s.sets ls).key k) = true
  · rw [if_pos hc, outTail_snd, hinv]
    rfl
  · rw [if_neg hc]
    dsimp only [getMain]
    rw [if_neg hnd']
    simp only [hls]
    rw [if_pos hk0]
    exact quickOut_snd _ _ _ _ _

/-- If the active map holds a valid set for the lookup key (and the
shortcut does not divert to a different set), the lookup returns it with
a cache hit. -/
theorem get_active_hit (maxDescs : Nat) (s : St) (t : TypeIdx) (h : Nat) (k : DKey)
    (a₂ : Bool) (he : Entry)
    (hnd : (s.pools t).num_descriptors ≠ 0)
    (hls : s.last_set t = some he.id)
    (hfind : searchPreHashed s (s.pools t).desc_sets h k = some he)
    (hinv : (s.sets he.id).invalid = false) :
    (zinkDescriptorSetGet maxDescs s t h k a₂).2 = .ok he.id true := by
  dsimp only [zinkDescriptorSetGet]
  simp only [hls]
  rw [if_pos hnd]
  by_cases hc : ((s.sets he.id).hash == h && descStateEqual (s.sets he.id).key k) = true
  · rw [if_pos hc, outTail_snd, hinv]
    rfl
  · rw [if_neg hc]
    dsimp only [getMain]
    rw [if_pos hnd]
    simp only [hfind]
    rw [quickOut_snd, hinv]
    rfl

/-! ## Facts about recycle used for the round-trip claim -/

theorem recycle_last_set (s : St) (id : SetId) :
    (zinkDescriptorSetRecycle s id).last_set = s.last_set := by
  dsimp only [zinkDescriptorSetRecycle]
  split
  · rfl
  split
  · rfl
  split
  · rfl
  split <;> rfl

theorem recycle_pools_nd (s : St) (id : SetId) (u : TypeIdx) :
    ((zinkDescriptorSetRecycle s id).pools u).num_descriptors =
      (s.pools u).num_descriptors := by
  dsimp only [zinkDescriptorSetRecycle]
  split
  · rfl
  split
  · rfl
  split
  · rfl
  split <;> rcases eq_or_ne u (s.sets id).pool with hu | hu <;> simp [hu]

/-- On a valid set, recycle never takes the invalid-reclaim branch, so the
set itself keeps its hash, key, invalid flag and slots (only `recycled`
may flip to true). -/
theorem recycle_sets_valid (s : St) (id : SetId) (hinv : (s.sets id).invalid = false) :
    (zinkDescriptorSetRecycle s id).sets id = s.sets id ∨
    (zinkDescriptorSetRecycle s id).sets id = { s.sets id with recycled := true } := by
  dsimp only [zinkDescriptorSetRecycle]
  split
  · exact Or.inl rfl
  split
  · exact Or.inl rfl
  split
  · exact Or.inl rfl
  split
  · rw [hinv] at *
    simp_all
  · exact Or.inr (by simp)

theorem recycle_sets_other (s : St) (id j : SetId) (hj : j ≠ id) :
    (zinkDescriptorSetRecycle s id).sets j = s.sets j := by
  dsimp only [zinkDescriptorSetRecycle]
  split
  · rfl
  split
  · rfl
  split
  · rfl
  split <;> simp [hj]

theorem find?_eraseP {α : Type} (p q : α → Bool) (l : List α) (e : α)
    (hfind : l.find? p = some e) (hq : q e = false) :
    (l.eraseP q).find? p = some e := by
  induction l with
  | nil => simp at hfind
  | cons x xs ih =>
    by_cases hpx : p x = true
    · rw [List.find?_cons_of_pos _ hpx] at hfind
      cases hfind
      simp only [List.eraseP_cons, hq, cond_false]
      rw [List.find?_cons_of_pos _ hpx]
    · rw [List.find?_cons_of_neg _ hpx] at hfind
      by_cases hqx : q x = true
      · simp only [List.eraseP_cons, hqx, cond_true]
        exact hfind
      · simp only [List.eraseP_cons, Bool.of_not_eq_true hqx, cond_false]
        rw [List.find?_cons_of_neg _ hpx]
        exact ih hfind

theorem recycle_sets_id_key (s : St) (id : SetId) :
    ((zinkDescriptorSetRecycle s id).sets id).key = (s.sets id).key := by
  dsimp only [zinkDescriptorSetRecycle]
  split
  · rfl
  split
  · rfl
  split
  · rfl
  split <;> simp

theorem entryMatches_recycle (s : St) (id : SetId) (h : Nat) (k : DKey) (e : Entry) :
    entryMatches (zinkDescriptorSetRecycle s id) h k e = entryMatches s h k e := by
  unfold entryMatches
  rcases eq_or_ne e.id id with hid | hid
  · rw [hid, recycle_sets_id_key]
  · rw [recycle_sets_other s id e.id hid]

/-- A valid set whose hash differs from the probe hash cannot disturb, by
being recycled, an active-map lookup for that probe: the recycled-branch
erasure only removes an entry whose stored hash equals the recycled set's
hash. -/
theorem searchPreHashed_recycle (s : St) (id : SetId) (t : TypeIdx) (h : Nat) (k : DKey)
    (he : Entry)
    (hinv : (s.sets id).invalid = false)
    (hne : (s.sets id).hash ≠ h)
    (hfind : searchPreHashed s (s.pools t).desc_sets h k = some he) :
    searchPreHashed (zinkDescriptorSetRecycle s id)
      ((zinkDescriptorSetRecycle s id).pools t).desc_sets h k = some he := by
  have hhe : entryMatches s h k he = true := List.find?_some hfind
  have hhehash : he.hash = h := beq_iff_eq.mp (Bool.and_eq_true _ _ ▸ hhe).1
  have hcong : ∀ m, searchPreHashed (zinkDescriptorSetRecycle s id) m h k =
      searchPreHashed s m h k := fun m =>
    find?_congr _ _ m (entryMatches_recycle s id h k)
  rw [hcong]
  dsimp only [zinkDescriptorSetRecycle]
  split
  · exact hfind
  split
  · exact hfind
  rcases hs : searchPreHashed s (s.pools (s.sets id).pool).desc_sets
      (s.sets id).hash (s.sets id).key with _ | he'
  · exact hfind
  simp only [hs]
  rw [if_neg (by rw [hinv]; simp)]
  rcases eq_or_ne t (s.sets id).pool with ht | ht
  · subst ht
    simp only [updPool_pools, updSet_pools, if_pos rfl]
    refine find?_eraseP _ _ _ _ hfind ?_
    unfold entryMatches
    have : (he.hash == (s.sets id).hash) = false := by
      rw [hhehash]
      exact beq_eq_false_iff_ne.mpr (Ne.symm hne)
    rw [this]
    rfl
  · simp only [updPool_pools, updSet_pools, if_neg ht]
    exact hfind

/-- An `out:` ending of the lookup leaves the returned set stamped with
the effective hash and the lookup key, valid, and installed as the
category's last-used set. -/
theorem outTail_ok_shape (s' : St) (t : TypeIdx) (hv : Nat) (k : DKey) (oid : SetId)
    (a₁ hit' : Bool) (s₁ : St) (res : GetRes) (id : SetId) (hit₁ : Bool)
    (hr' : outTail s' t hv k oid a₁ hit' = (s₁, res))
    (hres : res = .ok id hit₁) :
    oid = id ∧ s₁.last_set t = some id ∧ (s₁.sets id).invalid = false ∧
      (s₁.sets id).hash = hv ∧ descStateEqual (s₁.sets id).key k = true ∧
      ∀ u, (s₁.pools u).num_descriptors = (s'.pools u).num_descriptors := by
  obtain ⟨h1, h2⟩ := prod_eq_split hr'
  rw [outTail_snd, hres] at h2
  obtain ⟨hid, _⟩ := GetRes.ok.inj h2
  subst hid
  obtain ⟨rc, hset⟩ := outTail_fst_sets_same s' t hv k oid a₁ hit'
  refine ⟨rfl, ?_, ?_, ?_, ?_, ?_⟩
  · rw [← h1]; exact outTail_fst_last_set_t _ _ _ _ _ _ _
  · rw [← h1, hset]
  · rw [← h1, hset]
  · rw [← h1, hset]; exact descStateEqual_refl k
  · intro u; rw [← h1]; exact outTail_fst_pools_nd _ _ _ _ _ _ _ u

/-- Characterization of any successful return of the post-shortcut part
of the lookup. -/
theorem getMain_ok_shape (maxDescs : Nat) (s : St) (t : TypeIdx) (h : Nat) (k : DKey)
    (a₁ : Bool) (id : SetId) (hit₁ : Bool) (s₁ : St) (res : GetRes)
    (hr : getMain maxDescs s t (if (s.pools t).num_descriptors ≠ 0 then h else 0) k a₁ =
      (s₁, res))
    (hres : res = .ok id hit₁) :
    s₁.last_set t = some id ∧ (s₁.sets id).invalid = false ∧
    (((s₁.sets id).hash = (if (s₁.pools t).num_descriptors ≠ 0 then h else 0) ∧
        descStateEqual (s₁.sets id).key k = true)
      ∨ ((s₁.pools t).num_descriptors ≠ 0 ∧ descStateEqual (s₁.sets id).key k = true ∧
          searchPreHashed s₁ (s₁.pools t).desc_sets h k = some ⟨h, id⟩)
      ∨ ((s₁.pools t).num_descriptors = 0 ∧ (s₁.sets id).hash = 0)) := by
  by_cases hnd : (s.pools t).num_descriptors ≠ 0
  · rw [if_pos hnd] at hr
    dsimp only [getMain] at hr
    rw [if_pos hnd] at hr
    rcases hfind : searchPreHashed s (s.pools t).desc_sets h k with _ | he <;>
      simp only [hfind] at hr
    · rcases hfree : searchPreHashed s (s.pools t).free_desc_sets h k with _ | he <;>
        simp only [hfree] at hr
      · rcases hpop : (s.pools t).alloc_desc_sets.getLast? with _ | pid <;>
          simp only [hpop] at hr
        · rcases hscan : scanFree s 0 (s.pools t).free_desc_sets with _ | e <;>
            simp only [hscan] at hr
          · by_cases hcap :
                (s.pools t).num_sets_allocated + (s.pools t).num_descriptors > maxDescs
            · rw [if_pos hcap] at hr
              obtain ⟨_, h2⟩ := prod_eq_split hr
              rw [hres] at h2
              exact absurd h2.symm (by simp)
            · rw [if_neg hcap] at hr
              obtain ⟨hid, hA, hB, hC, hD, hE⟩ :=
                outTail_ok_shape _ t _ k _ a₁ false s₁ res id hit₁ hr hres
              refine ⟨hA, hB, Or.inl ⟨?_, hD⟩⟩
              rw [hC, hE t, allocateDescSet_pools_nd, if_pos hnd]
          · obtain ⟨hid, hA, hB, hC, hD, hE⟩ :=
              outTail_ok_shape _ t _ k _ a₁ false s₁ res id hit₁ hr hres
            refine ⟨hA, hB, Or.inl ⟨?_, hD⟩⟩
            rw [hC, hE t]
            simp [if_pos hnd]
        · obtain ⟨hid, hA, hB, hC, hD, hE⟩ :=
            outTail_ok_shape _ t _ k _ a₁ false s₁ res id hit₁ hr hres
          refine ⟨hA, hB, Or.inl ⟨?_, hD⟩⟩
          rw [hC, hE t]
          simp [if_pos hnd]
      · obtain ⟨hid, hA, hB, hC, hD, hE⟩ :=
          outTail_ok_shape _ t _ k _ a₁ _ s₁ res id hit₁ hr hres
        refine ⟨hA, hB, Or.inl ⟨?_, hD⟩⟩
        rw [hC, hE t]
        simp [if_pos hnd]
    · obtain ⟨h1, h2⟩ := prod_eq_split hr
      rw [quickOut_snd, hres] at h2
      obtain ⟨hid, _⟩ := GetRes.ok.inj h2
      have hmatch : entryMatches s h k he = true := List.find?_some hfind
      have hhehash : he.hash = h := beq_iff_eq.mp (Bool.and_eq_true _ _ ▸ hmatch).1
      have hkey : descStateEqual k (s.sets he.id).key = true :=
        (Bool.and_eq_true _ _ ▸ hmatch).2
      have hkeep : (quickOut s t he.id a₁ (!(s.sets he.id).invalid)).1.sets he.id =
          { s.sets he.id with
              invalid := false,
              refcount := (if a₁ then (s.sets he.id).refcount + 1
                else (s.sets he.id).refcount) } := quickOut_fst_sets_same _ _ _ _ _
      refine ⟨?_, ?_, Or.inr (Or.inl ⟨?_, ?_, ?_⟩)⟩
      · rw [← h1, quickOut_fst_last_set, if_pos rfl, hid]
      · rw [← h1, ← hid, hkeep]
      · rw [← h1, quickOut_fst_pools]; exact hnd
      · rw [← h1, ← hid, hkeep]
        exact descStateEqual_symm hkey
      · rw [← h1, quickOut_fst_pools, searchPreHashed_quickOut, hfind]
        cases he
        simp only at hhehash hid
        rw [hhehash, hid]
  · rw [if_neg hnd] at hr
    have hnd0 : (s.pools t).num_descriptors = 0 := by simpa using hnd
    dsimp only [getMain] at hr
    rw [if_neg hnd] at hr
    have hzero : (0 : Nat) = (if (s.pools t).num_descriptors ≠ 0 then h else 0) :=
      (if_neg hnd).symm
    rcases hlast : s.last_set t with _ | ls <;> simp only [hlast] at hr
    · rw [hzero] at hr
      obtain ⟨hid, hA, hB, hC, hD, hE⟩ :=
        outTail_ok_shape _ t _ k _ a₁ false s₁ res id hit₁ hr hres
      refine ⟨hA, hB, Or.inl ⟨?_, hD⟩⟩
      rw [hC, hE t, allocateDescSet_pools_nd]
    · by_cases hk0 : ((s.sets ls).hash == 0) = true
      · rw [if_pos hk0] at hr
        obtain ⟨h1, h2⟩ := prod_eq_split hr
        rw [quickOut_snd, hres] at h2
        obtain ⟨hid, _⟩ := GetRes.ok.inj h2
        have hkeep := quickOut_fst_sets_same s t ls a₁ true
        refine ⟨?_, ?_, Or.inr (Or.inr ⟨?_, ?_⟩)⟩
        · rw [← h1, quickOut_fst_last_set, if_pos rfl, hid]
        · rw [← h1, ← hid, hkeep]
        · rw [← h1, quickOut_fst_pools]; exact hnd0
        · rw [← h1, ← hid, hkeep]
          exact beq_iff_eq.mp hk0
      · rw [if_neg hk0, hzero] at hr
        obtain ⟨hid, hA, hB, hC, hD, hE⟩ :=
          outTail_ok_shape _ t _ k _ a₁ false s₁ res id hit₁ hr hres
        refine ⟨hA, hB, Or.inl ⟨?_, hD⟩⟩
        rw [hC, hE t, allocateDescSet_pools_nd]

/-- Characterization of any successful `zink_descriptor_set_get` return:
the shortcut and every `out:` path leave the set stamped with the lookup's
effective hash and key; the active-map quick hit leaves the (unchanged)
matching entry in the active map; the empty-schema quick path returns the
hash-0 placeholder.  In all cases the set is valid and is the category's
last-used shortcut. -/
theorem get_ok_shape (maxDescs : Nat) (s : St) (t : TypeIdx) (h : Nat) (k : DKey)
    (a₁ : Bool) (id : SetId) (hit₁ : Bool) (s₁ : St) (res : GetRes)
    (hr : zinkDescriptorSetGet maxDescs s t h k a₁ = (s₁, res))
    (hres : res = .ok id hit₁) :
    s₁.last_set t = some id ∧ (s₁.sets id).invalid = false ∧
    (((s₁.sets id).hash = (if (s₁.pools t).num_descriptors ≠ 0 then h else 0) ∧
        descStateEqual (s₁.sets id).key k = true)
      ∨ ((s₁.pools t).num_descriptors ≠ 0 ∧ descStateEqual (s₁.sets id).key k = true ∧
          searchPreHashed s₁ (s₁.pools t).desc_sets h k = some ⟨h, id⟩)
      ∨ ((s₁.pools t).num_descriptors = 0 ∧ (s₁.sets id).hash = 0)) := by
  dsimp only [zinkDescriptorSetGet] at hr
  rcases hlast : s.last_set t with _ | ls <;> simp only [hlast] at hr
  · exact getMain_ok_shape maxDescs s t h k a₁ id hit₁ s₁ res hr hres
  · by_cases hc : ((s.sets ls).hash == (if (s.pools t).num_descriptors ≠ 0 then h else 0) &&
        descStateEqual (s.sets ls).key k) = true
    · rw [if_pos hc] at hr
      have hndpre : ∀ (s' : St),
          (∀ u, (s'.pools u).num_descriptors = (s.pools u).num_descriptors) →
          outTail s' t (if (s.pools t).num_descriptors ≠ 0 then h else 0) k ls a₁
              (!(s.sets ls).invalid) = (s₁, res) →
          s₁.last_set t = some id ∧ (s₁.sets id).invalid = false ∧
            ((s₁.sets id).hash = (if (s₁.pools t).num_descriptors ≠ 0 then h else 0) ∧
              descStateEqual (s₁.sets id).key k = true) := by
        intro s' hndp hr'
        obtain ⟨hid, hA, hB, hC, hD, hE⟩ :=
          outTail_ok_shape _ t _ k _ a₁ _ s₁ res id hit₁ hr' hres
        refine ⟨hA, hB, ?_, hD⟩
        rw [hC, hE t, hndp t]
      split at hr
      · obtain ⟨hA, hB, hC⟩ := hndpre _
          (fun u => by rcases eq_or_ne u t with hu | hu <;> simp [hu]) hr
        exact ⟨hA, hB, Or.inl hC⟩
      · obtain ⟨hA, hB, hC⟩ := hndpre s (fun u => rfl) hr
        exact ⟨hA, hB, Or.inl hC⟩
    · rw [if_neg hc] at hr
      exact getMain_ok_shape maxDescs s t h k a₁ id hit₁ s₁ res hr hres

/-- A lookup that returns an invalidated set of a caching pool always
reports `cacheHit = false`: each hit path computes the flag as
`!zds->invalid`, and the allocation paths leave it `false`. -/
theorem get_invalid_no_hit (maxDescs : Nat) (s : St) (t : TypeIdx) (h : Nat) (k : DKey)
    (a : Bool) (id : SetId) (hit : Bool)
    (hnd : (s.pools t).num_descriptors ≠ 0)
    (hinv : (s.sets id).invalid = true)
    (hres : (zinkDescriptorSetGet maxDescs s t h k a).2 = .ok id hit) :
    hit = false := by
  rcases hr : zinkDescriptorSetGet maxDescs s t h k a with ⟨s₁, res⟩
  rw [hr] at hres
  dsimp only at hres
  dsimp only [zinkDescriptorSetGet] at hr
  have hmain : getMain maxDescs s t (if (s.pools t).num_descriptors ≠ 0 then h else 0) k a =
      (s₁, res) → hit = false := by
    intro hr'
    rw [if_pos hnd] at hr'
    dsimp only [getMain] at hr'
    rw [if_pos hnd] at hr'
    rcases hfind : searchPreHashed s (s.pools t).desc_sets h k with _ | he <;>
      simp only [hfind] at hr'
    · rcases hfree : searchPreHashed s (s.pools t).free_desc_sets h k with _ | he <;>
        simp only [hfree] at hr'
      · rcases hpop : (s.pools t).alloc_desc_sets.getLast? with _ | pid <;>
          simp only [hpop] at hr'
        · rcases hscan : scanFree s 0 (s.pools t).free_desc_sets with _ | e <;>
            simp only [hscan] at hr'
          · by_cases hcap :
                (s.pools t).num_sets_allocated + (s.pools t).num_descriptors > maxDescs
            · rw [if_pos hcap] at hr'
              obtain ⟨_, h2⟩ := prod_eq_split hr'
              rw [hres] at h2
              exact absurd h2.symm (by simp)
            · rw [if_neg hcap] at hr'
              obtain ⟨_, h2⟩ := prod_eq_split hr'
              rw [outTail_snd, hres] at h2
              exact (GetRes.ok.inj h2).2.symm
          · obtain ⟨_, h2⟩ := prod_eq_split hr'
            rw [outTail_snd, hres] at h2
            exact (GetRes.ok.inj h2).2.symm
        · obtain ⟨_, h2⟩ := prod_eq_split hr'
          rw [outTail_snd, hres] at h2
          exact (GetRes.ok.inj h2).2.symm
      · obtain ⟨_, h2⟩ := prod_eq_split hr'
        rw [outTail_snd, hres] at h2
        obtain ⟨hid, hh⟩ := GetRes.ok.inj h2
        rw [hid, hinv] at hh
        exact hh.symm
    · obtain ⟨_, h2⟩ := prod_eq_split hr'
      rw [quickOut_snd, hres] at h2
      obtain ⟨hid, hh⟩ := GetRes.ok.inj h2
      rw [hid, hinv] at hh
      exact hh.symm
  rcases hlast : s.last_set t with _ | ls <;> simp only [hlast] at hr
  · exact hmain hr
  · by_cases hc : ((s.sets ls).hash == (if (s.pools t).num_descriptors ≠ 0 then h else 0) &&
        descStateEqual (s.sets ls).key k) = true
    · rw [if_pos hc] at hr
      split at hr <;>
      · obtain ⟨_, h2⟩ := prod_eq_split hr
        rw [outTail_snd, hres] at h2
        obtain ⟨hid, hh⟩ := GetRes.ok.inj h2
        rw [hid, hinv] at hh
        exact hh.symm
    · rw [if_neg hc] at hr
      exact hmain hr

/-- Invariant of the `zink_descriptor_set_refs_clear` fold: along the
back-reference list, slot `i` of set `id` either still holds the resource
or has been nulled with the set invalidated, and every other slot of the
set that never held the resource is untouched. -/
theorem refsClearFold_pres (R : Nat) (id : SetId) (i : Nat) (sbase : St)
    (hother : ∀ j, j ≠ i → (sbase.sets id).slots j ≠ some R) :
    ∀ (l : List (SetId × Nat)) (acc : St),
      (((acc.sets id).slots i = some R ∨
          ((acc.sets id).slots i = none ∧ (acc.sets id).invalid = true)) ∧
        ∀ j, j ≠ i → (acc.sets id).slots j = (sbase.sets id).slots j) →
      (((l.foldl (fun a r =>
            if (a.sets r.1).slots r.2 = some R then
              updSet a r.1 (fun z =>
                { z with invalid := true, slots := Function.update z.slots r.2 none })
            else a) acc).sets id).slots i = some R ∨
        (((l.foldl (fun a r =>
            if (a.sets r.1).slots r.2 = some R then
              updSet a r.1 (fun z =>
                { z with invalid := true, slots := Function.update z.slots r.2 none })
            else a) acc).sets id).slots i = none ∧
          ((l.foldl (fun a r =>
            if (a.sets r.1).slots r.2 = some R then
              updSet a r.1 (fun z =>
                { z with invalid := true, slots := Function.update z.slots r.2 none })
            else a) acc).sets id).invalid = true)) ∧
      ∀ j, j ≠ i → ((l.foldl (fun a r =>
            if (a.sets r.1).slots r.2 = some R then
              updSet a r.1 (fun z =>
                { z with invalid := true, slots := Function.update z.slots r.2 none })
            else a) acc).sets id).slots j = (sbase.sets id).slots j := by
  intro l
  induction l with
  | nil => intro acc hP; exact hP
  | cons r rest ih =>
    intro acc hP
    simp only [List.foldl_cons]
    refine ih _ ?_
    by_cases hfire : (acc.sets r.1).slots r.2 = some R
    · rw [if_pos hfire]
      rcases eq_or_ne r.1 id with hrid | hrid
      · subst hrid
        rcases eq_or_ne r.2 i with hri | hri
        · subst hri
          refine ⟨Or.inr ⟨?_, ?_⟩, ?_⟩
          · simp [Function.update_apply]
          · simp
          · intro j hj
            simp only [updSet_sets, if_pos rfl]
            show Function.update (acc.sets r.1).slots r.2 none j = _
            rw [Function.update_apply, if_neg hj]
            exact hP.2 j hj
        · exact absurd (hP.2 r.2 hri ▸ hfire) (hother r.2 hri)
      · constructor
        · have : ((updSet acc r.1 (fun z =>
              { z with invalid := true,
                       slots := Function.update z.slots r.2 none })).sets id) =
              acc.sets id := by
            simp [Ne.symm hrid]
          rw [this]
          exact hP.1
        · intro j hj
          have : ((updSet acc r.1 (fun z =>
              { z with invalid := true,
                       slots := Function.update z.slots r.2 none })).sets id) =
              acc.sets id := by
            simp [Ne.symm hrid]
          rw [this]
          exact hP.2 j hj
    · rw [if_neg hfire]
      exact hP

/-- C7: binding resource `R` into slot `i` of set `S` (recording a
back-reference) and then destroying `R` (`zink_descriptor_set_refs_clear`)
leaves `S` invalidated with slot `i` nulled, leaves every other slot of
`S` (not holding `R`) unchanged, and any subsequent lookup in a caching
pool that returns `S` reports `cacheHit = false`. -/
theorem C7_invalidation (maxDescs : Nat) (s : St) (t : TypeIdx) (id : SetId) (i R : Nat)
    (hnd : (s.pools t).num_descriptors ≠ 0)
    (hother : ∀ j, j ≠ i → (s.sets id).slots j ≠ some R) :
    (((zinkDescriptorSetRefsClear (descSetRefAdd s id i R) R).sets id).invalid = true ∧
      ((zinkDescriptorSetRefsClear (descSetRefAdd s id i R) R).sets id).slots i = none ∧
      ∀ j, j ≠ i →
        ((zinkDescriptorSetRefsClear (descSetRefAdd s id i R) R).sets id).slots j =
          (s.sets id).slots j) ∧
    ∀ (h : Nat) (k : DKey) (a hit : Bool),
      (zinkDescriptorSetGet maxDescs (zinkDescriptorSetRefsClear (descSetRefAdd s id i R) R)
          t h k a).2 = .ok id hit → hit = false := by
  have hrefs : (descSetRefAdd s id i R).refs R = s.refs R ++ [(id, i)] := by
    simp [descSetRefAdd, Function.update_apply]
  have hslots : ((descSetRefAdd s id i R).sets id).slots i = some R := by
    simp [descSetRefAdd, Function.update_apply]
  have hslots' : ∀ j, j ≠ i → ((descSetRefAdd s id i R).sets id).slots j =
      (s.sets id).slots j := by
    intro j hj
    simp [descSetRefAdd, Function.update_apply, hj]
  have hfold := refsClearFold_pres R id i s hother (s.refs R)
    (descSetRefAdd s id i R) ⟨Or.inl hslots, hslots'⟩
  have hfinal :
      (((zinkDescriptorSetRefsClear (descSetRefAdd s id i R) R).sets id).invalid = true ∧
        ((zinkDescriptorSetRefsClear (descSetRefAdd s id i R) R).sets id).slots i = none) ∧
      ∀ j, j ≠ i →
        ((zinkDescriptorSetRefsClear (descSetRefAdd s id i R) R).sets id).slots j =
          (s.sets id).slots j := by
    dsimp only [zinkDescriptorSetRefsClear]
    rw [hrefs, List.foldl_append]
    simp only [List.foldl_cons, List.foldl_nil]
    set acc := (s.refs R).foldl (fun a r =>
      if (a.sets r.1).slots r.2 = some R then
        updSet a r.1 (fun z =>
          { z with invalid := true, slots := Function.update z.slots r.2 none })
      else a) (descSetRefAdd s id i R) with hacc
    rcases hfold with ⟨hP1, hP2⟩
    rcases hP1 with hP1 | ⟨hP1a, hP1b⟩
    · rw [if_pos hP1]
      refine ⟨⟨by simp, by simp [Function.update_apply]⟩, ?_⟩
      intro j hj
      simp only [updSet_sets, if_pos rfl]
      show Function.update (acc.sets id).slots i none j = _
      rw [Function.update_apply, if_neg hj]
      exact hP2 j hj
    · rw [if_neg (by rw [hP1a]; simp)]
      exact ⟨⟨hP1b, hP1a⟩, hP2⟩
  refine ⟨⟨hfinal.1.1, hfinal.1.2, hfinal.2⟩, ?_⟩
  intro h k a hit hres
  refine get_invalid_no_hit maxDescs _ t h k a id hit ?_ hfinal.1.1 hres
  show (((zinkDescriptorSetRefsClear (descSetRefAdd s id i R) R).pools t)).num_descriptors ≠ 0
  have hstep : ∀ (l : List (SetId × Nat)) (a0 : St),
      (l.foldl (fun a r =>
        if (a.sets r.1).slots r.2 = some R then
          updSet a r.1 (fun z =>
            { z with invalid := true, slots := Function.update z.slots r.2 none })
        else a) a0).pools = a0.pools := by
    intro l
    induction l with
    | nil => intro a0; rfl
    | cons r rest ih =>
      intro a0
      simp only [List.foldl_cons]
      rw [ih]
      split <;> rfl
  have hpp : (zinkDescriptorSetRefsClear (descSetRefAdd s id i R) R).pools = s.pools := by
    dsimp only [zinkDescriptorSetRefsClear]
    rw [hstep]
    rfl
  rw [hpp]
  exact hnd

/-- C3: after a successful lookup whose returned set has refcount 1 (its
contents are valid: every return path clears `invalid`), an immediate
recycle followed by a lookup with the same fingerprint and hash returns
the same object with `cacheHit = true`. -/
theorem C3_recycle_roundtrip (maxDescs : Nat) (s : St) (t : TypeIdx) (h : Nat) (k : DKey)
    (a₁ a₂ : Bool) (id : SetId) (hit₁ : Bool)
    (hget : (zinkDescriptorSetGet maxDescs s t h k a₁).2 = .ok id hit₁)
    (hrc : ((zinkDescriptorSetGet maxDescs s t h k a₁).1.sets id).refcount = 1) :
    (zinkDescriptorSetGet maxDescs
        (zinkDescriptorSetRecycle (zinkDescriptorSetGet maxDescs s t h k a₁).1 id)
        t h k a₂).2 = .ok id true := by
  rcases hr : zinkDescriptorSetGet maxDescs s t h k a₁ with ⟨s₁, res⟩
  rw [hr] at hget hrc
  dsimp only at hget hrc ⊢
  obtain ⟨hls, hinv, hshape⟩ := get_ok_shape maxDescs s t h k a₁ id hit₁ s₁ res hr hget
  have hls₂ : (zinkDescriptorSetRecycle s₁ id).last_set t = some id := by
    rw [recycle_last_set]; exact hls
  have hkiv := recycle_sets_valid s₁ id hinv
  have hhash₂ : ((zinkDescriptorSetRecycle s₁ id).sets id).hash = (s₁.sets id).hash := by
    rcases hkiv with h' | h' <;> rw [h']
  have hkey₂ : ((zinkDescriptorSetRecycle s₁ id).sets id).key = (s₁.sets id).key :=
    recycle_sets_id_key s₁ id
  have hinv₂ : ((zinkDescriptorSetRecycle s₁ id).sets id).invalid = false := by
    rcases hkiv with h' | h' <;> rw [h'] <;> simpa using hinv
  have hnd₂ : ∀ u, ((zinkDescriptorSetRecycle s₁ id).pools u).num_descriptors =
      (s₁.pools u).num_descriptors := recycle_pools_nd s₁ id
  rcases hshape with ⟨hhash, hkey⟩ | ⟨hnd, hkey, hfind⟩ | ⟨hnd0, hhash0⟩
  · exact get_shortcut_hit maxDescs _ t h k a₂ id hls₂
      (by rw [hhash₂, hhash, hnd₂ t]) (by rw [hkey₂]; exact hkey) hinv₂
  · by_cases hh : (s₁.sets id).hash = h
    · exact get_shortcut_hit maxDescs _ t h k a₂ id hls₂
        (by rw [hhash₂, hh, hnd₂ t, if_pos hnd]) (by rw [hkey₂]; exact hkey) hinv₂
    · have hfind₂ := searchPreHashed_recycle s₁ id t h k ⟨h, id⟩ hinv hh hfind
      exact get_active_hit maxDescs _ t h k a₂ ⟨h, id⟩
        (by rw [hnd₂ t]; exact hnd) hls₂ hfind₂ hinv₂
  · exact get_null_hit maxDescs _ t h k a₂ id (by rw [hnd₂ t]; exact hnd0) hls₂
      (by rw [hhash₂, hhash0]; rfl) hinv₂

theorem C3_recycle_roundtrip_witness :
    (zinkDescriptorSetGet 5000
        (zinkDescriptorSetRecycle
          (zinkDescriptorSetGet 5000 (initSt ndOne) 0 1 keyVF12 false).1 0)
        0 1 keyVF12 false).2 = .ok 0 true :=
  C3_recycle_roundtrip 5000 (initSt ndOne) 0 1 keyVF12 false false 0 false
    (by decide) (by decide)

/-- C8: two consecutive `zink_descriptor_set_get` calls with the same
fingerprint and hash, with no intervening invalidation or recycle, return
the same descriptor-set object both times, and the second call reports
`cacheHit = true`. -/
theorem C8_lookup_idempotent (maxDescs : Nat) (s : St) (t : TypeIdx) (h : Nat) (k : DKey)
    (a₁ a₂ : Bool) (id : SetId) (hit₁ : Bool)
    (hget : (zinkDescriptorSetGet maxDescs s t h k a₁).2 = .ok id hit₁) :
    (zinkDescriptorSetGet maxDescs (zinkDescriptorSetGet maxDescs s t h k a₁).1 t h k a₂).2 =
      .ok id true := by
  rcases hr : zinkDescriptorSetGet maxDescs s t h k a₁ with ⟨s₁, res⟩
  rw [hr] at hget
  dsimp only at hget ⊢
  dsimp only [zinkDescriptorSetGet] at hr
  rcases hlast : s.last_set t with _ | ls <;> simp only [hlast] at hr
  · exact getMain_then_get maxDescs s t h k a₁ a₂ id hit₁ s₁ res hr hget
  · by_cases hc : ((s.sets ls).hash == (if (s.pools t).num_descriptors ≠ 0 then h else 0) &&
        descStateEqual (s.sets ls).key k) = true
    · rw [if_pos hc] at hr
      split at hr <;>
      · obtain ⟨h1, h2⟩ := prod_eq_split hr
        rw [outTail_snd, hget] at h2
        obtain ⟨hid, _⟩ := GetRes.ok.inj h2
        rw [← h1, ← hid]
        refine get_after_outTail maxDescs _ t h _ k ls a₁ _ a₂ ?_
        simp
    · rw [if_neg hc] at hr
      exact getMain_then_get maxDescs s t h k a₁ a₂ id hit₁ s₁ res hr hget

/-! ## Reachability invariants for capacity (C1) and null-binding pools (C9) -/

/-- Structural invariant of every reachable state, except the clause
tying an empty-schema pool's allocation counter to its missing shortcut
(`InvP.ndnull2` below, which is transiently broken between
`allocate_desc_set` and the update of `pg->last_set`): bucket counters of
caching pools are multiples of 10 and bounded by the capacity ceiling
when that ceiling is a positive multiple of 10; a pool without schema
slots has allocated at most one set, has empty maps and an empty shell
list; all empty-schema categories share one shortcut; shortcuts and
map/shell members belong to the right pool and are genuinely allocated;
empty-schema pools' sets keep hash 0; unallocated ids carry refcount 0. -/
structure InvP0 (maxDescs : Nat) (s : St) : Prop where
  ndpos10 : ∀ t, (s.pools t).num_descriptors ≠ 0 → 10 ∣ (s.pools t).num_sets_allocated
  ndnull1 : ∀ t, (s.pools t).num_descriptors = 0 → (s.pools t).num_sets_allocated ≤ 1
  cap : 10 ∣ maxDescs → 1 ≤ maxDescs →
    ∀ t, (s.pools t).num_sets_allocated ≤ maxDescs
  nullMaps : ∀ t, (s.pools t).num_descriptors = 0 →
    (s.pools t).desc_sets = [] ∧ (s.pools t).free_desc_sets = [] ∧
    (s.pools t).alloc_desc_sets = []
  nullShare : ∀ t u, (s.pools t).num_descriptors = 0 → (s.pools u).num_descriptors = 0 →
    s.last_set t = s.last_set u
  lastPool : ∀ t id, s.last_set t = some id →
    ((s.pools t).num_descriptors = 0 ∧
        (s.pools ((s.sets id).pool)).num_descriptors = 0) ∨
    ((s.pools t).num_descriptors ≠ 0 ∧ (s.sets id).pool = t)
  nullHash : ∀ id, id < s.nextId →
    (s.pools ((s.sets id).pool)).num_descriptors = 0 → (s.sets id).hash = 0
  memActive : ∀ t, ∀ e ∈ (s.pools t).desc_sets, (s.sets e.id).pool = t ∧ e.id < s.nextId
  memFree : ∀ t, ∀ e ∈ (s.pools t).free_desc_sets, (s.sets e.id).pool = t ∧ e.id < s.nextId
  memAlloc : ∀ t, ∀ id ∈ (s.pools t).alloc_desc_sets, (s.sets id).pool = t ∧ id < s.nextId
  lastLt : ∀ t id, s.last_set t = some id → id < s.nextId
  rc0 : ∀ id, s.nextId ≤ id → (s.sets id).refcount = 0

/-- The full reachable-state invariant: `InvP0` plus: an empty-schema
pool that has not yet installed its shortcut has allocated nothing. -/
structure InvP (maxDescs : Nat) (s : St) extends InvP0 maxDescs s : Prop where
  ndnull2 : ∀ t, (s.pools t).num_descriptors = 0 → s.last_set t = none →
    (s.pools t).num_sets_allocated = 0

theorem mem_of_getLast?_eq {α : Type} {l : List α} {a : α} (h : l.getLast? = some a) :
    a ∈ l := by
  obtain ⟨hne, rfl⟩ := List.mem_getLast?_eq_getLast (by rw [Option.mem_def]; exact h)
  exact List.getLast_mem hne

theorem scanFree_mem (s : St) (l : List Entry) (e : Entry) :
    ∀ count, scanFree s count l = some e → e ∈ l := by
  induction l with
  | nil => intro count h; simp [scanFree] at h
  | cons e' rest ih =>
    intro count h
    simp only [scanFree] at h
    split at h
    · cases h; exact List.mem_cons_self _ _
    · exact List.mem_cons_of_mem _ (ih _ h)

theorem insertPreHashed_mem (s : St) (h : Nat) (k : DKey) (id : SetId) (m : List Entry) :
    ∀ e ∈ insertPreHashed s h k id m, e = ⟨h, id⟩ ∨ e ∈ m := by
  induction m with
  | nil => intro e he; simpa [insertPreHashed] using he
  | cons x xs ih =>
    intro e he
    simp only [insertPreHashed] at he
    split at he
    · rcases List.mem_cons.mp he with he | he
      · exact Or.inl he
      · exact Or.inr (List.mem_cons_of_mem _ he)
    · rcases List.mem_cons.mp he with he | he
      · exact Or.inr (he ▸ List.mem_cons_self _ _)
      · rcases ih e he with h' | h'
        · exact Or.inl h'
        · exact Or.inr (List.mem_cons_of_mem _ h')

/-- `InvP0` only reads pools, shortcuts, `nextId`, and each set's hash,
pool and (beyond `nextId`) refcount. -/
theorem InvP0_of_eq {maxDescs : Nat} {s s' : St} (hI : InvP0 maxDescs s)
    (hpools : s'.pools = s.pools) (hlast : s'.last_set = s.last_set)
    (hnext : s'.nextId = s.nextId)
    (hhash : ∀ id, (s'.sets id).hash = (s.sets id).hash)
    (hpool : ∀ id, (s'.sets id).pool = (s.sets id).pool)
    (hrc0 : ∀ id, s.nextId ≤ id → (s'.sets id).refcount = 0) : InvP0 maxDescs s' := by
  refine ⟨?_, ?_, ?_, ?_, ?_, ?_, ?_, ?_, ?_, ?_, ?_, ?_⟩
  · intro t; rw [hpools]; exact hI.ndpos10 t
  · intro t; rw [hpools]; exact hI.ndnull1 t
  · intro hd hM t; rw [hpools]; exact hI.cap hd hM t
  · intro t; rw [hpools]; exact hI.nullMaps t
  · intro t u; rw [hpools, hlast]; exact hI.nullShare t u
  · intro t id hid
    rw [hpools, hpool id]
    rw [hlast] at hid
    exact hI.lastPool t id hid
  · intro id hlt hnd
    rw [hhash id]
    rw [hnext] at hlt
    rw [hpools, hpool id] at hnd
    exact hI.nullHash id hlt hnd
  · intro t e he
    rw [hpools] at he
    rw [hpool e.id, hnext]
    exact hI.memActive t e he
  · intro t e he
    rw [hpools] at he
    rw [hpool e.id, hnext]
    exact hI.memFree t e he
  · intro t id hid
    rw [hpools] at hid
    rw [hpool id, hnext]
    exact hI.memAlloc t id hid
  · intro t id hid
    rw [hnext]
    rw [hlast] at hid
    exact hI.lastLt t id hid
  · intro id hid
    rw [hnext] at hid
    exact hrc0 id hid

theorem InvP_of_eq {maxDescs : Nat} {s s' : St} (hI : InvP maxDescs s)
    (hpools : s'.pools = s.pools) (hlast : s'.last_set = s.last_set)
    (hnext : s'.nextId = s.nextId)
    (hhash : ∀ id, (s'.sets id).hash = (s.sets id).hash)
    (hpool : ∀ id, (s'.sets id).pool = (s.sets id).pool)
    (hrc0 : ∀ id, s.nextId ≤ id → (s'.sets id).refcount = 0) : InvP maxDescs s' := by
  refine ⟨InvP0_of_eq hI.toInvP0 hpools hlast hnext hhash hpool hrc0, ?_⟩
  intro t hnd hnone
  rw [hpools] at hnd ⊢
  rw [hlast] at hnone
  exact hI.ndnull2 t hnd hnone

/-- `InvP0` is stable under rewriting one pool's maps and shell list with
lists whose members are either old members or the designated new
(pool-owned, allocated) element, while keeping its schema size and
allocation counter; an empty-schema pool must keep everything empty. -/
theorem InvP0_updPool_mem {maxDescs : Nat} (s : St) (t : TypeIdx) (f : Pool → Pool)
    (hI : InvP0 maxDescs s) (nid : SetId) (nh : Nat)
    (hnd : (f (s.pools t)).num_descriptors = (s.pools t).num_descriptors)
    (hcount : (f (s.pools t)).num_sets_allocated = (s.pools t).num_sets_allocated)
    (hnew : (s.sets nid).pool = t ∧ nid < s.nextId)
    (hsubA : ∀ e ∈ (f (s.pools t)).desc_sets, e = ⟨nh, nid⟩ ∨ e ∈ (s.pools t).desc_sets)
    (hsubF : ∀ e ∈ (f (s.pools t)).free_desc_sets,
      e = ⟨nh, nid⟩ ∨ e ∈ (s.pools t).free_desc_sets)
    (hsubL : ∀ id ∈ (f (s.pools t)).alloc_desc_sets,
      id = nid ∨ id ∈ (s.pools t).alloc_desc_sets)
    (hnullt : (s.pools t).num_descriptors = 0 →
      (f (s.pools t)).desc_sets = [] ∧ (f (s.pools t)).free_desc_sets = [] ∧
      (f (s.pools t)).alloc_desc_sets = []) :
    InvP0 maxDescs (updPool s t f) := by
  have hndall : ∀ u, ((updPool s t f).pools u).num_descriptors =
      (s.pools u).num_descriptors := by
    intro u; rcases eq_or_ne u t with hu | hu <;> simp [hu, hnd]
  have hcall : ∀ u, ((updPool s t f).pools u).num_sets_allocated =
      (s.pools u).num_sets_allocated := by
    intro u; rcases eq_or_ne u t with hu | hu <;> simp [hu, hcount]
  refine ⟨?_, ?_, ?_, ?_, ?_, ?_, ?_, ?_, ?_, ?_, ?_, ?_⟩
  · intro u hu; rw [hcall]; exact hI.ndpos10 u (by rw [← hndall u]; exact hu)
  · intro u hu
    rw [hcall]
    exact hI.ndnull1 u (by rw [hndall u] at hu; exact hu)
  · intro hd hM u; rw [hcall]; exact hI.cap hd hM u
  · intro u hu
    rw [hndall u] at hu
    obtain ⟨hA, hF, hL⟩ := hI.nullMaps u hu
    rcases eq_or_ne u t with hu' | hu'
    · subst hu'
      obtain ⟨hA', hF', hL'⟩ := hnullt hu
      simpa using ⟨hA', hF', hL'⟩
    · simpa [hu'] using ⟨hA, hF, hL⟩
  · intro u v hu hv
    simpa using hI.nullShare u v (by rw [← hndall u]; exact hu) (by rw [← hndall v]; exact hv)
  · intro u id hid
    simp only [updPool_last_set] at hid
    rcases hI.lastPool u id hid with ⟨h1, h2⟩ | ⟨h1, h2⟩
    · exact Or.inl ⟨by rw [hndall]; exact h1,
        by simp only [updPool_sets]; rw [hndall]; exact h2⟩
    · exact Or.inr ⟨by rw [hndall]; exact h1, h2⟩
  · intro id hlt hnd'
    simp only [updPool_sets] at hnd' ⊢
    rw [hndall] at hnd'
    exact hI.nullHash id hlt hnd'
  · intro u e he
    simp only [updPool_sets]
    rcases eq_or_ne u t with hu | hu
    · subst hu
      simp only [updPool_pools, if_pos rfl] at he
      rcases hsubA e he with he' | he'
      · subst he'; exact hnew
      · exact hI.memActive u e he'
    · simp only [updPool_pools, if_neg hu] at he
      exact hI.memActive u e he
  · intro u e he
    simp only [updPool_sets]
    rcases eq_or_ne u t with hu | hu
    · subst hu
      simp only [updPool_pools, if_pos rfl] at he
      rcases hsubF e he with he' | he'
      · subst he'; exact hnew
      · exact hI.memFree u e he'
    · simp only [updPool_pools, if_neg hu] at he
      exact hI.memFree u e he
  · intro u id hid
    simp only [updPool_sets]
    rcases eq_or_ne u t with hu | hu
    · subst hu
      simp only [updPool_pools, if_pos rfl] at hid
      rcases hsubL id hid with hid' | hid'
      · subst hid'; exact hnew
      · exact hI.memAlloc u id hid'
    · simp only [updPool_pools, if_neg hu] at hid
      exact hI.memAlloc u id hid
  · intro u id hid
    exact hI.lastLt u id hid
  · intro id hid
    exact hI.rc0 id hid

theorem InvP_updPool_mem {maxDescs : Nat} (s : St) (t : TypeIdx) (f : Pool → Pool)
    (hI : InvP maxDescs s) (nid : SetId) (nh : Nat)
    (hnd : (f (s.pools t)).num_descriptors = (s.pools t).num_descriptors)
    (hcount : (f (s.pools t)).num_sets_allocated = (s.pools t).num_sets_allocated)
    (hnew : (s.sets nid).pool = t ∧ nid < s.nextId)
    (hsubA : ∀ e ∈ (f (s.pools t)).desc_sets, e = ⟨nh, nid⟩ ∨ e ∈ (s.pools t).desc_sets)
    (hsubF : ∀ e ∈ (f (s.pools t)).free_desc_sets,
      e = ⟨nh, nid⟩ ∨ e ∈ (s.pools t).free_desc_sets)
    (hsubL : ∀ id ∈ (f (s.pools t)).alloc_desc_sets,
      id = nid ∨ id ∈ (s.pools t).alloc_desc_sets)
    (hnullt : (s.pools t).num_descriptors = 0 →
      (f (s.pools t)).desc_sets = [] ∧ (f (s.pools t)).free_desc_sets = [] ∧
      (f (s.pools t)).alloc_desc_sets = []) :
    InvP maxDescs (updPool s t f) := by
  refine ⟨InvP0_updPool_mem s t f hI.toInvP0 nid nh hnd hcount hnew hsubA hsubF hsubL
    hnullt, ?_⟩
  intro u hu hnone
  simp only [updPool_last_set] at hnone
  have hu' : (s.pools u).num_descriptors = 0 := by
    rcases eq_or_ne u t with h' | h'
    · subst h'; simpa [hnd] using hu
    · simpa [h'] using hu
  have := hI.ndnull2 u hu' hnone
  rcases eq_or_ne u t with h' | h'
  · subst h'; simpa [hcount] using this
  · simpa [h'] using this

theorem C8_lookup_idempotent_witness :
    (zinkDescriptorSetGet 5000 (zinkDescriptorSetGet 5000 (initSt ndOne) 0 1 keyVF12 false).1
        0 1 keyVF12 false).2 = .ok 0 true :=
  C8_lookup_idempotent 5000 (initSt ndOne) 0 1 keyVF12 false false 0 false (by decide)

theorem C7_invalidation_witness :
    ((zinkDescriptorSetRefsClear (descSetRefAdd (initSt ndOne) 0 0 7) 7).sets 0).invalid =
        true ∧
      ((zinkDescriptorSetRefsClear (descSetRefAdd (initSt ndOne) 0 0 7) 7).sets 0).slots 0 =
        none :=
  ⟨((C7_invalidation 5000 (initSt ndOne) 0 0 0 7 (by decide)
      (fun j hj => by simp [initSt, defaultZDS])).1).1,
   ((C7_invalidation 5000 (initSt ndOne) 0 0 0 7 (by decide)
      (fun j hj => by simp [initSt, defaultZDS])).1).2.1⟩

/-! ## Preservation of the invariant by the individual code paths -/

theorem allocBucketSize_one (d : Nat) : allocBucketSize d 1 = if d = 0 then 1 else 10 := by
  have h10 : (bucketLoop 33 1 DESC_BUCKET_FACTOR DESC_BUCKET_FACTOR).getD 0 = 10 := rfl
  unfold allocBucketSize
  by_cases hd : d = 0 <;> simp [hd, h10]

theorem quickOut_fst_nextId (s : St) (t : TypeIdx) (id : SetId) (a hit : Bool) :
    (quickOut s t id a hit).1.nextId = s.nextId := rfl

/-- `InvP0` transport where the target state may change hashes, as long
as the sets of empty-schema pools end with hash 0. -/
theorem InvP0_of_eqH {maxDescs : Nat} {s s' : St} (hI : InvP0 maxDescs s)
    (hpools : s'.pools = s.pools) (hlast : s'.last_set = s.last_set)
    (hnext : s'.nextId = s.nextId)
    (hhash : ∀ j, j < s.nextId →
      (s.pools ((s.sets j).pool)).num_descriptors = 0 → (s'.sets j).hash = 0)
    (hpool : ∀ j, (s'.sets j).pool = (s.sets j).pool)
    (hrc0 : ∀ j, s.nextId ≤ j → (s'.sets j).refcount = 0) : InvP0 maxDescs s' := by
  refine ⟨?_, ?_, ?_, ?_, ?_, ?_, ?_, ?_, ?_, ?_, ?_, ?_⟩
  · intro t; rw [hpools]; exact hI.ndpos10 t
  · intro t; rw [hpools]; exact hI.ndnull1 t
  · intro hd hM t; rw [hpools]; exact hI.cap hd hM t
  · intro t; rw [hpools]; exact hI.nullMaps t
  · intro t u; rw [hpools, hlast]; exact hI.nullShare t u
  · intro t id hid
    rw [hpools, hpool id]
    rw [hlast] at hid
    exact hI.lastPool t id hid
  · intro id hlt hnd
    rw [hnext] at hlt
    rw [hpools, hpool id] at hnd
    exact hhash id hlt hnd
  · intro t e he
    rw [hpools] at he
    rw [hpool e.id, hnext]
    exact hI.memActive t e he
  · intro t e he
    rw [hpools] at he
    rw [hpool e.id, hnext]
    exact hI.memFree t e he
  · intro t id hid
    rw [hpools] at hid
    rw [hpool id, hnext]
    exact hI.memAlloc t id hid
  · intro t id hid
    rw [hnext]
    rw [hlast] at hid
    exact hI.lastLt t id hid
  · intro id hid
    rw [hnext] at hid
    exact hrc0 id hid

/-- Stamping hash/key and clearing `recycled` on one set (the
`populate_zds_key` part of the `out:` tail) preserves `InvP0` when a set
owned by an empty-schema pool is only ever stamped with hash 0. -/
theorem InvP0_stamp {maxDescs : Nat} (s : St) (id : SetId) (hv : Nat) (k : DKey)
    (hI : InvP0 maxDescs s)
    (hv0 : (s.pools ((s.sets id).pool)).num_descriptors = 0 → hv = 0) :
    InvP0 maxDescs
      (updSet s id (fun z => { z with hash := hv, key := k, recycled := false })) := by
  refine InvP0_of_eqH hI rfl rfl rfl ?_ ?_ ?_
  · intro j hj hnd
    rcases eq_or_ne j id with hjid | hjid
    · subst hjid
      simp only [updSet_sets, if_pos rfl]
      exact hv0 hnd
    · simp only [updSet_sets, if_neg hjid]
      exact hI.nullHash j hj hnd
  · intro j
    rcases eq_or_ne j id with hjid | hjid
    · subst hjid; simp [updSet_sets]
    · simp only [updSet_sets, if_neg hjid]
  · intro j hj
    rcases eq_or_ne j id with hjid | hjid
    · subst hjid
      have := hI.rc0 j hj
      simp [updSet_sets, this]
    · simp only [updSet_sets, if_neg hjid]
      exact hI.rc0 j hj

/-- A single-set update that keeps hash, owning pool, and (for ids beyond
the arena) refcount preserves the full invariant. -/
theorem InvP_updSet {maxDescs : Nat} (s : St) (id : SetId) (f : ZDS → ZDS)
    (hI : InvP maxDescs s)
    (hhash : (f (s.sets id)).hash = (s.sets id).hash)
    (hpool : (f (s.sets id)).pool = (s.sets id).pool)
    (hrc : s.nextId ≤ id → (f (s.sets id)).refcount = 0) :
    InvP maxDescs (updSet s id f) := by
  refine InvP_of_eq hI rfl rfl rfl ?_ ?_ ?_
  · intro j
    rcases eq_or_ne j id with hj | hj
    · subst hj; simp only [updSet_sets, if_pos rfl]; exact hhash
    · simp only [updSet_sets, if_neg hj]
  · intro j
    rcases eq_or_ne j id with hj | hj
    · subst hj; simp only [updSet_sets, if_pos rfl]; exact hpool
    · simp only [updSet_sets, if_neg hj]
  · intro j hj
    rcases eq_or_ne j id with hjid | hjid
    · subst hjid; simp only [updSet_sets, if_pos rfl]; exact hrc hj
    · simp only [updSet_sets, if_neg hjid]; exact hI.rc0 j hj

/-- The `quick_out` tail preserves the invariant: the returned set is a
genuine allocation of the right pool, and when the pool has no schema
slots every empty-schema shortcut already points at it. -/
theorem InvP_quickOut {maxDescs : Nat} (s : St) (t : TypeIdx) (id : SetId) (a hit : Bool)
    (hI : InvP0 maxDescs s)
    (hnd2 : ∀ u, (s.pools u).num_descriptors = 0 → s.last_set u = none →
      (s.pools u).num_sets_allocated = 0)
    (hid : id < s.nextId)
    (hsel : ((s.pools t).num_descriptors = 0 ∧
        (s.pools ((s.sets id).pool)).num_descriptors = 0) ∨
      ((s.pools t).num_descriptors ≠ 0 ∧ (s.sets id).pool = t))
    (hprev : (s.pools t).num_descriptors = 0 →
      ∀ u, (s.pools u).num_descriptors = 0 → s.last_set u = some id) :
    InvP maxDescs (quickOut s t id a hit).1 := by
  have hpools : (quickOut s t id a hit).1.pools = s.pools := quickOut_fst_pools s t id a hit
  have hlast : ∀ u, (quickOut s t id a hit).1.last_set u =
      if u = t then some id else s.last_set u := quickOut_fst_last_set s t id a hit
  have hnext : (quickOut s t id a hit).1.nextId = s.nextId := rfl
  have hpool : ∀ j, ((quickOut s t id a hit).1.sets j).pool = (s.sets j).pool := by
    intro j
    rcases eq_or_ne j id with hj | hj
    · subst hj; rw [quickOut_fst_sets_same]
    · rw [quickOut_fst_sets_ne s t id a hit j hj]
  have hhash : ∀ j, ((quickOut s t id a hit).1.sets j).hash = (s.sets j).hash := by
    intro j
    rcases eq_or_ne j id with hj | hj
    · subst hj; rw [quickOut_fst_sets_same]
    · rw [quickOut_fst_sets_ne s t id a hit j hj]
  refine ⟨⟨?_, ?_, ?_, ?_, ?_, ?_, ?_, ?_, ?_, ?_, ?_, ?_⟩, ?_⟩
  · intro u hu; rw [hpools] at hu ⊢; exact hI.ndpos10 u hu
  · intro u hu; rw [hpools] at hu ⊢; exact hI.ndnull1 u hu
  · intro hd hM u; rw [hpools]; exact hI.cap hd hM u
  · intro u hu; rw [hpools] at hu ⊢; exact hI.nullMaps u hu
  · intro u v hu hv
    rw [hpools] at hu hv
    rw [hlast u, hlast v]
    rcases eq_or_ne u t with hu' | hu' <;> rcases eq_or_ne v t with hv' | hv'
    · simp [hu', hv']
    · subst hu'
      rw [if_pos rfl, if_neg hv']
      exact (hprev hu v hv).symm
    · subst hv'
      rw [if_pos rfl, if_neg hu']
      exact hprev hv u hu
    · rw [if_neg hu', if_neg hv']
      exact hI.nullShare u v hu hv
  · intro u j hj
    rw [hlast u] at hj
    rw [hpools, hpool j]
    rcases eq_or_ne u t with hu | hu
    · subst hu
      rw [if_pos rfl] at hj
      cases hj
      exact hsel
    · rw [if_neg hu] at hj
      exact hI.lastPool u j hj
  · intro j hj hndj
    rw [hnext] at hj
    rw [hpools, hpool j] at hndj
    rw [hhash j]
    exact hI.nullHash j hj hndj
  · intro u e he
    rw [hpools] at he
    rw [hpool e.id, hnext]
    exact hI.memActive u e he
  · intro u e he
    rw [hpools] at he
    rw [hpool e.id, hnext]
    exact hI.memFree u e he
  · intro u j hj
    rw [hpools] at hj
    rw [hpool j, hnext]
    exact hI.memAlloc u j hj
  · intro u j hj
    rw [hlast u] at hj
    rw [hnext]
    rcases eq_or_ne u t with hu | hu
    · subst hu
      rw [if_pos rfl] at hj
      cases hj
      exact hid
    · rw [if_neg hu] at hj
      exact hI.lastLt u j hj
  · intro j hj
    rw [hnext] at hj
    have hj' : j ≠ id := by
      intro h
      rw [h] at hj
      exact absurd hj (Nat.not_le.mpr hid)
    rw [quickOut_fst_sets_ne s t id a hit j hj']
    exact hI.rc0 j hj
  · intro u hu hnone
    rw [hpools] at hu ⊢
    rw [hlast u] at hnone
    rcases eq_or_ne u t with hu' | hu'
    · rw [if_pos hu'] at hnone
      exact absurd hnone (by simp)
    · rw [if_neg hu'] at hnone
      exact hnd2 u hu hnone


theorem updSet_sets_same (s : St) (id : SetId) (f : ZDS → ZDS) :
    (updSet s id f).sets id = f (s.sets id) := by simp

/-- The empty-schema branch of the `out:` tail (adopt the set as the
shortcut of every empty-schema category) preserves `InvP0`. -/
theorem InvP0_spread {maxDescs : Nat} (s : St) (id : SetId)
    (hI : InvP0 maxDescs s) (hid : id < s.nextId)
    (hnull : (s.pools ((s.sets id).pool)).num_descriptors = 0) :
    InvP0 maxDescs
      { s with last_set := fun i =>
          if (s.pools i).num_descriptors = 0 then some id else s.last_set i } := by
  refine ⟨hI.ndpos10, hI.ndnull1, hI.cap, hI.nullMaps, ?_, ?_, hI.nullHash,
    hI.memActive, hI.memFree, hI.memAlloc, ?_, hI.rc0⟩
  · intro u v hu hv
    show (if (s.pools u).num_descriptors = 0 then some id else s.last_set u) =
      (if (s.pools v).num_descriptors = 0 then some id else s.last_set v)
    rw [if_pos hu, if_pos hv]
  · intro u j hj
    have hj' : (if (s.pools u).num_descriptors = 0 then some id else s.last_set u) =
        some j := hj
    by_cases hu : (s.pools u).num_descriptors = 0
    · rw [if_pos hu] at hj'
      cases hj'
      exact Or.inl ⟨hu, hnull⟩
    · rw [if_neg hu] at hj'
      exact hI.lastPool u j hj'
  · intro u j hj
    have hj' : (if (s.pools u).num_descriptors = 0 then some id else s.last_set u) =
        some j := hj
    by_cases hu : (s.pools u).num_descriptors = 0
    · rw [if_pos hu] at hj'
      cases hj'
      exact hid
    · rw [if_neg hu] at hj'
      exact hI.lastLt u j hj'

/-- The `out:` tail (`populate_zds_key`, map insertion or shortcut
spreading, then `quick_out`) preserves the invariant. -/
theorem InvP_outTail {maxDescs : Nat} (s : St) (t : TypeIdx) (hv : Nat) (k : DKey)
    (id : SetId) (a hit : Bool)
    (hI : InvP0 maxDescs s)
    (hnd2 : (s.pools t).num_descriptors ≠ 0 →
      ∀ u, (s.pools u).num_descriptors = 0 → s.last_set u = none →
        (s.pools u).num_sets_allocated = 0)
    (hid : id < s.nextId)
    (hsel : ((s.pools t).num_descriptors = 0 ∧
        (s.pools ((s.sets id).pool)).num_descriptors = 0) ∨
      ((s.pools t).num_descriptors ≠ 0 ∧ (s.sets id).pool = t))
    (hv0 : (s.pools t).num_descriptors = 0 → hv = 0) :
    InvP maxDescs (outTail s t hv k id a hit).1 := by
  have hv0' : (s.pools ((s.sets id).pool)).num_descriptors = 0 → hv = 0 := by
    intro hnd
    rcases hsel with ⟨h1, _⟩ | ⟨h1, h2⟩
    · exact hv0 h1
    · rw [h2] at hnd
      exact absurd hnd h1
  have hI1 : InvP0 maxDescs
      (updSet s id fun z => { z with hash := hv, key := k, recycled := false }) :=
    InvP0_stamp s id hv k hI hv0'
  have hpid : ((updSet s id fun z =>
      { z with hash := hv, key := k, recycled := false }).sets id).pool =
      (s.sets id).pool := by
    rw [updSet_sets_same]
  dsimp only [outTail]
  by_cases hndt : (s.pools t).num_descriptors ≠ 0
  · have hndt' : ((updSet s id fun z =>
        { z with hash := hv, key := k, recycled := false }).pools t).num_descriptors ≠ 0 :=
      hndt
    rw [if_pos hndt']
    rcases hsel with ⟨h1, _⟩ | ⟨h1, h2⟩
    · exact absurd h1 hndt
    · refine InvP_quickOut _ t id a hit ?_ ?_ hid ?_ ?_
      · refine InvP0_updPool_mem _ t _ hI1 id hv rfl rfl ⟨?_, hid⟩ ?_ ?_ ?_ ?_
        · rw [hpid]; exact h2
        · exact fun e he => insertPreHashed_mem _ hv k id _ e he
        · exact fun e he => Or.inr he
        · exact fun j hj => Or.inr hj
        · exact fun h0 => absurd h0 hndt
      · intro u hu hn
        have hu' : (s.pools u).num_descriptors = 0 := by
          rcases eq_or_ne u t with h' | h'
          · subst h'; simpa using hu
          · simpa [h'] using hu
        have hn' : s.last_set u = none := by simpa using hn
        have hres := hnd2 hndt u hu' hn'
        rcases eq_or_ne u t with h' | h'
        · subst h'; simpa using hres
        · simpa [h'] using hres
      · refine Or.inr ⟨by simpa using hndt, ?_⟩
        simp only [updPool_sets]
        rw [hpid]
        exact h2
      · intro h0
        exact absurd (by simpa using h0) hndt
  · have hndt' : ¬ ((updSet s id fun z =>
        { z with hash := hv, key := k, recycled := false }).pools t).num_descriptors ≠ 0 :=
      hndt
    rw [if_neg hndt']
    have hnd0 : (s.pools t).num_descriptors = 0 := not_not.mp hndt
    rcases hsel with ⟨h1, h2⟩ | ⟨h1, _⟩
    · refine InvP_quickOut _ t id a hit ?_ ?_ hid ?_ ?_
      · exact InvP0_spread _ id hI1 hid (by rw [updSet_pools, hpid]; exact h2)
      · intro u hu hn
        exfalso
        have hu' : ((updSet s id fun z =>
            { z with hash := hv, key := k, recycled := false }).pools u).num_descriptors =
            0 := hu
        have hn' : (if ((updSet s id fun z =>
            { z with hash := hv, key := k, recycled := false }).pools u).num_descriptors = 0
            then some id
            else (updSet s id fun z =>
              { z with hash := hv, key := k, recycled := false }).last_set u) = none := hn
        rw [if_pos hu'] at hn'
        exact Option.noConfusion hn'
      · exact Or.inl ⟨hnd0, by rw [updSet_pools, hpid]; exact h2⟩
      · intro _ u hu
        have hu' : ((updSet s id fun z =>
            { z with hash := hv, key := k, recycled := false }).pools u).num_descriptors =
            0 := hu
        show (if ((updSet s id fun z =>
            { z with hash := hv, key := k, recycled := false }).pools u).num_descriptors = 0
          then some id
          else (updSet s id fun z =>
            { z with hash := hv, key := k, recycled := false }).last_set u) = some id
        rw [if_pos hu']
    · exact absurd hnd0 h1

/-! ### Projections of `allocate_desc_set` -/

theorem allocateDescSet_fst_nextId (s : St) (t : TypeIdx) (n : Nat) :
    (allocateDescSet s t n).1.nextId =
      s.nextId + allocBucketSize (s.pools t).num_descriptors n := rfl

theorem allocateDescSet_snd (s : St) (t : TypeIdx) (n : Nat) :
    (allocateDescSet s t n).2 = s.nextId := rfl

theorem allocateDescSet_fst_last_set (s : St) (t : TypeIdx) (n : Nat) :
    (allocateDescSet s t n).1.last_set = s.last_set := rfl

theorem allocA_count (s : St) (t : TypeIdx) (n : Nat) (u : TypeIdx) :
    ((allocateDescSet s t n).1.pools u).num_sets_allocated =
      (s.pools u).num_sets_allocated +
        (if u = t then allocBucketSize (s.pools t).num_descriptors n else 0) := by
  dsimp only [allocateDescSet]
  rw [updPool_pools]
  rcases eq_or_ne u t with h | h
  · subst h; simp
  · simp [h]

theorem allocA_active (s : St) (t : TypeIdx) (n : Nat) (u : TypeIdx) :
    ((allocateDescSet s t n).1.pools u).desc_sets = (s.pools u).desc_sets := by
  dsimp only [allocateDescSet]
  rw [updPool_pools]
  rcases eq_or_ne u t with h | h
  · subst h; simp
  · simp [h]

theorem allocA_free (s : St) (t : TypeIdx) (n : Nat) (u : TypeIdx) :
    ((allocateDescSet s t n).1.pools u).free_desc_sets = (s.pools u).free_desc_sets := by
  dsimp only [allocateDescSet]
  rw [updPool_pools]
  rcases eq_or_ne u t with h | h
  · subst h; simp
  · simp [h]

theorem allocA_alloc (s : St) (t : TypeIdx) (n : Nat) (u : TypeIdx) :
    ((allocateDescSet s t n).1.pools u).alloc_desc_sets =
      (s.pools u).alloc_desc_sets ++
        (if u = t then
          (List.range (allocBucketSize (s.pools t).num_descriptors n - 1)).map
            (fun j => s.nextId + 1 + j)
        else []) := by
  dsimp only [allocateDescSet]
  rw [updPool_pools]
  rcases eq_or_ne u t with h | h
  · subst h; simp
  · simp [h]

theorem allocA_sets_old (s : St) (t : TypeIdx) (n : Nat) (i : SetId)
    (h : i < s.nextId) : (allocateDescSet s t n).1.sets i = s.sets i := by
  dsimp only [allocateDescSet, updPool]
  rw [if_neg (fun hc => absurd hc.1 (Nat.not_le.mpr h))]

theorem allocA_sets_new (s : St) (t : TypeIdx) (n : Nat) (i : SetId)
    (h1 : s.nextId ≤ i)
    (h2 : i < s.nextId + allocBucketSize (s.pools t).num_descriptors n) :
    (allocateDescSet s t n).1.sets i = mkFreshZDS t := by
  dsimp only [allocateDescSet, updPool]
  rw [if_pos ⟨h1, h2⟩]

theorem allocA_sets_hi (s : St) (t : TypeIdx) (n : Nat) (i : SetId)
    (h : s.nextId + allocBucketSize (s.pools t).num_descriptors n ≤ i) :
    (allocateDescSet s t n).1.sets i = s.sets i := by
  dsimp only [allocateDescSet, updPool]
  rw [if_neg (fun hc => absurd h (Nat.not_le.mpr hc.2))]

/-- `allocate_desc_set` with `descs_used = 1` (every call site) preserves
`InvP0` when either the capacity guard passed (caching pool) or the
empty-schema pool had allocated nothing; the returned set `s.nextId` is a
fresh member of the requested pool. -/
theorem InvP_allocate {maxDescs : Nat} (s : St) (t : TypeIdx)
    (hI : InvP0 maxDescs s)
    (hcapR : (s.pools t).num_descriptors ≠ 0 →
      (s.pools t).num_sets_allocated + (s.pools t).num_descriptors ≤ maxDescs)
    (hcap0 : (s.pools t).num_descriptors = 0 →
      (s.pools t).num_sets_allocated = 0) :
    InvP0 maxDescs (allocateDescSet s t 1).1 ∧
    ((allocateDescSet s t 1).1.sets s.nextId).pool = t ∧
    s.nextId < (allocateDescSet s t 1).1.nextId := by
  have hB := allocBucketSize_one (s.pools t).num_descriptors
  have hB1 : 1 ≤ allocBucketSize (s.pools t).num_descriptors 1 := by
    rw [hB]; split <;> omega
  have hnext := allocateDescSet_fst_nextId s t 1
  have hlast := allocateDescSet_fst_last_set s t 1
  refine ⟨⟨?_, ?_, ?_, ?_, ?_, ?_, ?_, ?_, ?_, ?_, ?_, ?_⟩, ?_, ?_⟩
  · intro u hu
    rw [allocateDescSet_pools_nd] at hu
    rw [allocA_count]
    rcases eq_or_ne u t with h | h
    · subst h
      rw [if_pos rfl]
      have h10 : allocBucketSize (s.pools u).num_descriptors 1 = 10 := by
        rw [hB, if_neg hu]
      rw [h10]
      exact Nat.dvd_add (hI.ndpos10 u hu) (by norm_num)
    · rw [if_neg h, Nat.add_zero]
      exact hI.ndpos10 u hu
  · intro u hu
    rw [allocateDescSet_pools_nd] at hu
    rw [allocA_count]
    rcases eq_or_ne u t with h | h
    · subst h
      rw [if_pos rfl]
      have hb1 : allocBucketSize (s.pools u).num_descriptors 1 = 1 := by
        rw [hB, if_pos hu]
      rw [hb1, hcap0 hu]
    · rw [if_neg h, Nat.add_zero]
      exact hI.ndnull1 u hu
  · intro hd hM u
    rw [allocA_count]
    rcases eq_or_ne u t with h | h
    · subst h
      rw [if_pos rfl]
      by_cases hnd : (s.pools u).num_descriptors = 0
      · have hb1 : allocBucketSize (s.pools u).num_descriptors 1 = 1 := by
          rw [hB, if_pos hnd]
        rw [hb1, hcap0 hnd]
        omega
      · have hb10 : allocBucketSize (s.pools u).num_descriptors 1 = 10 := by
          rw [hB, if_neg hnd]
        rw [hb10]
        have hdvd := hI.ndpos10 u hnd
        have hle := hcapR hnd
        have hnd1 : 1 ≤ (s.pools u).num_descriptors := Nat.one_le_iff_ne_zero.mpr hnd
        clear hB hB1 hnext hlast hcapR hcap0
        omega
    · rw [if_neg h, Nat.add_zero]
      exact hI.cap hd hM u
  · intro u hu
    rw [allocateDescSet_pools_nd] at hu
    obtain ⟨hA, hF, hL⟩ := hI.nullMaps u hu
    refine ⟨?_, ?_, ?_⟩
    · rw [allocA_active]; exact hA
    · rw [allocA_free]; exact hF
    · rw [allocA_alloc, hL]
      rcases eq_or_ne u t with h | h
      · subst h
        rw [if_pos rfl]
        have hb1 : allocBucketSize (s.pools u).num_descriptors 1 = 1 := by
          rw [hB, if_pos hu]
        rw [hb1]
        rfl
      · rw [if_neg h]
        rfl
  · intro u v hu hv
    rw [allocateDescSet_pools_nd] at hu hv
    rw [hlast]
    exact hI.nullShare u v hu hv
  · intro u j hj
    rw [hlast] at hj
    have hjlt : j < s.nextId := hI.lastLt u j hj
    simp only [allocateDescSet_pools_nd, allocA_sets_old s t 1 j hjlt]
    exact hI.lastPool u j hj
  · intro j hj hndj
    rw [hnext] at hj
    by_cases hjb : j < s.nextId
    · rw [allocA_sets_old s t 1 j hjb] at hndj ⊢
      rw [allocateDescSet_pools_nd] at hndj
      exact hI.nullHash j hjb hndj
    · have hge : s.nextId ≤ j := Nat.le_of_not_lt hjb
      rw [allocA_sets_new s t 1 j hge hj]
      rfl
  · intro u e he
    rw [allocA_active] at he
    obtain ⟨hp, hlt⟩ := hI.memActive u e he
    rw [allocA_sets_old s t 1 e.id hlt, hnext]
    exact ⟨hp, Nat.lt_of_lt_of_le hlt (Nat.le_add_right _ _)⟩
  · intro u e he
    rw [allocA_free] at he
    obtain ⟨hp, hlt⟩ := hI.memFree u e he
    rw [allocA_sets_old s t 1 e.id hlt, hnext]
    exact ⟨hp, Nat.lt_of_lt_of_le hlt (Nat.le_add_right _ _)⟩
  · intro u j hj
    rw [allocA_alloc] at hj
    rcases List.mem_append.mp hj with hj' | hj'
    · obtain ⟨hp, hlt⟩ := hI.memAlloc u j hj'
      rw [allocA_sets_old s t 1 j hlt, hnext]
      exact ⟨hp, Nat.lt_of_lt_of_le hlt (Nat.le_add_right _ _)⟩
    · rcases eq_or_ne u t with h | h
      · subst h
        rw [if_pos rfl] at hj'
        obtain ⟨m, hm, hmj⟩ := List.mem_map.mp hj'
        have hmj' : s.nextId + 1 + m = j := hmj
        subst hmj'
        have hmr := List.mem_range.mp hm
        have hlo : s.nextId ≤ s.nextId + 1 + m :=
          Nat.le_trans (Nat.le_add_right _ _) (Nat.le_add_right _ _)
        have hhi : s.nextId + 1 + m <
            s.nextId + allocBucketSize (s.pools u).num_descriptors 1 := by
          generalize hg : allocBucketSize (s.pools u).num_descriptors 1 = B at hmr ⊢
          omega
        rw [allocA_sets_new s u 1 _ hlo hhi, hnext]
        exact ⟨rfl, hhi⟩
      · rw [if_neg h] at hj'
        exact absurd hj' (List.not_mem_nil j)
  · intro u j hj
    rw [hlast] at hj
    rw [hnext]
    exact Nat.lt_of_lt_of_le (hI.lastLt u j hj) (Nat.le_add_right _ _)
  · intro j hj
    rw [hnext] at hj
    rw [allocA_sets_hi s t 1 j hj]
    exact hI.rc0 j (Nat.le_trans (Nat.le_add_right _ _) hj)
  · rw [allocA_sets_new s t 1 s.nextId (Nat.le_refl _) (Nat.lt_add_of_pos_right hB1)]
    rfl
  · rw [hnext]
    exact Nat.lt_add_of_pos_right hB1

/-- Transport of the `ndnull2` clause through a pool rewrite that keeps
schema size and allocation counter. -/
theorem ndnull2_updPool (s : St) (t : TypeIdx) (f : Pool → Pool)
    (hnd : (f (s.pools t)).num_descriptors = (s.pools t).num_descriptors)
    (hcount : (f (s.pools t)).num_sets_allocated = (s.pools t).num_sets_allocated)
    (h : ∀ u, (s.pools u).num_descriptors = 0 → s.last_set u = none →
      (s.pools u).num_sets_allocated = 0) :
    ∀ u, ((updPool s t f).pools u).num_descriptors = 0 →
      (updPool s t f).last_set u = none →
      ((updPool s t f).pools u).num_sets_allocated = 0 := by
  intro u hu hn
  simp only [updPool_pools] at hu ⊢
  simp only [updPool_last_set] at hn
  rcases eq_or_ne u t with h' | h'
  · subst h'
    rw [if_pos rfl] at hu ⊢
    rw [hnd] at hu
    rw [hcount]
    exact h _ hu hn
  · rw [if_neg h'] at hu ⊢
    exact h _ hu hn

/-- The body of `zink_descriptor_set_get` past the shortcut test
preserves the invariant (the cache-hit, recycle-migration, shell-reuse,
reclamation-scan, flush and allocation paths). -/
theorem InvP_getMain {maxDescs : Nat} (s : St) (t : TypeIdx) (hv : Nat) (k : DKey)
    (a : Bool) (hI : InvP maxDescs s)
    (hv0 : (s.pools t).num_descriptors = 0 → hv = 0) :
    InvP maxDescs (getMain maxDescs s t hv k a).1 := by
  dsimp only [getMain]
  by_cases hnd : (s.pools t).num_descriptors ≠ 0
  · rw [if_pos hnd]
    rcases hA : searchPreHashed s (s.pools t).desc_sets hv k with _ | he
    · rcases hF : searchPreHashed s (s.pools t).free_desc_sets hv k with _ | he
      · rcases hL : (s.pools t).alloc_desc_sets.getLast? with _ | id
        · rcases hS : scanFree s 0 (s.pools t).free_desc_sets with _ | e
          · simp only [hA, hF, hL, hS]
            by_cases hcap :
                (s.pools t).num_sets_allocated + (s.pools t).num_descriptors > maxDescs
            · rw [if_pos hcap]
              exact hI
            · rw [if_neg hcap]
              obtain ⟨hI2, hpool2, hlt2⟩ := InvP_allocate s t hI.toInvP0
                (fun _ => Nat.le_of_not_lt hcap) (fun h0 => absurd h0 hnd)
              rw [allocateDescSet_snd]
              refine InvP_outTail _ t hv k s.nextId a false hI2 ?_ hlt2 ?_ ?_
              · intro hc u hu hn
                rw [allocateDescSet_pools_nd] at hu
                rw [allocateDescSet_fst_last_set] at hn
                rw [allocA_count]
                rcases eq_or_ne u t with h' | h'
                · subst h'
                  exact absurd hu (by rw [allocateDescSet_pools_nd] at hc; exact hc)
                · rw [if_neg h', Nat.add_zero]
                  exact hI.ndnull2 u hu hn
              · refine Or.inr ⟨?_, hpool2⟩
                rw [allocateDescSet_pools_nd]
                exact hnd
              · intro h0
                rw [allocateDescSet_pools_nd] at h0
                exact absurd h0 hnd
          · simp only [hA, hF, hL, hS]
            have hmem : e ∈ (s.pools t).free_desc_sets := scanFree_mem s _ e 0 hS
            obtain ⟨hp, hlt⟩ := hI.memFree t e hmem
            have hI1 : InvP maxDescs (updSet s e.id fun z => { z with invalid := true }) :=
              InvP_updSet s e.id _ hI rfl rfl
                (fun hge => absurd hge (Nat.not_le.mpr hlt))
            refine InvP_outTail _ t hv k e.id a false ?_ ?_ hlt ?_ ?_
            · refine InvP0_updPool_mem _ t _ hI1.toInvP0 e.id hv rfl rfl
                ⟨?_, hlt⟩ ?_ ?_ ?_ ?_
              · rw [updSet_sets_same]
                exact hp
              · exact fun e' he' => Or.inr he'
              · exact fun e' he' => Or.inr (List.erase_subset _ _ he')
              · exact fun j hj => Or.inr hj
              · intro h0
                exact absurd h0 hnd
            · exact fun hc =>
                ndnull2_updPool _ t _ rfl rfl (fun u hu hn => hI.ndnull2 u hu hn)
            · refine Or.inr ⟨by simpa using hnd, ?_⟩
              simp only [updPool_sets]
              rw [updSet_sets_same]
              exact hp
            · intro h0
              exact absurd (by simpa using h0) hnd
        · simp only [hA, hF, hL]
          have hmem : id ∈ (s.pools t).alloc_desc_sets := mem_of_getLast?_eq hL
          obtain ⟨hp, hlt⟩ := hI.memAlloc t id hmem
          refine InvP_outTail _ t hv k id a false ?_ ?_ hlt ?_ ?_
          · refine InvP0_updPool_mem s t _ hI.toInvP0 id hv rfl rfl ⟨hp, hlt⟩ ?_ ?_ ?_ ?_
            · exact fun e he' => Or.inr he'
            · exact fun e he' => Or.inr he'
            · exact fun j hj => Or.inr (List.dropLast_subset _ hj)
            · intro h0
              exact absurd h0 hnd
          · exact fun hc =>
              ndnull2_updPool s t _ rfl rfl (fun u hu hn => hI.ndnull2 u hu hn)
          · refine Or.inr ⟨by simpa using hnd, ?_⟩
            simp only [updPool_sets]
            exact hp
          · intro h0
            exact absurd (by simpa using h0) hnd
      · simp only [hA, hF]
        have hF' : List.find? (entryMatches s hv k) (s.pools t).free_desc_sets =
            some he := hF
        have hmem : he ∈ (s.pools t).free_desc_sets := List.mem_of_find?_eq_some hF'
        obtain ⟨hp, hlt⟩ := hI.memFree t he hmem
        refine InvP_outTail _ t hv k he.id a _ ?_ ?_ hlt ?_ ?_
        · refine InvP0_updPool_mem s t _ hI.toInvP0 he.id hv rfl rfl ⟨hp, hlt⟩ ?_ ?_ ?_ ?_
          · exact fun e he' => Or.inr he'
          · exact fun e he' => Or.inr (List.eraseP_subset _ he')
          · exact fun j hj => Or.inr hj
          · intro h0
            exact absurd h0 hnd
        · exact fun hc =>
            ndnull2_updPool s t _ rfl rfl (fun u hu hn => hI.ndnull2 u hu hn)
        · refine Or.inr ⟨by simpa using hnd, ?_⟩
          simp only [updPool_sets]
          exact hp
        · intro h0
          exact absurd (by simpa using h0) hnd
    · simp only [hA]
      have hA' : List.find? (entryMatches s hv k) (s.pools t).desc_sets = some he := hA
      have hmem : he ∈ (s.pools t).desc_sets := List.mem_of_find?_eq_some hA'
      obtain ⟨hp, hlt⟩ := hI.memActive t he hmem
      exact InvP_quickOut s t he.id a _ hI.toInvP0 hI.ndnull2 hlt (Or.inr ⟨hnd, hp⟩)
        (fun h0 => absurd h0 hnd)
  · rw [if_neg hnd]
    have hnd0 : (s.pools t).num_descriptors = 0 := not_not.mp hnd
    rcases hls : s.last_set t with _ | ls
    · simp only [hls]
      have hzero : (s.pools t).num_sets_allocated = 0 := hI.ndnull2 t hnd0 hls
      obtain ⟨hI2, hpool2, hlt2⟩ := InvP_allocate s t hI.toInvP0
        (fun hc => absurd hnd0 hc) (fun _ => hzero)
      rw [allocateDescSet_snd]
      refine InvP_outTail _ t hv k s.nextId a false hI2 ?_ hlt2 ?_ ?_
      · intro hc
        rw [allocateDescSet_pools_nd] at hc
        exact absurd hnd0 hc
      · refine Or.inl ⟨?_, ?_⟩
        · rw [allocateDescSet_pools_nd]
          exact hnd0
        · rw [hpool2, allocateDescSet_pools_nd]
          exact hnd0
      · intro _
        exact hv0 hnd0
    · simp only [hls]
      have hlt := hI.lastLt t ls hls
      have hplnull : (s.pools ((s.sets ls).pool)).num_descriptors = 0 := by
        rcases hI.lastPool t ls hls with ⟨_, h2⟩ | ⟨h1, _⟩
        · exact h2
        · exact absurd hnd0 h1
      have hh0 : (s.sets ls).hash = 0 := hI.nullHash ls hlt hplnull
      rw [if_pos (show ((s.sets ls).hash == 0) = true by rw [hh0]; rfl)]
      exact InvP_quickOut s t ls a true hI.toInvP0 hI.ndnull2 hlt
        (Or.inl ⟨hnd0, hplnull⟩)
        (fun _ u hu => by rw [hI.nullShare u t hu hnd0]; exact hls)

/-- `zink_descriptor_set_get` preserves the invariant. -/
theorem InvP_get {maxDescs : Nat} (s : St) (t : TypeIdx) (hashIn : Nat) (k : DKey)
    (a : Bool) (hI : InvP maxDescs s) :
    InvP maxDescs (zinkDescriptorSetGet maxDescs s t hashIn k a).1 := by
  have hv0 : (s.pools t).num_descriptors = 0 →
      (if (s.pools t).num_descriptors ≠ 0 then hashIn else 0) = 0 := by
    intro h0
    rw [if_neg (by simpa using h0)]
  dsimp only [zinkDescriptorSetGet]
  rcases hls : s.last_set t with _ | ls
  · simp only [hls]
    exact InvP_getMain s t _ k a hI hv0
  · simp only [hls]
    by_cases hc : ((s.sets ls).hash ==
        (if (s.pools t).num_descriptors ≠ 0 then hashIn else 0) &&
        descStateEqual (s.sets ls).key k) = true
    · rw [if_pos hc]
      have hlt := hI.lastLt t ls hls
      have hsel0 := hI.lastPool t ls hls
      by_cases hrec : (decide ((s.pools t).num_descriptors ≠ 0) &&
          (s.sets ls).recycled) = true
      · rw [if_pos hrec]
        have hrec2 := hrec
        rw [Bool.and_eq_true] at hrec2
        obtain ⟨hnd', hrec'⟩ := hrec2
        have hnd : (s.pools t).num_descriptors ≠ 0 := of_decide_eq_true hnd'
        have hpl : (s.sets ls).pool = t := by
          rcases hsel0 with ⟨h1, _⟩ | ⟨_, h2⟩
          · exact absurd h1 hnd
          · exact h2
        refine InvP_outTail _ t _ k ls a _ ?_ ?_ hlt ?_ ?_
        · refine InvP0_updPool_mem s t _ hI.toInvP0 ls 0 rfl rfl ⟨hpl, hlt⟩ ?_ ?_ ?_ ?_
          · exact fun e he' => Or.inr he'
          · exact fun e he' => Or.inr (List.eraseP_subset _ he')
          · exact fun j hj => Or.inr hj
          · intro h0
            exact absurd h0 hnd
        · exact fun hc' =>
            ndnull2_updPool s t _ rfl rfl (fun u hu hn => hI.ndnull2 u hu hn)
        · refine Or.inr ⟨by simpa using hnd, ?_⟩
          simp only [updPool_sets]
          exact hpl
        · intro h0
          exact hv0 (by simpa using h0)
      · rw [if_neg hrec]
        exact InvP_outTail s t _ k ls a _ hI.toInvP0 (fun _ => hI.ndnull2) hlt hsel0 hv0
    · rw [if_neg hc]
      exact InvP_getMain s t _ k a hI hv0

/-- `zink_descriptor_set_recycle` preserves the invariant. -/
theorem InvP_recycle {maxDescs : Nat} (s : St) (id : SetId) (hI : InvP maxDescs s) :
    InvP maxDescs (zinkDescriptorSetRecycle s id) := by
  dsimp only [zinkDescriptorSetRecycle]
  by_cases hrc : (s.sets id).refcount ≠ 1
  · rw [if_pos hrc]
    exact hI
  · rw [if_neg hrc]
    have hrc1 : (s.sets id).refcount = 1 := not_not.mp hrc
    have hlt : id < s.nextId := by
      by_contra hge
      have h0 := hI.rc0 id (Nat.le_of_not_lt hge)
      rw [h0] at hrc1
      exact absurd hrc1 (by norm_num)
    by_cases hnd : (s.pools (s.sets id).pool).num_descriptors = 0
    · rw [if_pos hnd]
      exact hI
    · rw [if_neg hnd]
      rcases hsearch : searchPreHashed s (s.pools (s.sets id).pool).desc_sets
          (s.sets id).hash (s.sets id).key with _ | e0
      · simp only [hsearch]
        exact hI
      · simp only [hsearch]
        have hI1 : InvP maxDescs (updPool s (s.sets id).pool (fun p =>
            { p with desc_sets :=
                List.eraseP (entryMatches s (s.sets id).hash (s.sets id).key) p.desc_sets })) :=
          InvP_updPool_mem s _ _ hI id 0 rfl rfl ⟨rfl, hlt⟩
            (fun e he => Or.inr (List.eraseP_subset _ he))
            (fun e he => Or.inr he) (fun j hj => Or.inr hj)
            (fun h0 => absurd h0 hnd)
        by_cases hinv : (s.sets id).invalid = true
        · rw [if_pos hinv]
          have hI2 : InvP maxDescs (updSet
              (updPool s (s.sets id).pool (fun p =>
                { p with desc_sets :=
                    (List.eraseP (entryMatches s (s.sets id).hash (s.sets id).key)
                      p.desc_sets) }))
              id fun w => { w with invalid := true }) :=
            InvP_updSet _ id _ hI1 rfl rfl
              (fun hge => absurd hge (Nat.not_le.mpr hlt))
          refine InvP_updPool_mem _ _ _ hI2 id 0 rfl rfl ⟨?_, hlt⟩ ?_ ?_ ?_ ?_
          · rw [updSet_sets_same]
            simp only [updPool_sets]
          · exact fun e he => Or.inr he
          · exact fun e he => Or.inr he
          · intro j hj
            rcases List.mem_append.mp hj with h' | h'
            · exact Or.inr h'
            · exact Or.inl (List.mem_singleton.mp h')
          · intro h0
            have h0' : (s.pools (s.sets id).pool).num_descriptors = 0 := by
              simpa using h0
            exact absurd h0' hnd
        · rw [if_neg hinv]
          have hI2 : InvP maxDescs (updSet
              (updPool s (s.sets id).pool (fun p =>
                { p with desc_sets :=
                    (List.eraseP (entryMatches s (s.sets id).hash (s.sets id).key)
                      p.desc_sets) }))
              id fun w => { w with recycled := true }) :=
            InvP_updSet _ id _ hI1 rfl rfl
              (fun hge => absurd hge (Nat.not_le.mpr hlt))
          refine InvP_updPool_mem _ _ _ hI2 id (s.sets id).hash rfl rfl
            ⟨?_, hlt⟩ ?_ ?_ ?_ ?_
          · rw [updSet_sets_same]
            simp only [updPool_sets]
          · exact fun e he => Or.inr he
          · intro e he
            exact insertPreHashed_mem _ _ _ id _ e he
          · exact fun j hj => Or.inr hj
          · intro h0
            have h0' : (s.pools (s.sets id).pool).num_descriptors = 0 := by
              simpa using h0
            exact absurd h0' hnd

/-- Folding a step-preserved binary relation over a list. -/
theorem foldl_pres {α β : Type} (F : β → α → β) (P : β → β → Prop)
    (hrefl : ∀ b, P b b) (htrans : ∀ a b c, P a b → P b c → P a c)
    (hstep : ∀ b x, P b (F b x)) :
    ∀ (l : List α) (b : β), P b (l.foldl F b) := by
  intro l
  induction l with
  | nil => exact fun b => hrefl b
  | cons x xs ih =>
    intro b
    simp only [List.foldl_cons]
    exact htrans _ _ _ (hstep b x) (ih (F b x))

/-- The back-reference sweep of `zink_descriptor_set_refs_clear` keeps
pools, shortcuts, arena size, and each set's hash/pool/refcount. -/
theorem refsClearFold_skel (R : Nat) (l : List (SetId × Nat)) (s : St) :
    (l.foldl (fun acc r =>
        if (acc.sets r.1).slots r.2 = some R then
          updSet acc r.1 (fun z =>
            { z with invalid := true, slots := Function.update z.slots r.2 none })
        else acc) s).pools = s.pools ∧
    (l.foldl (fun acc r =>
        if (acc.sets r.1).slots r.2 = some R then
          updSet acc r.1 (fun z =>
            { z with invalid := true, slots := Function.update z.slots r.2 none })
        else acc) s).last_set = s.last_set ∧
    (l.foldl (fun acc r =>
        if (acc.sets r.1).slots r.2 = some R then
          updSet acc r.1 (fun z =>
            { z with invalid := true, slots := Function.update z.slots r.2 none })
        else acc) s).nextId = s.nextId ∧
    ∀ j, ((l.foldl (fun acc r =>
        if (acc.sets r.1).slots r.2 = some R then
          updSet acc r.1 (fun z =>
            { z with invalid := true, slots := Function.update z.slots r.2 none })
        else acc) s).sets j).hash = (s.sets j).hash ∧
      ((l.foldl (fun acc r =>
        if (acc.sets r.1).slots r.2 = some R then
          updSet acc r.1 (fun z =>
            { z with invalid := true, slots := Function.update z.slots r.2 none })
        else acc) s).sets j).pool = (s.sets j).pool ∧
      ((l.foldl (fun acc r =>
        if (acc.sets r.1).slots r.2 = some R then
          updSet acc r.1 (fun z =>
            { z with invalid := true, slots := Function.update z.slots r.2 none })
        else acc) s).sets j).refcount = (s.sets j).refcount := by
  refine foldl_pres _ (fun b c => c.pools = b.pools ∧ c.last_set = b.last_set ∧
    c.nextId = b.nextId ∧ ∀ j, (c.sets j).hash = (b.sets j).hash ∧
      (c.sets j).pool = (b.sets j).pool ∧ (c.sets j).refcount = (b.sets j).refcount)
    (fun b => ⟨rfl, rfl, rfl, fun j => ⟨rfl, rfl, rfl⟩⟩) ?_ ?_ l s
  · intro x y z hxy hyz
    refine ⟨hyz.1.trans hxy.1, hyz.2.1.trans hxy.2.1, hyz.2.2.1.trans hxy.2.2.1, ?_⟩
    intro j
    exact ⟨((hyz.2.2.2 j).1).trans ((hxy.2.2.2 j).1),
      ((hyz.2.2.2 j).2.1).trans ((hxy.2.2.2 j).2.1),
      ((hyz.2.2.2 j).2.2).trans ((hxy.2.2.2 j).2.2)⟩
  · intro b x
    by_cases hf : (b.sets x.1).slots x.2 = some R
    · rw [if_pos hf]
      refine ⟨rfl, rfl, rfl, fun j => ?_⟩
      rcases eq_or_ne j x.1 with hj | hj
      · subst hj
        rw [updSet_sets_same]
        exact ⟨rfl, rfl, rfl⟩
      · rw [updSet_sets, if_neg hj]
        exact ⟨rfl, rfl, rfl⟩
    · rw [if_neg hf]
      exact ⟨rfl, rfl, rfl, fun j => ⟨rfl, rfl, rfl⟩⟩

/-- Every external call preserves the invariant. -/
theorem InvP_step {maxDescs : Nat} (s : St) (op : Op) (hI : InvP maxDescs s) :
    InvP maxDescs (stepOp maxDescs s op) := by
  cases op with
  | get t h k a => exact InvP_get s t h k a hI
  | recycle id => exact InvP_recycle s id hI
  | invalidate id =>
    exact InvP_updSet s id (fun z => { z with invalid := true }) hI rfl rfl
      (fun hge => hI.rc0 id hge)
  | bind id idx res =>
    dsimp only [stepOp]
    refine InvP_of_eq hI rfl rfl rfl ?_ ?_ ?_
    · intro j
      have hj : (descSetRefAdd s id idx res).sets j = (updSet s id (fun z =>
          { z with slots := Function.update z.slots idx (some res) })).sets j := rfl
      rw [hj]
      rcases eq_or_ne j id with hj' | hj'
      · subst hj'
        rw [updSet_sets_same]
      · simp only [updSet_sets, if_neg hj']
    · intro j
      have hj : (descSetRefAdd s id idx res).sets j = (updSet s id (fun z =>
          { z with slots := Function.update z.slots idx (some res) })).sets j := rfl
      rw [hj]
      rcases eq_or_ne j id with hj' | hj'
      · subst hj'
        rw [updSet_sets_same]
      · simp only [updSet_sets, if_neg hj']
    · intro j hge
      have hj : (descSetRefAdd s id idx res).sets j = (updSet s id (fun z =>
          { z with slots := Function.update z.slots idx (some res) })).sets j := rfl
      rw [hj]
      rcases eq_or_ne j id with hj' | hj'
      · subst hj'
        rw [updSet_sets_same]
        exact hI.rc0 j hge
      · simp only [updSet_sets, if_neg hj']
        exact hI.rc0 j hge
  | refsClear res =>
    dsimp only [stepOp, zinkDescriptorSetRefsClear]
    obtain ⟨hp, hl, hn, hs⟩ := refsClearFold_skel res (s.refs res) s
    refine InvP_of_eq hI hp hl hn (fun j => (hs j).1) (fun j => (hs j).2.1) ?_
    intro j hge
    rw [(hs j).2.2]
    exact hI.rc0 j hge
  | release id =>
    refine InvP_updSet s id (fun z => { z with refcount := z.refcount - 1 }) hI rfl rfl ?_
    intro hge
    have h0 := hI.rc0 id hge
    show (s.sets id).refcount - 1 = 0
    rw [h0]

/-- The invariant holds in the initial state. -/
theorem InvP_init (maxDescs : Nat) (nd : TypeIdx → Nat) : InvP maxDescs (initSt nd) := by
  refine ⟨⟨?_, ?_, ?_, ?_, ?_, ?_, ?_, ?_, ?_, ?_, ?_, ?_⟩, ?_⟩
  · exact fun t _ => ⟨0, rfl⟩
  · exact fun t _ => Nat.zero_le 1
  · exact fun _ _ t => Nat.zero_le _
  · exact fun t _ => ⟨rfl, rfl, rfl⟩
  · exact fun t u _ _ => rfl
  · exact fun t id h => Option.noConfusion h
  · exact fun id _ _ => rfl
  · exact fun t e he => absurd he (List.not_mem_nil e)
  · exact fun t e he => absurd he (List.not_mem_nil e)
  · exact fun t id hid => absurd hid (List.not_mem_nil id)
  · exact fun t id h => Option.noConfusion h
  · exact fun id _ => rfl
  · exact fun t _ _ => rfl

/-- Every reachable state satisfies the invariant. -/
theorem reach_InvP {maxDescs : Nat} {s : St} (h : Reach maxDescs s) :
    InvP maxDescs s := by
  induction h with
  | init nd => exact InvP_init maxDescs nd
  | step op hr ih => exact InvP_step _ op ih

/-- C1: in every reachable program state each pool's `num_sets_allocated`
counter is at most `ZINK_DEFAULT_MAX_DESCS`: the exhaustion guard forces a
flush instead of allocating once another bucket would pass the ceiling,
caching pools grow in buckets of 10 (keeping the counter a multiple of
10, and the ceiling is a positive multiple of 10), and a pool without
schema slots only ever allocates its single placeholder. -/
theorem C1_capacity (s : St) (h : Reach ZINK_DEFAULT_MAX_DESCS s) (t : TypeIdx) :
    (s.pools t).num_sets_allocated ≤ ZINK_DEFAULT_MAX_DESCS :=
  (reach_InvP h).cap ⟨500, rfl⟩ (by norm_num [ZINK_DEFAULT_MAX_DESCS]) t

theorem C1_capacity_witness :
    ((runOps ZINK_DEFAULT_MAX_DESCS ndOne
        [Op.get 0 1 keyVF12 false]).pools 0).num_sets_allocated ≤
      ZINK_DEFAULT_MAX_DESCS :=
  C1_capacity _ (reach_runOps _ _ _) 0

/-- C9: in every reachable state, a pool with zero schema slots has an
empty active map and an empty recycle map (no get or recycle path ever
inserts into them), every category with zero schema slots shares one
last-used shortcut, and once that shortcut exists a lookup on the
category returns exactly that placeholder set. -/
theorem C9_null_binding (s : St) (h : Reach ZINK_DEFAULT_MAX_DESCS s) (t : TypeIdx)
    (hnd : (s.pools t).num_descriptors = 0) :
    (s.pools t).desc_sets = [] ∧ (s.pools t).free_desc_sets = [] ∧
    (∀ u, (s.pools u).num_descriptors = 0 → s.last_set u = s.last_set t) ∧
    (∀ ls, s.last_set t = some ls → ∀ hIn k a, ∃ hit,
      (zinkDescriptorSetGet ZINK_DEFAULT_MAX_DESCS s t hIn k a).2 =
        GetRes.ok ls hit) := by
  have hI := reach_InvP h
  obtain ⟨hA, hF, _⟩ := hI.nullMaps t hnd
  refine ⟨hA, hF, fun u hu => hI.nullShare u t hu hnd, ?_⟩
  intro ls hls hIn k a
  have hlt := hI.lastLt t ls hls
  have hpl : (s.pools ((s.sets ls).pool)).num_descriptors = 0 := by
    rcases hI.lastPool t ls hls with ⟨_, h2⟩ | ⟨h1, _⟩
    · exact h2
    · exact absurd hnd h1
  have hh0 : (s.sets ls).hash = 0 := hI.nullHash ls hlt hpl
  have hnd' : ¬ (s.pools t).num_descriptors ≠ 0 := by simpa using hnd
  dsimp only [zinkDescriptorSetGet]
  simp only [hls]
  by_cases hc : ((s.sets ls).hash ==
      (if (s.pools t).num_descriptors ≠ 0 then hIn else 0) &&
      descStateEqual (s.sets ls).key k) = true
  · rw [if_pos hc]
    exact ⟨_, outTail_snd _ _ _ _ _ _ _⟩
  · rw [if_neg hc]
    dsimp only [getMain]
    rw [if_neg hnd']
    simp only [hls]
    rw [if_pos (show ((s.sets ls).hash == 0) = true by rw [hh0]; rfl)]
    exact ⟨true, quickOut_snd _ _ _ _ _⟩

theorem C9_null_binding_witness :
    ((runOps ZINK_DEFAULT_MAX_DESCS ndOne
        [Op.get 1 9 keyVF12 false]).pools 1).desc_sets = [] ∧
    ((runOps ZINK_DEFAULT_MAX_DESCS ndOne
        [Op.get 1 9 keyVF12 false]).pools 1).free_desc_sets = [] :=
  ⟨(C9_null_binding _ (reach_runOps _ _ _) 1 (by decide)).1,
   (C9_null_binding _ (reach_runOps _ _ _) 1 (by decide)).2.1⟩

/-! ## Fingerprint disjointness of the two maps (C2) -/

/-- Both hash-table maps of a pool, as one entry list (active map first). -/
def mapsOf (s : St) (t : TypeIdx) : List Entry :=
  (s.pools t).desc_sets ++ (s.pools t).free_desc_sets

/-- Two entries carry inequivalent derived fingerprints. -/
def keyNe (s : St) (e1 e2 : Entry) : Prop :=
  descStateEqual (s.sets e1.id).key (s.sets e2.id).key = false

theorem descStateEqual_false_symm {a b : DKey} (h : descStateEqual a b = false) :
    descStateEqual b a = false := by
  cases hx : descStateEqual b a
  · rfl
  · rw [descStateEqual_symm hx] at h
    exact Bool.noConfusion h

theorem keyNe_symm (s : St) : Symmetric (keyNe s) := by
  intro e1 e2 h
  exact descStateEqual_false_symm h

/-- Entries with pairwise-inequivalent derived keys have distinct data
pointers (equal ids would make the keys literally equal). -/
theorem ids_nodup_of_pairwise (s : St) (l : List Entry)
    (hp : l.Pairwise (keyNe s)) : (l.map Entry.id).Nodup := by
  rw [show ((l.map Entry.id).Nodup) = (l.map Entry.id).Pairwise (fun a b => a ≠ b)
    from rfl]
  rw [List.pairwise_map]
  refine hp.imp_of_mem ?_
  intro e1 e2 _ _ hne heq
  unfold keyNe at hne
  rw [heq, descStateEqual_refl] at hne
  exact Bool.noConfusion hne

/-- At most one entry of a key-pairwise list is equivalent to any given
fingerprint. -/
theorem class_unique (s : St) (l : List Entry) (hp : l.Pairwise (keyNe s)) (k : DKey)
    {e1 e2 : Entry} (h1 : e1 ∈ l) (h2 : e2 ∈ l)
    (hk1 : descStateEqual k (s.sets e1.id).key = true)
    (hk2 : descStateEqual k (s.sets e2.id).key = true) : e1 = e2 := by
  by_contra hne
  have hr := hp.forall (keyNe_symm s) h1 h2 hne
  unfold keyNe at hr
  rw [descStateEqual_trans (descStateEqual_symm hk1) hk2] at hr
  exact Bool.noConfusion hr

theorem countP_le_one_of_pairwise {α : Type} (p : α → Bool) (R : α → α → Prop) :
    ∀ (l : List α), l.Pairwise R →
      (∀ x y, p x = true → p y = true → R x y → False) → l.countP p ≤ 1 := by
  intro l
  induction l with
  | nil => intro _ _; simp
  | cons a tl ih =>
    intro hl h
    rw [List.countP_cons]
    rcases List.pairwise_cons.mp hl with ⟨ha, htl⟩
    by_cases hpa : p a = true
    · rw [if_pos hpa]
      have h0 : tl.countP p = 0 := by
        rw [List.countP_eq_zero]
        intro b hb hpb
        exact h a b hpa hpb (ha b hb)
      rw [h0]
    · rw [if_neg hpa, Nat.add_zero]
      exact ih htl h

theorem eraseP_no_match {α : Type} (p : α → Bool) :
    ∀ (l : List α), l.countP p ≤ 1 → ∀ x ∈ l.eraseP p, p x = false := by
  intro l
  induction l with
  | nil =>
    intro _ x hx
    rw [List.eraseP_nil] at hx
    exact absurd hx (List.not_mem_nil x)
  | cons a tl ih =>
    intro hc x hx
    by_cases hpa : p a = true
    · rw [List.eraseP_cons_of_pos hpa] at hx
      rw [List.countP_cons, if_pos hpa] at hc
      have h0 : tl.countP p = 0 := Nat.le_zero.mp (Nat.le_of_succ_le_succ hc)
      have := List.countP_eq_zero.mp h0 x hx
      cases hpx : p x
      · rfl
      · exact absurd hpx this
    · rw [List.eraseP_cons_of_neg hpa] at hx
      rcases List.mem_cons.mp hx with rfl | hx'
      · cases hpx : p x
        · rfl
        · exact absurd hpx hpa
      · refine ih ?_ x hx'
        rw [List.countP_cons] at hc
        exact Nat.le_trans (Nat.le_add_right _ _) hc

theorem eraseP_split {α : Type} (p : α → Bool) :
    ∀ (l : List α),
      ((∀ x ∈ l, p x = false) ∧ l.eraseP p = l) ∨
      (∃ l1 x l2, l = l1 ++ x :: l2 ∧ p x = true ∧ (∀ y ∈ l1, p y = false) ∧
        l.eraseP p = l1 ++ l2) := by
  intro l
  induction l with
  | nil => exact Or.inl ⟨fun x hx => absurd hx (List.not_mem_nil x), rfl⟩
  | cons a tl ih =>
    by_cases hpa : p a = true
    · refine Or.inr ⟨[], a, tl, rfl, hpa, fun y hy => absurd hy (List.not_mem_nil y), ?_⟩
      rw [List.eraseP_cons_of_pos hpa]
      rfl
    · have hpa' : p a = false := by
        cases hx : p a
        · rfl
        · exact absurd hx hpa
      rcases ih with ⟨hall, heq⟩ | ⟨l1, x, l2, hl, hpx, hall, heq⟩
      · refine Or.inl ⟨?_, ?_⟩
        · intro y hy
          rcases List.mem_cons.mp hy with rfl | hy'
          · exact hpa'
          · exact hall y hy'
        · rw [List.eraseP_cons_of_neg hpa, heq]
      · refine Or.inr ⟨a :: l1, x, l2, by rw [hl]; rfl, hpx, ?_, ?_⟩
        · intro y hy
          rcases List.mem_cons.mp hy with rfl | hy'
          · exact hpa'
          · exact hall y hy'
        · rw [List.eraseP_cons_of_neg hpa, heq]
          rfl

theorem insertPreHashed_cases (s : St) (h : Nat) (k : DKey) (id : SetId) :
    ∀ (m : List Entry),
      ((∀ e ∈ m, entryMatches s h k e = false) ∧
        insertPreHashed s h k id m = m ++ [⟨h, id⟩]) ∨
      (∃ m1 e0 m2, m = m1 ++ e0 :: m2 ∧ entryMatches s h k e0 = true ∧
        (∀ e ∈ m1, entryMatches s h k e = false) ∧
        insertPreHashed s h k id m = m1 ++ ⟨h, id⟩ :: m2) := by
  intro m
  induction m with
  | nil => exact Or.inl ⟨fun e he => absurd he (List.not_mem_nil e), rfl⟩
  | cons e es ih =>
    by_cases hme : entryMatches s h k e = true
    · refine Or.inr ⟨[], e, es, rfl, hme,
        fun y hy => absurd hy (List.not_mem_nil y), ?_⟩
      simp only [insertPreHashed]
      rw [if_pos hme]
      rfl
    · have hme' : entryMatches s h k e = false := by
        cases hx : entryMatches s h k e
        · rfl
        · exact absurd hx hme
      rcases ih with ⟨hall, heq⟩ | ⟨m1, e0, m2, hm, hm0, hall, heq⟩
      · refine Or.inl ⟨?_, ?_⟩
        · intro x hx
          rcases List.mem_cons.mp hx with rfl | hx'
          · exact hme'
          · exact hall x hx'
        · simp only [insertPreHashed]
          rw [if_neg hme, heq]
          rfl
      · refine Or.inr ⟨e :: m1, e0, m2, by rw [hm]; rfl, hm0, ?_, ?_⟩
        · intro y hy
          rcases List.mem_cons.mp hy with rfl | hy'
          · exact hme'
          · exact hall y hy'
        · simp only [insertPreHashed]
          rw [if_neg hme, heq]
          rfl

theorem insertPreHashed_append (s : St) (h : Nat) (k : DKey) (id : SetId)
    (m : List Entry) (hall : ∀ e ∈ m, entryMatches s h k e = false) :
    insertPreHashed s h k id m = m ++ [⟨h, id⟩] := by
  rcases insertPreHashed_cases s h k id m with ⟨_, heq⟩ | ⟨m1, e0, m2, hm, hm0, _, _⟩
  · exact heq
  · exfalso
    have : e0 ∈ m := by
      rw [hm]
      exact List.mem_append.mpr (Or.inr (List.mem_cons_self _ _))
    rw [hall e0 this] at hm0
    exact Bool.noConfusion hm0

/-- The mesa match predicate against the freshly stamped set: the stamped
set's entries match on stored hash alone, the rest as before. -/
theorem entryMatches_stamped (s : St) (id : SetId) (hv : Nat) (k : DKey)
    (h' : Nat) (k' : DKey) (e : Entry) :
    entryMatches (updSet s id fun z =>
        { z with hash := hv, key := k, recycled := false }) h' k' e =
      if e.id = id then (e.hash == h' && descStateEqual k' k)
      else entryMatches s h' k' e := by
  unfold entryMatches
  rcases eq_or_ne e.id id with hj | hj
  · rw [if_pos hj, hj, updSet_sets_same]
  · rw [if_neg hj]
    simp only [updSet_sets, if_neg hj]

/-- A search miss means no entry of the list even carries an equivalent
fingerprint, provided stored hashes are consistent with `H`. -/
theorem miss_fresh (H : DKey → Nat) (hH : ∀ a b, descStateEqual a b = true → H a = H b)
    (s : St) (h : Nat) (k : DKey) (l : List Entry)
    (hhv : h = H k)
    (hhashE : ∀ e ∈ l, e.hash = H ((s.sets e.id).key))
    (hmiss : ∀ e ∈ l, entryMatches s h k e = false) :
    ∀ e ∈ l, descStateEqual k ((s.sets e.id).key) = false := by
  intro e he
  cases hd : descStateEqual k ((s.sets e.id).key)
  · rfl
  · exfalso
    have hh : e.hash = h := by
      rw [hhashE e he, ← hH k _ hd, hhv]
    have hm : entryMatches s h k e = true := by
      unfold entryMatches
      rw [hd, hh]
      simp
    rw [hmiss e he] at hm
    exact Bool.noConfusion hm

/-- A member equivalent to the probe fingerprint matches the probe,
provided stored hashes are consistent with `H`. -/
theorem class_match (H : DKey → Nat) (hH : ∀ a b, descStateEqual a b = true → H a = H b)
    (s : St) (h : Nat) (k : DKey) (l : List Entry)
    (hhv : h = H k)
    (hhashE : ∀ e ∈ l, e.hash = H ((s.sets e.id).key))
    {e : Entry} (he : e ∈ l)
    (hd : descStateEqual k ((s.sets e.id).key) = true) :
    entryMatches s h k e = true := by
  have hh : e.hash = h := by
    rw [hhashE e he, ← hH k _ hd, hhv]
  unfold entryMatches
  rw [hd, hh]
  simp

/-- The C2 invariant, relative to a context hash function `H`: entries of
the two maps of each pool carry pairwise-inequivalent derived
fingerprints (which makes the maps fingerprint-disjoint); stored entry
hashes are `H` of the derived key and agree with the set's cached hash;
the shell free-list holds no duplicates and no set that is also in a map;
recycle-map members are flagged `recycled` and shell members `invalid`; a
valid (non-invalidated) set of a caching pool is always in one of its
maps, as is the pool's last-used shortcut. -/
structure InvC (H : DKey → Nat) (s : St) : Prop where
  pair : ∀ t, (mapsOf s t).Pairwise (keyNe s)
  hashE : ∀ t, ∀ e ∈ mapsOf s t, e.hash = H ((s.sets e.id).key)
  hashS : ∀ t, ∀ e ∈ mapsOf s t, (s.sets e.id).hash = e.hash
  allocNd : ∀ t, (s.pools t).alloc_desc_sets.Nodup
  allocDisj : ∀ t, ∀ j ∈ (s.pools t).alloc_desc_sets, j ∉ (mapsOf s t).map Entry.id
  freeRec : ∀ t, ∀ e ∈ (s.pools t).free_desc_sets, (s.sets e.id).recycled = true
  allocInv : ∀ t, ∀ j ∈ (s.pools t).alloc_desc_sets, (s.sets j).invalid = true
  validIn : ∀ t, (s.pools t).num_descriptors ≠ 0 → ∀ j, (s.sets j).pool = t →
    (s.sets j).invalid = false → j ∈ (mapsOf s t).map Entry.id
  lastIn : ∀ t ls, (s.pools t).num_descriptors ≠ 0 → s.last_set t = some ls →
    ls ∈ (mapsOf s t).map Entry.id

theorem pair_congr (s s' : St) (l : List Entry)
    (hkey : ∀ e ∈ l, (s'.sets e.id).key = (s.sets e.id).key)
    (hp : l.Pairwise (keyNe s)) : l.Pairwise (keyNe s') := by
  refine hp.imp_of_mem ?_
  intro e1 e2 h1 h2 hne
  unfold keyNe at hne ⊢
  rw [hkey e1 h1, hkey e2 h2]
  exact hne

theorem InvC_init (H : DKey → Nat) (nd : TypeIdx → Nat) : InvC H (initSt nd) := by
  refine ⟨?_, ?_, ?_, ?_, ?_, ?_, ?_, ?_, ?_⟩
  · exact fun t => List.Pairwise.nil
  · exact fun t e he => absurd he (List.not_mem_nil e)
  · exact fun t e he => absurd he (List.not_mem_nil e)
  · exact fun t => List.nodup_nil
  · exact fun t j hj => absurd hj (List.not_mem_nil j)
  · exact fun t e he => absurd he (List.not_mem_nil e)
  · exact fun t j hj => rfl
  · exact fun t _ j _ hinv => Bool.noConfusion hinv
  · exact fun t ls _ h => Option.noConfusion h

/-- Every `ReachC` trace is also a plain reachable trace. -/
theorem ReachC_to_Reach {maxDescs : Nat} {H : DKey → Nat} {s : St}
    (h : ReachC maxDescs H s) : Reach maxDescs s := by
  induction h with
  | init nd => exact Reach.init nd
  | get t k a hr ih => exact Reach.step _ ih
  | recycle id hr hni ih => exact Reach.step _ ih
  | invalidate id hr ih => exact Reach.step _ ih
  | bind id idx res hr ih => exact Reach.step _ ih
  | refsClear res hr ih => exact Reach.step _ ih
  | release id hr ih => exact Reach.step _ ih

/-- `InvC` transport along a state change that keeps the maps, the
shortcuts, every entry-relevant set field, and never clears `invalid`. -/
theorem InvC_of_eq (H : DKey → Nat) {s s' : St} (hI : InvC H s)
    (hpools : s'.pools = s.pools) (hlast : s'.last_set = s.last_set)
    (hkey : ∀ j, (s'.sets j).key = (s.sets j).key)
    (hhash : ∀ j, (s'.sets j).hash = (s.sets j).hash)
    (hrec : ∀ j, (s'.sets j).recycled = (s.sets j).recycled)
    (hpoolj : ∀ j, (s'.sets j).pool = (s.sets j).pool)
    (hinv : ∀ j, (s'.sets j).invalid = false → (s.sets j).invalid = false) :
    InvC H s' := by
  have hmaps : ∀ u, mapsOf s' u = mapsOf s u := by
    intro u
    unfold mapsOf
    rw [hpools]
  have hinv' : ∀ j, (s.sets j).invalid = true → (s'.sets j).invalid = true := by
    intro j h
    cases hx : (s'.sets j).invalid
    · rw [hinv j hx] at h
      exact Bool.noConfusion h
    · rfl
  refine ⟨?_, ?_, ?_, ?_, ?_, ?_, ?_, ?_, ?_⟩
  · intro u
    rw [hmaps u]
    exact pair_congr s s' _ (fun e _ => hkey e.id) (hI.pair u)
  · intro u e he
    rw [hmaps u] at he
    rw [hkey e.id]
    exact hI.hashE u e he
  · intro u e he
    rw [hmaps u] at he
    rw [hhash e.id]
    exact hI.hashS u e he
  · intro u
    rw [hpools]
    exact hI.allocNd u
  · intro u j hj
    rw [hpools] at hj
    rw [hmaps u]
    exact hI.allocDisj u j hj
  · intro u e he
    rw [hpools] at he
    rw [hrec e.id]
    exact hI.freeRec u e he
  · intro u j hj
    rw [hpools] at hj
    exact hinv' j (hI.allocInv u j hj)
  · intro u hnd j hpj hij
    rw [hpools] at hnd
    rw [hpoolj j] at hpj
    rw [hmaps u]
    exact hI.validIn u hnd j hpj (hinv j hij)
  · intro u ls hnd hl
    rw [hpools] at hnd
    rw [hlast] at hl
    rw [hmaps u]
    exact hI.lastIn u ls hnd hl

/-- `quick_out` preserves `InvC`: the set it marks valid is either
already a member of this pool's maps or belongs to an empty-schema
pool. -/
theorem InvC_quickOut (H : DKey → Nat) (s : St) (t : TypeIdx) (id : SetId)
    (a hit : Bool) (hI : InvC H s)
    (hOwnL : ∀ u, ∀ j ∈ (s.pools u).alloc_desc_sets, (s.sets j).pool = u)
    (hnullM : ∀ u, (s.pools u).num_descriptors = 0 →
      (s.pools u).alloc_desc_sets = [])
    (hcase : (id ∈ (mapsOf s t).map Entry.id ∧ (s.sets id).pool = t) ∨
      ((s.pools t).num_descriptors = 0 ∧
        (s.pools ((s.sets id).pool)).num_descriptors = 0)) :
    InvC H (quickOut s t id a hit).1 := by
  have hmaps : ∀ u, mapsOf (quickOut s t id a hit).1 u = mapsOf s u := by
    intro u
    unfold mapsOf
    rw [quickOut_fst_pools]
  have hkey : ∀ j, ((quickOut s t id a hit).1.sets j).key = (s.sets j).key := by
    intro j
    rcases eq_or_ne j id with hj | hj
    · subst hj; rw [quickOut_fst_sets_same]
    · rw [quickOut_fst_sets_ne s t id a hit j hj]
  have hhash : ∀ j, ((quickOut s t id a hit).1.sets j).hash = (s.sets j).hash := by
    intro j
    rcases eq_or_ne j id with hj | hj
    · subst hj; rw [quickOut_fst_sets_same]
    · rw [quickOut_fst_sets_ne s t id a hit j hj]
  have hrec : ∀ j, ((quickOut s t id a hit).1.sets j).recycled = (s.sets j).recycled := by
    intro j
    rcases eq_or_ne j id with hj | hj
    · subst hj; rw [quickOut_fst_sets_same]
    · rw [quickOut_fst_sets_ne s t id a hit j hj]
  have hpoolj : ∀ j, ((quickOut s t id a hit).1.sets j).pool = (s.sets j).pool := by
    intro j
    rcases eq_or_ne j id with hj | hj
    · subst hj; rw [quickOut_fst_sets_same]
    · rw [quickOut_fst_sets_ne s t id a hit j hj]
  have hpools : (quickOut s t id a hit).1.pools = s.pools := quickOut_fst_pools s t id a hit
  refine ⟨?_, ?_, ?_, ?_, ?_, ?_, ?_, ?_, ?_⟩
  · intro u
    rw [hmaps u]
    exact pair_congr s _ _ (fun e _ => hkey e.id) (hI.pair u)
  · intro u e he
    rw [hmaps u] at he
    rw [hkey e.id]
    exact hI.hashE u e he
  · intro u e he
    rw [hmaps u] at he
    rw [hhash e.id]
    exact hI.hashS u e he
  · intro u
    rw [hpools]
    exact hI.allocNd u
  · intro u j hj
    rw [hpools] at hj
    rw [hmaps u]
    exact hI.allocDisj u j hj
  · intro u e he
    rw [hpools] at he
    rw [hrec e.id]
    exact hI.freeRec u e he
  · intro u j hj
    rw [hpools] at hj
    rcases eq_or_ne j id with hj' | hj'
    · subst hj'
      exfalso
      rcases hcase with ⟨hmem, hpool⟩ | ⟨hnd0, hndp⟩
      · have hu : u = t := by rw [← hpool]; exact (hOwnL u j hj).symm
        subst hu
        exact hI.allocDisj u j hj hmem
      · have hu : u = (s.sets j).pool := (hOwnL u j hj).symm
        subst hu
        rw [hnullM _ hndp] at hj
        exact absurd hj (List.not_mem_nil j)
    · rw [quickOut_fst_sets_ne s t id a hit j hj']
      exact hI.allocInv u j hj
  · intro u hnd j hpj hij
    rw [hpools] at hnd
    rw [hmaps u]
    rcases eq_or_ne j id with hj' | hj'
    · subst hj'
      rw [hpoolj j] at hpj
      rcases hcase with ⟨hmem, hpool⟩ | ⟨hnd0, hndp⟩
      · rw [hpool] at hpj
        rw [← hpj]
        exact hmem
      · rw [hpj] at hndp
        exact absurd hndp hnd
    · rw [quickOut_fst_sets_ne s t id a hit j hj'] at hpj hij
      exact hI.validIn u hnd j hpj hij
  · intro u ls hnd hl
    rw [hpools] at hnd
    rw [hmaps u]
    rw [quickOut_fst_last_set] at hl
    rcases eq_or_ne u t with hu | hu
    · rw [if_pos hu] at hl
      cases hl
      subst hu
      rcases hcase with ⟨hmem, _⟩ | ⟨hnd0, _⟩
      · exact hmem
      · exact absurd hnd0 hnd
    · rw [if_neg hu] at hl
      exact hI.lastIn u ls hnd hl

/-- `InvC` transport for operations on an empty-schema pool: maps and
shell lists are untouched everywhere, caching-pool shortcuts are kept,
and only sets outside every map and shell list change. -/
theorem InvC_null_transport (H : DKey → Nat) {s s' : St} (hI : InvC H s)
    (hpools : ∀ u, (s'.pools u).desc_sets = (s.pools u).desc_sets ∧
      (s'.pools u).free_desc_sets = (s.pools u).free_desc_sets ∧
      (s'.pools u).alloc_desc_sets = (s.pools u).alloc_desc_sets ∧
      (s'.pools u).num_descriptors = (s.pools u).num_descriptors)
    (hlastC : ∀ u, (s.pools u).num_descriptors ≠ 0 → s'.last_set u = s.last_set u)
    (hmemE : ∀ u, ∀ e ∈ mapsOf s u, s'.sets e.id = s.sets e.id)
    (hmemL : ∀ u, ∀ j ∈ (s.pools u).alloc_desc_sets, s'.sets j = s.sets j)
    (hvalid : ∀ u, (s.pools u).num_descriptors ≠ 0 → ∀ j, (s'.sets j).pool = u →
      (s'.sets j).invalid = false →
      (s.sets j).pool = u ∧ (s.sets j).invalid = false) :
    InvC H s' := by
  have hmaps : ∀ u, mapsOf s' u = mapsOf s u := by
    intro u
    unfold mapsOf
    rw [(hpools u).1, (hpools u).2.1]
  refine ⟨?_, ?_, ?_, ?_, ?_, ?_, ?_, ?_, ?_⟩
  · intro u
    rw [hmaps u]
    refine pair_congr s s' _ ?_ (hI.pair u)
    intro e he
    rw [hmemE u e he]
  · intro u e he
    rw [hmaps u] at he
    rw [hmemE u e he]
    exact hI.hashE u e he
  · intro u e he
    rw [hmaps u] at he
    rw [hmemE u e he]
    exact hI.hashS u e he
  · intro u
    rw [(hpools u).2.2.1]
    exact hI.allocNd u
  · intro u j hj
    rw [(hpools u).2.2.1] at hj
    rw [hmaps u]
    exact hI.allocDisj u j hj
  · intro u e he
    rw [(hpools u).2.1] at he
    have he' : e ∈ mapsOf s u := List.mem_append.mpr (Or.inr he)
    rw [hmemE u e he']
    exact hI.freeRec u e he
  · intro u j hj
    rw [(hpools u).2.2.1] at hj
    rw [hmemL u j hj]
    exact hI.allocInv u j hj
  · intro u hnd j hpj hij
    rw [(hpools u).2.2.2] at hnd
    obtain ⟨hp0, hi0⟩ := hvalid u hnd j hpj hij
    rw [hmaps u]
    exact hI.validIn u hnd j hp0 hi0
  · intro u ls hnd hl
    rw [(hpools u).2.2.2] at hnd
    rw [hlastC u hnd] at hl
    rw [hmaps u]
    exact hI.lastIn u ls hnd hl

theorem ids_ne_of_middle (l1 : List Entry) (x : Entry) (l2 : List Entry)
    (h : ((l1 ++ x :: l2).map Entry.id).Nodup) :
    ∀ e, (e ∈ l1 ∨ e ∈ l2) → e.id ≠ x.id := by
  have hperm : ((l1 ++ x :: l2).map Entry.id).Perm ((x :: (l1 ++ l2)).map Entry.id) :=
    List.Perm.map Entry.id List.perm_middle
  have h2 : ((x :: (l1 ++ l2)).map Entry.id).Nodup := (List.Perm.nodup_iff hperm).mp h
  intro e he heq
  have hmm : e.id ∈ (l1 ++ l2).map Entry.id :=
    List.mem_map.mpr ⟨e, List.mem_append.mpr he, rfl⟩
  rw [heq] at hmm
  exact (List.nodup_cons.mp h2).1 hmm

/-! ### Projections of the caching `out:` tail -/

theorem outTail_pools_t_nd (s : St) (t : TypeIdx) (hv : Nat) (k : DKey) (id : SetId)
    (a hit : Bool) (hnd : (s.pools t).num_descriptors ≠ 0) :
    (outTail s t hv k id a hit).1.pools t =
      { s.pools t with desc_sets :=
          (insertPreHashed
            (updSet s id fun z => { z with hash := hv, key := k, recycled := false })
            hv k id (s.pools t).desc_sets) } := by
  dsimp only [outTail]
  rw [if_pos (show ((updSet s id fun z =>
    { z with hash := hv, key := k, recycled := false }).pools t).num_descriptors ≠ 0
    from hnd)]
  rw [quickOut_fst_pools, updPool_pools, if_pos rfl]
  rfl

theorem outTail_pools_ne (s : St) (t : TypeIdx) (hv : Nat) (k : DKey) (id : SetId)
    (a hit : Bool) (u : TypeIdx) (hu : u ≠ t) :
    (outTail s t hv k id a hit).1.pools u = s.pools u := by
  dsimp only [outTail]
  split
  · rw [quickOut_fst_pools, updPool_pools, if_neg hu]
    rfl
  · rw [quickOut_fst_pools]
    rfl

theorem outTail_last_nd (s : St) (t : TypeIdx) (hv : Nat) (k : DKey) (id : SetId)
    (a hit : Bool) (hnd : (s.pools t).num_descriptors ≠ 0) (u : TypeIdx) :
    (outTail s t hv k id a hit).1.last_set u =
      if u = t then some id else s.last_set u := by
  dsimp only [outTail]
  rw [if_pos (show ((updSet s id fun z =>
    { z with hash := hv, key := k, recycled := false }).pools t).num_descriptors ≠ 0
    from hnd)]
  rw [quickOut_fst_last_set]
  split <;> rfl

theorem outTail_sets_ne (s : St) (t : TypeIdx) (hv : Nat) (k : DKey) (id : SetId)
    (a hit : Bool) (j : SetId) (hj : j ≠ id) :
    (outTail s t hv k id a hit).1.sets j = s.sets j := by
  dsimp only [outTail]
  split <;>
  · rw [quickOut_fst_sets_ne _ _ _ _ _ j hj]
    simp only [updPool_sets, updSet_sets, if_neg hj]

/-- The caching-pool `out:` tail preserves `InvC`, given the freshness
facts each call site establishes: `hv` is the context hash of the
stamped key `k`; no other map entry of this pool carries a fingerprint
equivalent to `k`; the returned set is (no longer) in the recycle map or
on the shell list; a stale active entry of the set itself matches the
probe hash. -/
theorem InvC_outTail (H : DKey → Nat) (s : St) (t : TypeIdx) (hv : Nat) (k : DKey)
    (id : SetId) (a hit : Bool)
    (pair : ∀ u, (mapsOf s u).Pairwise (keyNe s))
    (hashE : ∀ u, ∀ e ∈ mapsOf s u, e.hash = H ((s.sets e.id).key))
    (hashS : ∀ u, ∀ e ∈ mapsOf s u, (s.sets e.id).hash = e.hash)
    (allocNd : ∀ u, (s.pools u).alloc_desc_sets.Nodup)
    (allocDisj : ∀ u, ∀ j ∈ (s.pools u).alloc_desc_sets, j ∉ (mapsOf s u).map Entry.id)
    (freeRec : ∀ u, ∀ e ∈ (s.pools u).free_desc_sets, (s.sets e.id).recycled = true)
    (allocInv : ∀ u, ∀ j ∈ (s.pools u).alloc_desc_sets, (s.sets j).invalid = true)
    (validIn : ∀ u, (s.pools u).num_descriptors ≠ 0 → ∀ j, (s.sets j).pool = u →
      (s.sets j).invalid = false → (u = t ∧ j = id) ∨ j ∈ (mapsOf s u).map Entry.id)
    (lastIn : ∀ u ls, (s.pools u).num_descriptors ≠ 0 → s.last_set u = some ls →
      (u = t ∧ ls = id) ∨ ls ∈ (mapsOf s u).map Entry.id)
    (own : ∀ u, ∀ e ∈ mapsOf s u, (s.sets e.id).pool = u)
    (ownL : ∀ u, ∀ j ∈ (s.pools u).alloc_desc_sets, (s.sets j).pool = u)
    (hpool : (s.sets id).pool = t)
    (hnd : (s.pools t).num_descriptors ≠ 0)
    (hhv : hv = H k)
    (freshA : ∀ e ∈ (s.pools t).desc_sets, e.id ≠ id →
      descStateEqual k ((s.sets e.id).key) = false)
    (freshF : ∀ e ∈ (s.pools t).free_desc_sets, e.id ≠ id →
      descStateEqual k ((s.sets e.id).key) = false)
    (selfF : ∀ e ∈ (s.pools t).free_desc_sets, e.id ≠ id)
    (selfL : id ∉ (s.pools t).alloc_desc_sets)
    (matchA : ∀ e ∈ (s.pools t).desc_sets, e.id = id → e.hash = hv) :
    InvC H (outTail s t hv k id a hit).1 := by
  have hpairA : (s.pools t).desc_sets.Pairwise (keyNe s) :=
    (List.pairwise_append.mp (pair t)).1
  have hq_ne : ∀ e ∈ (s.pools t).desc_sets, e.id ≠ id →
      entryMatches (updSet s id fun z =>
        { z with hash := hv, key := k, recycled := false }) hv k e = false := by
    intro e he hne
    rw [entryMatches_stamped, if_neg hne]
    unfold entryMatches
    rw [freshA e he hne]
    simp
  have hq_id : ∀ e ∈ (s.pools t).desc_sets, e.id = id →
      entryMatches (updSet s id fun z =>
        { z with hash := hv, key := k, recycled := false }) hv k e = true := by
    intro e he hei
    rw [entryMatches_stamped, if_pos hei]
    rw [matchA e he hei, descStateEqual_refl]
    simp
  obtain ⟨m1, m2, hA', hsub, hmem12, hback⟩ :
      ∃ m1 m2,
        insertPreHashed (updSet s id fun z =>
          { z with hash := hv, key := k, recycled := false }) hv k id
          (s.pools t).desc_sets = m1 ++ (⟨hv, id⟩ : Entry) :: m2 ∧
        (m1 ++ m2).Sublist (s.pools t).desc_sets ∧
        (∀ e, e ∈ m1 ∨ e ∈ m2 → e ∈ (s.pools t).desc_sets ∧ e.id ≠ id) ∧
        (∀ e ∈ (s.pools t).desc_sets, e.id ≠ id → (e ∈ m1 ∨ e ∈ m2)) := by
    rcases insertPreHashed_cases _ hv k id (s.pools t).desc_sets with
      ⟨hall, heq⟩ | ⟨m1, e0, m2, hm, hm0, hall1, heq⟩
    · have hAid : ∀ e ∈ (s.pools t).desc_sets, e.id ≠ id := by
        intro e he hei
        have h1 := hall e he
        rw [hq_id e he hei] at h1
        exact Bool.noConfusion h1
      refine ⟨(s.pools t).desc_sets, [], ?_, ?_, ?_, ?_⟩
      · rw [heq]
      · rw [List.append_nil]
      · intro e he
        rcases he with he | he
        · exact ⟨he, hAid e he⟩
        · exact absurd he (List.not_mem_nil e)
      · intro e he _
        exact Or.inl he
    · have he0A : e0 ∈ (s.pools t).desc_sets := by
        rw [hm]
        exact List.mem_append.mpr (Or.inr (List.mem_cons_self _ _))
      have he0id : e0.id = id := by
        by_contra hne
        rw [hq_ne e0 he0A hne] at hm0
        exact Bool.noConfusion hm0
      have hidsA : (((s.pools t).desc_sets).map Entry.id).Nodup :=
        ids_nodup_of_pairwise s _ hpairA
      have hne12 : ∀ e, e ∈ m1 ∨ e ∈ m2 → e.id ≠ e0.id := by
        rw [hm] at hidsA
        exact ids_ne_of_middle m1 e0 m2 hidsA
      refine ⟨m1, m2, heq, ?_, ?_, ?_⟩
      · rw [hm]
        exact List.Sublist.append_left (List.sublist_cons_self e0 m2) m1
      · intro e he
        refine ⟨?_, ?_⟩
        · rw [hm]
          rcases he with he | he
          · exact List.mem_append.mpr (Or.inl he)
          · exact List.mem_append.mpr (Or.inr (List.mem_cons_of_mem _ he))
        · rw [← he0id]
          exact hne12 e he
      · intro e he hne
        rw [hm] at he
        rcases List.mem_append.mp he with h1 | h2
        · exact Or.inl h1
        · rcases List.mem_cons.mp h2 with rfl | h2'
          · exact absurd he0id hne
          · exact Or.inr h2'
  have heqAt : ((outTail s t hv k id a hit).1.pools t).desc_sets =
      m1 ++ (⟨hv, id⟩ : Entry) :: m2 := by
    rw [outTail_pools_t_nd s t hv k id a hit hnd]
    exact hA'
  have heqFt : ((outTail s t hv k id a hit).1.pools t).free_desc_sets =
      (s.pools t).free_desc_sets := by
    rw [outTail_pools_t_nd s t hv k id a hit hnd]
  have heqLt : ((outTail s t hv k id a hit).1.pools t).alloc_desc_sets =
      (s.pools t).alloc_desc_sets := by
    rw [outTail_pools_t_nd s t hv k id a hit hnd]
  have heqNt : ((outTail s t hv k id a hit).1.pools t).num_descriptors =
      (s.pools t).num_descriptors := by
    rw [outTail_pools_t_nd s t hv k id a hit hnd]
  have hmapsT : mapsOf (outTail s t hv k id a hit).1 t =
      (m1 ++ (⟨hv, id⟩ : Entry) :: m2) ++ (s.pools t).free_desc_sets := by
    unfold mapsOf
    rw [heqAt, heqFt]
  have hmapsNe : ∀ u, u ≠ t →
      mapsOf (outTail s t hv k id a hit).1 u = mapsOf s u := by
    intro u hu
    unfold mapsOf
    rw [outTail_pools_ne s t hv k id a hit u hu]
  have hsetsNe : ∀ j, j ≠ id → (outTail s t hv k id a hit).1.sets j = s.sets j :=
    fun j hj => outTail_sets_ne s t hv k id a hit j hj
  obtain ⟨rc, hsetsId⟩ := outTail_fst_sets_same s t hv k id a hit
  have hkeyId : ((outTail s t hv k id a hit).1.sets id).key = k := by rw [hsetsId]
  have hhashId : ((outTail s t hv k id a hit).1.sets id).hash = hv := by rw [hsetsId]
  have hinvId : ((outTail s t hv k id a hit).1.sets id).invalid = false := by
    rw [hsetsId]
  have hpoolId : ((outTail s t hv k id a hit).1.sets id).pool = t := by
    rw [hsetsId]
    exact hpool
  have hrest : ∀ e, e ∈ (m1 ++ m2) ++ (s.pools t).free_desc_sets →
      e ∈ mapsOf s t ∧ e.id ≠ id := by
    intro e he
    rcases List.mem_append.mp he with h12 | hF
    · rcases List.mem_append.mp h12 with h1 | h2
      · obtain ⟨hin, hne⟩ := hmem12 e (Or.inl h1)
        exact ⟨List.mem_append.mpr (Or.inl hin), hne⟩
      · obtain ⟨hin, hne⟩ := hmem12 e (Or.inr h2)
        exact ⟨List.mem_append.mpr (Or.inl hin), hne⟩
    · exact ⟨List.mem_append.mpr (Or.inr hF), selfF e hF⟩
  have hmemT : ∀ e, e ∈ (m1 ++ (⟨hv, id⟩ : Entry) :: m2) ++ (s.pools t).free_desc_sets →
      e = (⟨hv, id⟩ : Entry) ∨ (e ∈ mapsOf s t ∧ e.id ≠ id) := by
    intro e he
    rcases List.mem_append.mp he with hA | hF
    · rcases List.mem_append.mp hA with h1 | h2
      · obtain ⟨hin, hne⟩ := hmem12 e (Or.inl h1)
        exact Or.inr ⟨List.mem_append.mpr (Or.inl hin), hne⟩
      · rcases List.mem_cons.mp h2 with rfl | h2'
        · exact Or.inl rfl
        · obtain ⟨hin, hne⟩ := hmem12 e (Or.inr h2')
          exact Or.inr ⟨List.mem_append.mpr (Or.inl hin), hne⟩
    · exact Or.inr ⟨List.mem_append.mpr (Or.inr hF), selfF e hF⟩
  have hfreshRest : ∀ e, e ∈ mapsOf s t → e.id ≠ id →
      descStateEqual k ((s.sets e.id).key) = false := by
    intro e he hne
    rcases List.mem_append.mp he with h1 | h2
    · exact freshA e h1 hne
    · exact freshF e h2 hne
  have hnewMem : (⟨hv, id⟩ : Entry) ∈
      (m1 ++ (⟨hv, id⟩ : Entry) :: m2) ++ (s.pools t).free_desc_sets :=
    List.mem_append.mpr (Or.inl (List.mem_append.mpr (Or.inr (List.mem_cons_self _ _))))
  have hidMem : id ∈ (mapsOf (outTail s t hv k id a hit).1 t).map Entry.id := by
    rw [hmapsT]
    exact List.mem_map.mpr ⟨⟨hv, id⟩, hnewMem, rfl⟩
  have hownNe : ∀ u, u ≠ t → ∀ e ∈ mapsOf s u, e.id ≠ id := by
    intro u hu e he hei
    have := own u e he
    rw [hei, hpool] at this
    exact hu this.symm
  have hperm : ((m1 ++ (⟨hv, id⟩ : Entry) :: m2) ++ (s.pools t).free_desc_sets).Perm
      ((⟨hv, id⟩ : Entry) :: ((m1 ++ m2) ++ (s.pools t).free_desc_sets)) := by
    rw [List.append_assoc, List.cons_append, List.append_assoc]
    exact List.perm_middle
  refine ⟨?_, ?_, ?_, ?_, ?_, ?_, ?_, ?_, ?_⟩
  · intro u
    rcases eq_or_ne u t with rfl | hu
    · rw [hmapsT]
      refine (List.Perm.pairwise_iff (fun hxy => keyNe_symm _ hxy) hperm).mpr ?_
      rw [List.pairwise_cons]
      constructor
      · intro e he
        obtain ⟨hin, hne⟩ := hrest e he
        show descStateEqual (((outTail s u hv k id a hit).1.sets id).key)
          (((outTail s u hv k id a hit).1.sets e.id).key) = false
        rw [hkeyId, hsetsNe e.id hne]
        exact hfreshRest e hin hne
      · have hpw : ((m1 ++ m2) ++ (s.pools u).free_desc_sets).Pairwise (keyNe s) :=
          List.Pairwise.sublist (hsub.append_right _) (pair u)
        refine pair_congr s _ _ ?_ hpw
        intro e he
        rw [hsetsNe e.id (hrest e he).2]
    · rw [hmapsNe u hu]
      refine pair_congr s _ _ ?_ (pair u)
      intro e he
      rw [hsetsNe e.id (hownNe u hu e he)]
  · intro u e he
    rcases eq_or_ne u t with rfl | hu
    · rw [hmapsT] at he
      rcases hmemT e he with rfl | ⟨hin, hne⟩
      · show hv = H (((outTail s u hv k id a hit).1.sets id).key)
        rw [hkeyId, hhv]
      · rw [hsetsNe e.id hne]
        exact hashE u e hin
    · rw [hmapsNe u hu] at he
      rw [hsetsNe e.id (hownNe u hu e he)]
      exact hashE u e he
  · intro u e he
    rcases eq_or_ne u t with rfl | hu
    · rw [hmapsT] at he
      rcases hmemT e he with rfl | ⟨hin, hne⟩
      · show ((outTail s u hv k id a hit).1.sets id).hash = hv
        exact hhashId
      · rw [hsetsNe e.id hne]
        exact hashS u e hin
    · rw [hmapsNe u hu] at he
      rw [hsetsNe e.id (hownNe u hu e he)]
      exact hashS u e he
  · intro u
    rcases eq_or_ne u t with rfl | hu
    · rw [heqLt]
      exact allocNd u
    · rw [outTail_pools_ne s t hv k id a hit u hu]
      exact allocNd u
  · intro u j hj hmem
    rcases eq_or_ne u t with rfl | hu
    · rw [heqLt] at hj
      rw [hmapsT] at hmem
      obtain ⟨e, hein, heid⟩ := List.mem_map.mp hmem
      rcases hmemT e hein with rfl | ⟨hin, hne⟩
      · exact selfL (by rw [← heid] at hj; exact hj)
      · exact allocDisj u j hj (List.mem_map.mpr ⟨e, hin, heid⟩)
    · rw [outTail_pools_ne s t hv k id a hit u hu] at hj
      rw [hmapsNe u hu] at hmem
      exact allocDisj u j hj hmem
  · intro u e he
    rcases eq_or_ne u t with rfl | hu
    · rw [heqFt] at he
      have hne : e.id ≠ id := selfF e he
      rw [hsetsNe e.id hne]
      exact freeRec u e he
    · rw [outTail_pools_ne s t hv k id a hit u hu] at he
      have hne : e.id ≠ id :=
        hownNe u hu e (List.mem_append.mpr (Or.inr he))
      rw [hsetsNe e.id hne]
      exact freeRec u e he
  · intro u j hj
    have hju : j ≠ id := by
      intro hji
      rcases eq_or_ne u t with rfl | hu
      · rw [heqLt] at hj
        rw [hji] at hj
        exact selfL hj
      · rw [outTail_pools_ne s t hv k id a hit u hu] at hj
        have hpu := ownL u j hj
        rw [hji, hpool] at hpu
        exact hu hpu.symm
    rcases eq_or_ne u t with rfl | hu
    · rw [heqLt] at hj
      rw [hsetsNe j hju]
      exact allocInv u j hj
    · rw [outTail_pools_ne s t hv k id a hit u hu] at hj
      rw [hsetsNe j hju]
      exact allocInv u j hj
  · intro u hndu j hpj hij
    rcases eq_or_ne j id with hji | hj
    · rw [hji] at hpj ⊢
      rw [hpoolId] at hpj
      rw [← hpj]
      exact hidMem
    · rw [hsetsNe j hj] at hpj hij
      rcases eq_or_ne u t with rfl | hu
      · rw [heqNt] at hndu
        rcases validIn u hndu j hpj hij with ⟨_, hji⟩ | hin
        · exact absurd hji hj
        · obtain ⟨e, hein, heid⟩ := List.mem_map.mp hin
          have hne : e.id ≠ id := by rw [heid]; exact hj
          rw [hmapsT]
          rcases List.mem_append.mp hein with h1 | h2
          · rcases hback e h1 hne with hm1 | hm2
            · exact List.mem_map.mpr ⟨e,
                List.mem_append.mpr (Or.inl (List.mem_append.mpr (Or.inl hm1))), heid⟩
            · exact List.mem_map.mpr ⟨e,
                List.mem_append.mpr (Or.inl (List.mem_append.mpr
                  (Or.inr (List.mem_cons_of_mem _ hm2)))), heid⟩
          · exact List.mem_map.mpr ⟨e, List.mem_append.mpr (Or.inr h2), heid⟩
      · rw [outTail_pools_ne s t hv k id a hit u hu] at hndu
        rcases validIn u hndu j hpj hij with ⟨hut, _⟩ | hin
        · exact absurd hut hu
        · rw [hmapsNe u hu]
          exact hin
  · intro u ls hndu hl
    rcases eq_or_ne u t with rfl | hu
    · rw [outTail_last_nd s u hv k id a hit hnd u] at hl
      rw [if_pos rfl] at hl
      cases hl
      exact hidMem
    · rw [outTail_last_nd s t hv k id a hit hnd u, if_neg hu] at hl
      rw [outTail_pools_ne s t hv k id a hit u hu] at hndu
      rcases lastIn u ls hndu hl with ⟨hut, _⟩ | hin
      · exact absurd hut hu
      · rw [hmapsNe u hu]
        obtain ⟨e, hein, heid⟩ := List.mem_map.mp hin
        exact List.mem_map.mpr ⟨e, hein, heid⟩

/-! ### Context bundles used to instantiate the `out:` tail lemma -/

/-- The `InvC` fields of an intermediate state of the lookup, where the
set `id` about to be returned may already have been unlinked from the
maps (the `validIn`/`lastIn` clauses allow `id` as an exception). -/
structure CtxC (H : DKey → Nat) (s : St) (t : TypeIdx) (id : SetId) : Prop where
  pair : ∀ u, (mapsOf s u).Pairwise (keyNe s)
  hashE : ∀ u, ∀ e ∈ mapsOf s u, e.hash = H ((s.sets e.id).key)
  hashS : ∀ u, ∀ e ∈ mapsOf s u, (s.sets e.id).hash = e.hash
  allocNd : ∀ u, (s.pools u).alloc_desc_sets.Nodup
  allocDisj : ∀ u, ∀ j ∈ (s.pools u).alloc_desc_sets, j ∉ (mapsOf s u).map Entry.id
  freeRec : ∀ u, ∀ e ∈ (s.pools u).free_desc_sets, (s.sets e.id).recycled = true
  allocInv : ∀ u, ∀ j ∈ (s.pools u).alloc_desc_sets, (s.sets j).invalid = true
  validIn : ∀ u, (s.pools u).num_descriptors ≠ 0 → ∀ j, (s.sets j).pool = u →
    (s.sets j).invalid = false → (u = t ∧ j = id) ∨ j ∈ (mapsOf s u).map Entry.id
  lastIn : ∀ u ls, (s.pools u).num_descriptors ≠ 0 → s.last_set u = some ls →
    (u = t ∧ ls = id) ∨ ls ∈ (mapsOf s u).map Entry.id
  own : ∀ u, ∀ e ∈ mapsOf s u, (s.sets e.id).pool = u
  ownL : ∀ u, ∀ j ∈ (s.pools u).alloc_desc_sets, (s.sets j).pool = u

theorem InvC_outTail_ctx (H : DKey → Nat) (s : St) (t : TypeIdx) (hv : Nat) (k : DKey)
    (id : SetId) (a hit : Bool) (hc : CtxC H s t id)
    (hpool : (s.sets id).pool = t)
    (hnd : (s.pools t).num_descriptors ≠ 0)
    (hhv : hv = H k)
    (freshA : ∀ e ∈ (s.pools t).desc_sets, e.id ≠ id →
      descStateEqual k ((s.sets e.id).key) = false)
    (freshF : ∀ e ∈ (s.pools t).free_desc_sets, e.id ≠ id →
      descStateEqual k ((s.sets e.id).key) = false)
    (selfF : ∀ e ∈ (s.pools t).free_desc_sets, e.id ≠ id)
    (selfL : id ∉ (s.pools t).alloc_desc_sets)
    (matchA : ∀ e ∈ (s.pools t).desc_sets, e.id = id → e.hash = hv) :
    InvC H (outTail s t hv k id a hit).1 :=
  InvC_outTail H s t hv k id a hit hc.pair hc.hashE hc.hashS hc.allocNd hc.allocDisj
    hc.freeRec hc.allocInv hc.validIn hc.lastIn hc.own hc.ownL hpool hnd hhv
    freshA freshF selfF selfL matchA

theorem InvP_own {maxDescs : Nat} {s : St} (hP : InvP maxDescs s) :
    ∀ u, ∀ e ∈ mapsOf s u, (s.sets e.id).pool = u := by
  intro u e he
  rcases List.mem_append.mp he with h | h
  · exact (hP.memActive u e h).1
  · exact (hP.memFree u e h).1

theorem InvP_ownL {maxDescs : Nat} {s : St} (hP : InvP maxDescs s) :
    ∀ u, ∀ j ∈ (s.pools u).alloc_desc_sets, (s.sets j).pool = u :=
  fun u j hj => (hP.memAlloc u j hj).1

theorem InvP_bndE {maxDescs : Nat} {s : St} (hP : InvP maxDescs s) :
    ∀ u, ∀ e ∈ mapsOf s u, e.id < s.nextId := by
  intro u e he
  rcases List.mem_append.mp he with h | h
  · exact (hP.memActive u e h).2
  · exact (hP.memFree u e h).2

theorem InvP_bndL {maxDescs : Nat} {s : St} (hP : InvP maxDescs s) :
    ∀ u, ∀ j ∈ (s.pools u).alloc_desc_sets, j < s.nextId :=
  fun u j hj => (hP.memAlloc u j hj).2

/-- Any `InvC` state is a context for any exception set. -/
theorem CtxC_of_InvC (H : DKey → Nat) (s : St) (t : TypeIdx) (id : SetId)
    (hI : InvC H s)
    (own : ∀ u, ∀ e ∈ mapsOf s u, (s.sets e.id).pool = u)
    (ownL : ∀ u, ∀ j ∈ (s.pools u).alloc_desc_sets, (s.sets j).pool = u) :
    CtxC H s t id :=
  ⟨hI.pair, hI.hashE, hI.hashS, hI.allocNd, hI.allocDisj, hI.freeRec, hI.allocInv,
   fun u hnd j hpj hij => Or.inr (hI.validIn u hnd j hpj hij),
   fun u ls hnd hl => Or.inr (hI.lastIn u ls hnd hl), own, ownL⟩

theorem mem_eraseP_of_neg {α : Type} (p : α → Bool) (l : List α) (x : α)
    (hx : x ∈ l) (hpx : p x = false) : x ∈ l.eraseP p := by
  rcases eraseP_split p l with ⟨_, heq⟩ | ⟨l1, y, l2, hl, hpy, _, heq⟩
  · rw [heq]
    exact hx
  · rw [heq]
    rw [hl] at hx
    rcases List.mem_append.mp hx with h1 | h2
    · exact List.mem_append.mpr (Or.inl h1)
    · rcases List.mem_cons.mp h2 with rfl | h2'
      · rw [hpx] at hpy
        exact Bool.noConfusion hpy
      · exact List.mem_append.mpr (Or.inr h2')

theorem ids_disjoint_of_pairwise (s : St) (hp : ∀ u, (mapsOf s u).Pairwise (keyNe s))
    (u : TypeIdx) :
    ∀ e ∈ (s.pools u).desc_sets, ∀ f ∈ (s.pools u).free_desc_sets, e.id ≠ f.id := by
  intro e he f hf
  have hnd := ids_nodup_of_pairwise s _ (hp u)
  unfold mapsOf at hnd
  rw [List.map_append] at hnd
  have hdisj := List.disjoint_of_nodup_append hnd
  intro heq
  exact hdisj (List.mem_map.mpr ⟨e, he, rfl⟩) (heq ▸ List.mem_map.mpr ⟨f, hf, rfl⟩)

/-- Replacing the recycle map by a sublist that keeps every entry whose
set is not the exception yields a context for that exception. -/
theorem CtxC_newFree (H : DKey → Nat) (s : St) (t : TypeIdx) (exc : SetId)
    (F1 : List Entry) (hI : InvC H s)
    (own : ∀ u, ∀ e ∈ mapsOf s u, (s.sets e.id).pool = u)
    (ownL : ∀ u, ∀ j ∈ (s.pools u).alloc_desc_sets, (s.sets j).pool = u)
    (hsub : F1.Sublist (s.pools t).free_desc_sets)
    (hkeep : ∀ x ∈ (s.pools t).free_desc_sets, x.id ≠ exc → x ∈ F1)
    (hpoolExc : (s.sets exc).pool = t) :
    CtxC H (updPool s t fun pl => { pl with free_desc_sets := F1 }) t exc := by
  set s1 := updPool s t fun pl => { pl with free_desc_sets := F1 } with hs1
  have hsets : s1.sets = s.sets := rfl
  have hlast : s1.last_set = s.last_set := rfl
  have hAu : ∀ u, (s1.pools u).desc_sets = (s.pools u).desc_sets := by
    intro u
    rw [hs1, updPool_pools]
    rcases eq_or_ne u t with rfl | hu
    · rw [if_pos rfl]
    · rw [if_neg hu]
  have hFu : ∀ u, (s1.pools u).free_desc_sets =
      if u = t then F1 else (s.pools u).free_desc_sets := by
    intro u
    rw [hs1, updPool_pools]
    rcases eq_or_ne u t with rfl | hu
    · rw [if_pos rfl, if_pos rfl]
    · rw [if_neg hu, if_neg hu]
  have hLu : ∀ u, (s1.pools u).alloc_desc_sets = (s.pools u).alloc_desc_sets := by
    intro u
    rw [hs1, updPool_pools]
    rcases eq_or_ne u t with rfl | hu
    · rw [if_pos rfl]
    · rw [if_neg hu]
  have hNu : ∀ u, (s1.pools u).num_descriptors = (s.pools u).num_descriptors := by
    intro u
    rw [hs1, updPool_pools]
    rcases eq_or_ne u t with rfl | hu
    · rw [if_pos rfl]
    · rw [if_neg hu]
  have hmapsSub : ∀ u, (mapsOf s1 u).Sublist (mapsOf s u) := by
    intro u
    unfold mapsOf
    rw [hAu, hFu]
    rcases eq_or_ne u t with rfl | hu
    · rw [if_pos rfl]
      exact List.Sublist.append_left hsub _
    · rw [if_neg hu]
  have hmapsMem : ∀ u, ∀ e ∈ mapsOf s1 u, e ∈ mapsOf s u :=
    fun u e he => List.Sublist.mem he (hmapsSub u)
  refine ⟨?_, ?_, ?_, ?_, ?_, ?_, ?_, ?_, ?_, ?_, ?_⟩
  · intro u
    have := List.Pairwise.sublist (hmapsSub u) (hI.pair u)
    exact this
  · intro u e he
    exact hI.hashE u e (hmapsMem u e he)
  · intro u e he
    exact hI.hashS u e (hmapsMem u e he)
  · intro u
    rw [hLu]
    exact hI.allocNd u
  · intro u j hj hmem
    rw [hLu] at hj
    refine hI.allocDisj u j hj ?_
    obtain ⟨e, hein, heid⟩ := List.mem_map.mp hmem
    exact List.mem_map.mpr ⟨e, hmapsMem u e hein, heid⟩
  · intro u e he
    rw [hFu] at he
    rcases eq_or_ne u t with rfl | hu
    · rw [if_pos rfl] at he
      exact hI.freeRec u e (List.Sublist.mem he hsub)
    · rw [if_neg hu] at he
      exact hI.freeRec u e he
  · intro u j hj
    rw [hLu] at hj
    exact hI.allocInv u j hj
  · intro u hnd j hpj hij
    rw [hNu] at hnd
    rw [hsets] at hpj hij
    rcases eq_or_ne j exc with rfl | hje
    · refine Or.inl ⟨?_, rfl⟩
      rw [← hpoolExc]
      exact hpj.symm
    · refine Or.inr ?_
      have hin := hI.validIn u hnd j hpj hij
      obtain ⟨e, hein, heid⟩ := List.mem_map.mp hin
      unfold mapsOf
      rw [hAu, hFu]
      rcases List.mem_append.mp hein with h1 | h2
      · exact List.mem_map.mpr ⟨e, List.mem_append.mpr (Or.inl h1), heid⟩
      · rcases eq_or_ne u t with rfl | hu
        · rw [if_pos rfl]
          have : e ∈ F1 := hkeep e h2 (by rw [heid]; exact hje)
          exact List.mem_map.mpr ⟨e, List.mem_append.mpr (Or.inr this), heid⟩
        · rw [if_neg hu]
          exact List.mem_map.mpr ⟨e, List.mem_append.mpr (Or.inr h2), heid⟩
  · intro u ls hnd hl
    rw [hNu] at hnd
    rw [hlast] at hl
    rcases eq_or_ne ls exc with rfl | hle
    · refine Or.inl ⟨?_, rfl⟩
      have hin := hI.lastIn u ls hnd hl
      obtain ⟨e, hein, heid⟩ := List.mem_map.mp hin
      have hpe := own u e hein
      rw [heid, hpoolExc] at hpe
      exact hpe.symm
    · refine Or.inr ?_
      have hin := hI.lastIn u ls hnd hl
      obtain ⟨e, hein, heid⟩ := List.mem_map.mp hin
      unfold mapsOf
      rw [hAu, hFu]
      rcases List.mem_append.mp hein with h1 | h2
      · exact List.mem_map.mpr ⟨e, List.mem_append.mpr (Or.inl h1), heid⟩
      · rcases eq_or_ne u t with rfl | hu
        · rw [if_pos rfl]
          have : e ∈ F1 := hkeep e h2 (by rw [heid]; exact hle)
          exact List.mem_map.mpr ⟨e, List.mem_append.mpr (Or.inr this), heid⟩
        · rw [if_neg hu]
          exact List.mem_map.mpr ⟨e, List.mem_append.mpr (Or.inr h2), heid⟩
  · intro u e he
    exact own u e (hmapsMem u e he)
  · intro u j hj
    rw [hLu] at hj
    exact ownL u j hj

theorem fresh_of_member (s : St) (t : TypeIdx) (k : DKey)
    (hpair : (mapsOf s t).Pairwise (keyNe s))
    {eL : Entry} (heL : eL ∈ mapsOf s t)
    (hkL : descStateEqual k ((s.sets eL.id).key) = true) :
    ∀ e ∈ mapsOf s t, e.id ≠ eL.id → descStateEqual k ((s.sets e.id).key) = false := by
  intro e he hne
  cases hx : descStateEqual k ((s.sets e.id).key)
  · rfl
  · exfalso
    have hee : e ≠ eL := fun h => hne (congrArg Entry.id h)
    have hr := hpair.forall (keyNe_symm s) he heL hee
    unfold keyNe at hr
    rw [descStateEqual_trans (descStateEqual_symm hx) hkL] at hr
    exact Bool.noConfusion hr

/-- Replacing the shell free-list by a sublist yields a context (the maps
and flags are untouched). -/
theorem CtxC_newAlloc (H : DKey → Nat) (s : St) (t : TypeIdx) (exc : SetId)
    (L1 : List SetId) (hI : InvC H s)
    (own : ∀ u, ∀ e ∈ mapsOf s u, (s.sets e.id).pool = u)
    (ownL : ∀ u, ∀ j ∈ (s.pools u).alloc_desc_sets, (s.sets j).pool = u)
    (hsub : L1.Sublist (s.pools t).alloc_desc_sets) :
    CtxC H (updPool s t fun pl => { pl with alloc_desc_sets := L1 }) t exc := by
  set s1 := updPool s t fun pl => { pl with alloc_desc_sets := L1 } with hs1
  have hsets : s1.sets = s.sets := rfl
  have hlast : s1.last_set = s.last_set := rfl
  have hmaps : ∀ u, mapsOf s1 u = mapsOf s u := by
    intro u
    unfold mapsOf
    rw [hs1, updPool_pools]
    rcases eq_or_ne u t with rfl | hu
    · rw [if_pos rfl]
    · rw [if_neg hu]
  have hLu : ∀ u, (s1.pools u).alloc_desc_sets =
      if u = t then L1 else (s.pools u).alloc_desc_sets := by
    intro u
    rw [hs1, updPool_pools]
    rcases eq_or_ne u t with rfl | hu
    · rw [if_pos rfl, if_pos rfl]
    · rw [if_neg hu, if_neg hu]
  have hNu : ∀ u, (s1.pools u).num_descriptors = (s.pools u).num_descriptors := by
    intro u
    rw [hs1, updPool_pools]
    rcases eq_or_ne u t with rfl | hu
    · rw [if_pos rfl]
    · rw [if_neg hu]
  have hLmem : ∀ u, ∀ j ∈ (s1.pools u).alloc_desc_sets,
      j ∈ (s.pools u).alloc_desc_sets := by
    intro u j hj
    rw [hLu] at hj
    rcases eq_or_ne u t with rfl | hu
    · rw [if_pos rfl] at hj
      exact List.Sublist.mem hj hsub
    · rw [if_neg hu] at hj
      exact hj
  refine ⟨?_, ?_, ?_, ?_, ?_, ?_, ?_, ?_, ?_, ?_, ?_⟩
  · intro u
    rw [hmaps u]
    exact hI.pair u
  · intro u e he
    rw [hmaps u] at he
    exact hI.hashE u e he
  · intro u e he
    rw [hmaps u] at he
    exact hI.hashS u e he
  · intro u
    rw [hLu]
    rcases eq_or_ne u t with rfl | hu
    · rw [if_pos rfl]
      exact List.Nodup.sublist hsub (hI.allocNd u)
    · rw [if_neg hu]
      exact hI.allocNd u
  · intro u j hj hmem
    rw [hmaps u] at hmem
    exact hI.allocDisj u j (hLmem u j hj) hmem
  · intro u e he
    have he' : e ∈ (s.pools u).free_desc_sets := by
      have : (s1.pools u).free_desc_sets = (s.pools u).free_desc_sets := by
        rw [hs1, updPool_pools]
        rcases eq_or_ne u t with rfl | hu
        · rw [if_pos rfl]
        · rw [if_neg hu]
      rw [this] at he
      exact he
    exact hI.freeRec u e he'
  · intro u j hj
    exact hI.allocInv u j (hLmem u j hj)
  · intro u hnd j hpj hij
    rw [hNu] at hnd
    rw [hmaps u]
    exact Or.inr (hI.validIn u hnd j hpj hij)
  · intro u ls hnd hl
    rw [hNu] at hnd
    rw [hmaps u]
    exact Or.inr (hI.lastIn u ls hnd hl)
  · intro u e he
    rw [hmaps u] at he
    exact own u e he
  · intro u j hj
    exact ownL u j (hLmem u j hj)

/-- Batched allocation on a caching pool yields a context: the fresh sets
are invalid, beyond every map and shell member, and the new shell ids are
distinct. -/
theorem CtxC_alloc (H : DKey → Nat) (s : St) (t : TypeIdx) (exc : SetId)
    (hI : InvC H s)
    (own : ∀ u, ∀ e ∈ mapsOf s u, (s.sets e.id).pool = u)
    (ownL : ∀ u, ∀ j ∈ (s.pools u).alloc_desc_sets, (s.sets j).pool = u)
    (hbndE : ∀ u, ∀ e ∈ mapsOf s u, e.id < s.nextId)
    (hbndL : ∀ u, ∀ j ∈ (s.pools u).alloc_desc_sets, j < s.nextId) :
    CtxC H (allocateDescSet s t 1).1 t exc := by
  have hmaps : ∀ u, mapsOf (allocateDescSet s t 1).1 u = mapsOf s u := by
    intro u
    unfold mapsOf
    rw [allocA_active, allocA_free]
  have hsetsE : ∀ u, ∀ e ∈ mapsOf s u,
      (allocateDescSet s t 1).1.sets e.id = s.sets e.id :=
    fun u e he => allocA_sets_old s t 1 e.id (hbndE u e he)
  refine ⟨?_, ?_, ?_, ?_, ?_, ?_, ?_, ?_, ?_, ?_, ?_⟩
  · intro u
    rw [hmaps u]
    exact pair_congr s _ _ (fun e he => by rw [hsetsE u e he]) (hI.pair u)
  · intro u e he
    rw [hmaps u] at he
    rw [hsetsE u e he]
    exact hI.hashE u e he
  · intro u e he
    rw [hmaps u] at he
    rw [hsetsE u e he]
    exact hI.hashS u e he
  · intro u
    rw [allocA_alloc]
    rcases eq_or_ne u t with rfl | hu
    · rw [if_pos rfl]
      rw [List.nodup_append]
      refine ⟨hI.allocNd u, ?_, ?_⟩
      · refine List.Nodup.map ?_ (List.nodup_range _)
        intro a b hab
        have hab' : s.nextId + 1 + a = s.nextId + 1 + b := hab
        omega
      · intro j hj hj'
        obtain ⟨m, _, hmj⟩ := List.mem_map.mp hj'
        have hmj' : s.nextId + 1 + m = j := hmj
        have hb := hbndL u j hj
        have hge : s.nextId ≤ j := by
          rw [← hmj']
          exact Nat.le_trans (Nat.le_add_right _ _) (Nat.le_add_right _ _)
        exact absurd hb (Nat.not_lt.mpr hge)
    · rw [if_neg hu, List.append_nil]
      exact hI.allocNd u
  · intro u j hj hmem
    rw [allocA_alloc] at hj
    rw [hmaps u] at hmem
    rcases List.mem_append.mp hj with hj' | hj'
    · exact hI.allocDisj u j hj' hmem
    · rcases eq_or_ne u t with rfl | hu
      · rw [if_pos rfl] at hj'
        obtain ⟨m, _, hmj⟩ := List.mem_map.mp hj'
        have hmj' : s.nextId + 1 + m = j := hmj
        obtain ⟨e, hein, heid⟩ := List.mem_map.mp hmem
        have h1 := hbndE u e hein
        rw [heid] at h1
        have hge : s.nextId ≤ j := by
          rw [← hmj']
          exact Nat.le_trans (Nat.le_add_right _ _) (Nat.le_add_right _ _)
        exact absurd h1 (Nat.not_lt.mpr hge)
      · rw [if_neg hu] at hj'
        exact absurd hj' (List.not_mem_nil j)
  · intro u e he
    have he' : e ∈ (s.pools u).free_desc_sets := by
      rw [allocA_free] at he
      exact he
    have hem : e ∈ mapsOf s u := List.mem_append.mpr (Or.inr he')
    rw [hsetsE u e hem]
    exact hI.freeRec u e he'
  · intro u j hj
    rw [allocA_alloc] at hj
    rcases List.mem_append.mp hj with hj' | hj'
    · rw [allocA_sets_old s t 1 j (hbndL u j hj')]
      exact hI.allocInv u j hj'
    · rcases eq_or_ne u t with rfl | hu
      · rw [if_pos rfl] at hj'
        obtain ⟨m, hm, hmj⟩ := List.mem_map.mp hj'
        have hmj' : s.nextId + 1 + m = j := hmj
        subst hmj'
        have hmr := List.mem_range.mp hm
        have hlo : s.nextId ≤ s.nextId + 1 + m :=
          Nat.le_trans (Nat.le_add_right _ _) (Nat.le_add_right _ _)
        have hhi : s.nextId + 1 + m <
            s.nextId + allocBucketSize (s.pools u).num_descriptors 1 := by
          generalize hg : allocBucketSize (s.pools u).num_descriptors 1 = B at hmr ⊢
          omega
        rw [allocA_sets_new s u 1 _ hlo hhi]
        rfl
      · rw [if_neg hu] at hj'
        exact absurd hj' (List.not_mem_nil j)
  · intro u hnd j hpj hij
    rw [allocateDescSet_pools_nd] at hnd
    rw [hmaps u]
    by_cases hjlo : j < s.nextId
    · rw [allocA_sets_old s t 1 j hjlo] at hpj hij
      exact Or.inr (hI.validIn u hnd j hpj hij)
    · by_cases hjhi : j < s.nextId + allocBucketSize (s.pools t).num_descriptors 1
      · rw [allocA_sets_new s t 1 j (Nat.le_of_not_lt hjlo) hjhi] at hij
        exact absurd hij (by rw [show (mkFreshZDS t).invalid = true from rfl]; simp)
      · rw [allocA_sets_hi s t 1 j (Nat.le_of_not_lt hjhi)] at hpj hij
        exact Or.inr (hI.validIn u hnd j hpj hij)
  · intro u ls hnd hl
    rw [allocateDescSet_pools_nd] at hnd
    rw [allocateDescSet_fst_last_set] at hl
    rw [hmaps u]
    exact Or.inr (hI.lastIn u ls hnd hl)
  · intro u e he
    rw [hmaps u] at he
    rw [hsetsE u e he]
    exact own u e he
  · intro u j hj
    rw [allocA_alloc] at hj
    rcases List.mem_append.mp hj with hj' | hj'
    · rw [allocA_sets_old s t 1 j (hbndL u j hj')]
      exact ownL u j hj'
    · rcases eq_or_ne u t with rfl | hu
      · rw [if_pos rfl] at hj'
        obtain ⟨m, hm, hmj⟩ := List.mem_map.mp hj'
        have hmj' : s.nextId + 1 + m = j := hmj
        subst hmj'
        have hmr := List.mem_range.mp hm
        have hlo : s.nextId ≤ s.nextId + 1 + m :=
          Nat.le_trans (Nat.le_add_right _ _) (Nat.le_add_right _ _)
        have hhi : s.nextId + 1 + m <
            s.nextId + allocBucketSize (s.pools u).num_descriptors 1 := by
          generalize hg : allocBucketSize (s.pools u).num_descriptors 1 = B at hmr ⊢
          omega
        rw [allocA_sets_new s u 1 _ hlo hhi]
        rfl
      · rw [if_neg hu] at hj'
        exact absurd hj' (List.not_mem_nil j)

theorem updPool_eq_of_app (s : St) (t : TypeIdx) (f g : Pool → Pool)
    (h : f (s.pools t) = g (s.pools t)) : updPool s t f = updPool s t g := by
  unfold updPool
  rw [h]

theorem findP_none_false {α : Type} (p : α → Bool) (l : List α)
    (h : l.find? p = none) : ∀ x ∈ l, p x = false := by
  intro x hx
  have h1 := List.find?_eq_none.mp h x hx
  cases hpx : p x
  · rfl
  · exact absurd hpx h1

/-- Freshness of all other map members given that a known member id is in
the probe fingerprint's equivalence class. -/
theorem fresh_of_id (s : St) (t : TypeIdx) (k : DKey)
    (hpair : (mapsOf s t).Pairwise (keyNe s))
    (i : SetId) (hiIn : i ∈ (mapsOf s t).map Entry.id)
    (hki : descStateEqual k ((s.sets i).key) = true) :
    ∀ e ∈ mapsOf s t, e.id ≠ i → descStateEqual k ((s.sets e.id).key) = false := by
  obtain ⟨eL, heL, hid⟩ := List.mem_map.mp hiIn
  intro e he hne
  refine fresh_of_member s t k hpair heL ?_ e he ?_
  · rw [hid]
    exact hki
  · rw [hid]
    exact hne

/-- After erasing the probe's match from the recycle map, no remaining
entry is the probed set: the maps hold at most one entry per fingerprint
class. -/
theorem eraseP_selfF (H : DKey → Nat) (hH : ∀ a b, descStateEqual a b = true → H a = H b)
    (s : St) (t : TypeIdx) (hv : Nat) (k : DKey) (i : SetId)
    (hI : InvC H s) (hvH : hv = H k)
    (hki : descStateEqual k ((s.sets i).key) = true) :
    ∀ x ∈ List.eraseP (entryMatches s hv k) (s.pools t).free_desc_sets, x.id ≠ i := by
  have hpairF : (s.pools t).free_desc_sets.Pairwise (keyNe s) :=
    (List.pairwise_append.mp (hI.pair t)).2.1
  have hcnt : (s.pools t).free_desc_sets.countP (entryMatches s hv k) ≤ 1 := by
    refine countP_le_one_of_pairwise _ (keyNe s) _ hpairF ?_
    intro x y hpx hpy hne
    have hpx' : (x.hash == hv && descStateEqual k ((s.sets x.id).key)) = true := hpx
    have hpy' : (y.hash == hv && descStateEqual k ((s.sets y.id).key)) = true := hpy
    rw [Bool.and_eq_true] at hpx' hpy'
    have hdx := hpx'.2
    have hdy := hpy'.2
    unfold keyNe at hne
    rw [descStateEqual_trans (descStateEqual_symm hdx) hdy] at hne
    exact Bool.noConfusion hne
  intro x hx heq
  have hpfalse := eraseP_no_match _ _ hcnt x hx
  have hxmem : x ∈ (s.pools t).free_desc_sets := List.mem_of_mem_eraseP hx
  have hdx : descStateEqual k ((s.sets x.id).key) = true := by
    rw [heq]
    exact hki
  have hhx : x.hash = hv := by
    rw [hI.hashE t x (List.mem_append.mpr (Or.inr hxmem)), heq, hvH]
    exact (hH k _ hki).symm
  have hm : entryMatches s hv k x = true := by
    show (x.hash == hv && descStateEqual k ((s.sets x.id).key)) = true
    rw [hhx, hdx, beq_self_eq_true]
    rfl
  rw [hpfalse] at hm
  exact Bool.noConfusion hm

/-- A stale active entry of a set in the probe's class carries the probe
hash (the stored hash is `H` of the derived key). -/
theorem matchA_of_key (H : DKey → Nat) (hH : ∀ a b, descStateEqual a b = true → H a = H b)
    (s : St) (t : TypeIdx) (hv : Nat) (k : DKey) (i : SetId)
    (hI : InvC H s) (hvH : hv = H k)
    (hki : descStateEqual k ((s.sets i).key) = true) :
    ∀ x ∈ (s.pools t).desc_sets, x.id = i → x.hash = hv := by
  intro x hx heq
  rw [hI.hashE t x (List.mem_append.mpr (Or.inl hx)), heq, hvH]
  exact (hH k _ hki).symm

/-- The empty-schema branch of the `out:` tail preserves `InvC` when the
surfaced set belongs to an empty-schema pool and is outside every map and
shell list. -/
theorem InvC_outTail_null (H : DKey → Nat) (s : St) (t : TypeIdx) (hv : Nat) (k : DKey)
    (id : SetId) (a hit : Bool) (hI : InvC H s)
    (hnd0 : (s.pools t).num_descriptors = 0)
    (hndp : (s.pools ((s.sets id).pool)).num_descriptors = 0)
    (hnotin : ∀ u, ∀ e ∈ mapsOf s u, e.id ≠ id)
    (hnotalloc : ∀ u, id ∉ (s.pools u).alloc_desc_sets)
    (ownL : ∀ u, ∀ j ∈ (s.pools u).alloc_desc_sets, (s.sets j).pool = u)
    (hnullM : ∀ u, (s.pools u).num_descriptors = 0 →
      (s.pools u).alloc_desc_sets = []) :
    InvC H (outTail s t hv k id a hit).1 := by
  dsimp only [outTail]
  rw [if_neg (show ¬ ((updSet s id fun z =>
      { z with hash := hv, key := k, recycled := false }).pools t).num_descriptors ≠ 0
    from fun hc => hc hnd0)]
  set s1 : St := updSet s id fun z =>
    { z with hash := hv, key := k, recycled := false } with hs1
  have hpoolEq : ∀ j, (s1.sets j).pool = (s.sets j).pool := by
    intro j
    rcases eq_or_ne j id with rfl | hj
    · rw [hs1, updSet_sets_same]
    · rw [hs1, updSet_sets, if_neg hj]
  have hinvEq : ∀ j, (s1.sets j).invalid = (s.sets j).invalid := by
    intro j
    rcases eq_or_ne j id with rfl | hj
    · rw [hs1, updSet_sets_same]
    · rw [hs1, updSet_sets, if_neg hj]
  have hsetsNe : ∀ j, j ≠ id → s1.sets j = s.sets j := by
    intro j hj
    rw [hs1, updSet_sets, if_neg hj]
  refine InvC_quickOut H _ t id a hit ?_ ?_ ?_ ?_
  · refine InvC_null_transport H hI ?_ ?_ ?_ ?_ ?_
    · exact fun u => ⟨rfl, rfl, rfl, rfl⟩
    · intro u hu
      show (if (s1.pools u).num_descriptors = 0 then some id else s1.last_set u) =
        s.last_set u
      rw [if_neg (show ¬ (s1.pools u).num_descriptors = 0 from hu)]
      rfl
    · intro u e he
      exact hsetsNe e.id (hnotin u e he)
    · intro u j hj
      refine hsetsNe j ?_
      intro heq
      rw [heq] at hj
      exact hnotalloc u hj
    · intro u hu j hpj hij
      refine ⟨?_, ?_⟩
      · rw [← hpoolEq j]
        exact hpj
      · rw [← hinvEq j]
        exact hij
  · intro u j hj
    show (s1.sets j).pool = u
    rw [hpoolEq j]
    exact ownL u j hj
  · exact fun u hu => hnullM u hu
  · refine Or.inr ⟨hnd0, ?_⟩
    show (s.pools ((s1.sets id).pool)).num_descriptors = 0
    rw [hpoolEq id]
    exact hndp

/-- The body of `zink_descriptor_set_get` after the shortcut test
preserves `InvC`. -/
theorem InvC_getMain (maxDescs : Nat) (H : DKey → Nat)
    (hH : ∀ a b, descStateEqual a b = true → H a = H b)
    (s : St) (t : TypeIdx) (hv : Nat) (k : DKey) (a : Bool)
    (hP : InvP maxDescs s) (hI : InvC H s)
    (hhvH : (s.pools t).num_descriptors ≠ 0 → hv = H k)
    (hv0 : (s.pools t).num_descriptors = 0 → hv = 0) :
    InvC H (getMain maxDescs s t hv k a).1 := by
  have hnullM : ∀ u, (s.pools u).num_descriptors = 0 →
      (s.pools u).alloc_desc_sets = [] := fun u hu => (hP.nullMaps u hu).2.2
  dsimp only [getMain]
  by_cases hnd : (s.pools t).num_descriptors ≠ 0
  · rw [if_pos hnd]
    have hvH : hv = H k := hhvH hnd
    rcases hA : searchPreHashed s (s.pools t).desc_sets hv k with _ | he
    · have hA' : List.find? (entryMatches s hv k) (s.pools t).desc_sets = none := hA
      have hmissA := findP_none_false _ _ hA'
      have hfreshA : ∀ e ∈ (s.pools t).desc_sets,
          descStateEqual k ((s.sets e.id).key) = false :=
        miss_fresh H hH s hv k _ hvH
          (fun e he => hI.hashE t e (List.mem_append.mpr (Or.inl he))) hmissA
      rcases hF : searchPreHashed s (s.pools t).free_desc_sets hv k with _ | he
      · have hF' : List.find? (entryMatches s hv k) (s.pools t).free_desc_sets = none := hF
        have hmissF := findP_none_false _ _ hF'
        have hfreshF : ∀ e ∈ (s.pools t).free_desc_sets,
            descStateEqual k ((s.sets e.id).key) = false :=
          miss_fresh H hH s hv k _ hvH
            (fun e he => hI.hashE t e (List.mem_append.mpr (Or.inr he))) hmissF
        rcases hL : (s.pools t).alloc_desc_sets.getLast? with _ | id
        · rcases hS : scanFree s 0 (s.pools t).free_desc_sets with _ | e
          · simp only [hA, hF, hL, hS]
            by_cases hcap :
                (s.pools t).num_sets_allocated + (s.pools t).num_descriptors > maxDescs
            · rw [if_pos hcap]
              exact hI
            · rw [if_neg hcap]
              rw [allocateDescSet_snd]
              have hb10 : allocBucketSize (s.pools t).num_descriptors 1 = 10 := by
                rw [allocBucketSize_one, if_neg hnd]
              have hctx := CtxC_alloc H s t s.nextId hI (InvP_own hP) (InvP_ownL hP)
                (InvP_bndE hP) (InvP_bndL hP)
              refine InvC_outTail_ctx H _ t hv k s.nextId a false hctx ?_ ?_ ?_ ?_ ?_ ?_ ?_ ?_
              · rw [allocA_sets_new s t 1 s.nextId (Nat.le_refl _)
                  (by rw [hb10]; exact Nat.lt_add_of_pos_right (by norm_num))]
                rfl
              · rw [allocateDescSet_pools_nd]
                exact hnd
              · exact hvH
              · rw [allocA_active]
                intro x hx hne
                rw [allocA_sets_old s t 1 x.id
                  (InvP_bndE hP t x (List.mem_append.mpr (Or.inl hx)))]
                exact hfreshA x hx
              · rw [allocA_free]
                intro x hx hne
                rw [allocA_sets_old s t 1 x.id
                  (InvP_bndE hP t x (List.mem_append.mpr (Or.inr hx)))]
                exact hfreshF x hx
              · rw [allocA_free]
                intro x hx
                exact Nat.ne_of_lt (InvP_bndE hP t x (List.mem_append.mpr (Or.inr hx)))
              · rw [allocA_alloc, if_pos rfl]
                intro hmem
                rcases List.mem_append.mp hmem with h1 | h2
                · exact absurd (InvP_bndL hP t _ h1) (Nat.lt_irrefl _)
                · obtain ⟨m, _, hmj⟩ := List.mem_map.mp h2
                  have hmj' : s.nextId + 1 + m = s.nextId := hmj
                  exact absurd hmj'
                    (Nat.ne_of_gt (Nat.lt_of_lt_of_le (Nat.lt_succ_self _)
                      (Nat.le_add_right _ _)))
              · rw [allocA_active]
                intro x hx heq
                exact absurd heq
                  (Nat.ne_of_lt (InvP_bndE hP t x (List.mem_append.mpr (Or.inl hx))))
          · simp only [hA, hF, hL, hS]
            have hmemF : e ∈ (s.pools t).free_desc_sets := scanFree_mem s _ e 0 hS
            have hmemM : e ∈ mapsOf s t := List.mem_append.mpr (Or.inr hmemF)
            have hpoolE : (s.sets e.id).pool = t := InvP_own hP t e hmemM
            have hfields : ∀ j,
                (((updSet s e.id fun z => { z with invalid := true }).sets j).key =
                  (s.sets j).key) ∧
                (((updSet s e.id fun z => { z with invalid := true }).sets j).hash =
                  (s.sets j).hash) ∧
                (((updSet s e.id fun z => { z with invalid := true }).sets j).recycled =
                  (s.sets j).recycled) ∧
                (((updSet s e.id fun z => { z with invalid := true }).sets j).pool =
                  (s.sets j).pool) := by
              intro j
              rcases eq_or_ne j e.id with rfl | hj
              · rw [updSet_sets_same]
                exact ⟨rfl, rfl, rfl, rfl⟩
              · rw [updSet_sets, if_neg hj]
                exact ⟨rfl, rfl, rfl, rfl⟩
            have hI1 : InvC H (updSet s e.id fun z => { z with invalid := true }) := by
              refine InvC_of_eq H hI rfl rfl (fun j => (hfields j).1)
                (fun j => (hfields j).2.1) (fun j => (hfields j).2.2.1)
                (fun j => (hfields j).2.2.2) ?_
              intro j hj
              rcases eq_or_ne j e.id with rfl | hne
              · rw [updSet_sets_same] at hj
                exact absurd hj (by simp)
              · rw [updSet_sets, if_neg hne] at hj
                exact hj
            have hstate : updPool (updSet s e.id fun z => { z with invalid := true }) t
                (fun p => { p with free_desc_sets := p.free_desc_sets.erase e }) =
                updPool (updSet s e.id fun z => { z with invalid := true }) t
                (fun pl => { pl with free_desc_sets :=
                  ((s.pools t).free_desc_sets.erase e) }) :=
              updPool_eq_of_app _ t _ _ rfl
            rw [hstate]
            have hown1 : ∀ u, ∀ x ∈ mapsOf (updSet s e.id fun z =>
                { z with invalid := true }) u,
                (((updSet s e.id fun z => { z with invalid := true }).sets x.id).pool = u) := by
              intro u x hx
              rw [(hfields x.id).2.2.2]
              exact InvP_own hP u x hx
            have hownL1 : ∀ u, ∀ j ∈ ((updSet s e.id fun z =>
                { z with invalid := true }).pools u).alloc_desc_sets,
                (((updSet s e.id fun z => { z with invalid := true }).sets j).pool = u) := by
              intro u j hj
              rw [(hfields j).2.2.2]
              exact InvP_ownL hP u j hj
            have hndFid : (((s.pools t).free_desc_sets).map Entry.id).Nodup :=
              ids_nodup_of_pairwise s _ ((List.pairwise_append.mp (hI.pair t)).2.1)
            have hndF : ((s.pools t).free_desc_sets).Nodup :=
              List.Nodup.of_map Entry.id hndFid
            have hctx : CtxC H (updPool (updSet s e.id fun z =>
                { z with invalid := true }) t
                (fun pl => { pl with free_desc_sets :=
                  ((s.pools t).free_desc_sets.erase e) })) t e.id := by
              refine CtxC_newFree H _ t e.id _ hI1 hown1 hownL1
                (List.erase_sublist e (s.pools t).free_desc_sets) ?_ ?_
              · intro x hx hne
                have hxe : x ≠ e := fun h => hne (congrArg Entry.id h)
                exact (List.mem_erase_of_ne hxe).mpr hx
              · rw [(hfields e.id).2.2.2]
                exact hpoolE
            refine InvC_outTail_ctx H _ t hv k e.id a false hctx ?_ ?_ ?_ ?_ ?_ ?_ ?_ ?_
            · show ((updSet s e.id fun z => { z with invalid := true }).sets e.id).pool = t
              rw [(hfields e.id).2.2.2]
              exact hpoolE
            · rw [updPool_pools, if_pos rfl]
              exact hnd
            · exact hvH
            · rw [updPool_pools, if_pos rfl, updPool_sets]
              intro x hx hne
              rw [(hfields x.id).1]
              exact hfreshA x hx
            · rw [updPool_pools, if_pos rfl, updPool_sets]
              intro x hx hne
              rw [(hfields x.id).1]
              exact hfreshF x (List.mem_of_mem_erase hx)
            · rw [updPool_pools, if_pos rfl]
              intro x hx heq
              rcases eq_or_ne x e with rfl | hxe
              · exact absurd rfl ((List.Nodup.mem_erase_iff hndF).mp hx).1
              · exact hxe (List.inj_on_of_nodup_map hndFid
                  (List.mem_of_mem_erase hx) hmemF heq)
            · rw [updPool_pools, if_pos rfl]
              intro hmem
              exact hI.allocDisj t e.id hmem (List.mem_map.mpr ⟨e, hmemM, rfl⟩)
            · rw [updPool_pools, if_pos rfl]
              intro x hx heq
              exact absurd heq (ids_disjoint_of_pairwise s hI.pair t x hx e hmemF)
        · simp only [hA, hF, hL]
          have hmemL : id ∈ (s.pools t).alloc_desc_sets := mem_of_getLast?_eq hL
          have hpoolId : (s.sets id).pool = t := InvP_ownL hP t id hmemL
          have hstate : updPool s t
              (fun p => { p with alloc_desc_sets := p.alloc_desc_sets.dropLast }) =
              updPool s t (fun pl => { pl with alloc_desc_sets :=
                ((s.pools t).alloc_desc_sets.dropLast) }) :=
            updPool_eq_of_app s t _ _ rfl
          rw [hstate]
          have hctx := CtxC_newAlloc H s t id _ hI (InvP_own hP) (InvP_ownL hP)
            (List.dropLast_sublist _)
          refine InvC_outTail_ctx H _ t hv k id a false hctx ?_ ?_ ?_ ?_ ?_ ?_ ?_ ?_
          · exact hpoolId
          · rw [updPool_pools, if_pos rfl]
            exact hnd
          · exact hvH
          · rw [updPool_pools, if_pos rfl, updPool_sets]
            intro x hx hne
            exact hfreshA x hx
          · rw [updPool_pools, if_pos rfl, updPool_sets]
            intro x hx hne
            exact hfreshF x hx
          · rw [updPool_pools, if_pos rfl]
            intro x hx heq
            exact hI.allocDisj t id hmemL
              (List.mem_map.mpr ⟨x, List.mem_append.mpr (Or.inr hx), heq⟩)
          · rw [updPool_pools, if_pos rfl]
            show id ∉ (s.pools t).alloc_desc_sets.dropLast
            have hne0 : (s.pools t).alloc_desc_sets ≠ [] := by
              intro h0
              rw [h0] at hL
              exact Option.noConfusion hL
            have hsplit := List.dropLast_append_getLast hne0
            have hgl : (s.pools t).alloc_desc_sets.getLast hne0 = id := by
              have h2 := List.getLast?_eq_getLast (s.pools t).alloc_desc_sets hne0
              rw [hL] at h2
              exact (Option.some.inj h2).symm
            have hnd2 := hI.allocNd t
            rw [← hsplit] at hnd2
            intro hmem
            have hdisj := List.disjoint_of_nodup_append hnd2
            refine hdisj hmem ?_
            rw [hgl]
            exact List.mem_singleton_self id
          · rw [updPool_pools, if_pos rfl]
            intro x hx heq
            exact absurd (List.mem_map.mpr ⟨x, List.mem_append.mpr (Or.inl hx), heq⟩)
              (hI.allocDisj t id hmemL)
      · simp only [hA, hF]
        have hF' : List.find? (entryMatches s hv k) (s.pools t).free_desc_sets =
            some he := hF
        have hmemF : he ∈ (s.pools t).free_desc_sets := List.mem_of_find?_eq_some hF'
        have hmemM : he ∈ mapsOf s t := List.mem_append.mpr (Or.inr hmemF)
        have hmatch : entryMatches s hv k he = true := List.find?_some hF'
        have hmatch' : (he.hash == hv && descStateEqual k ((s.sets he.id).key)) = true :=
          hmatch
        have hkhe : descStateEqual k ((s.sets he.id).key) = true := by
          rw [Bool.and_eq_true] at hmatch'
          exact hmatch'.2
        have hfresh := fresh_of_member s t k (hI.pair t) hmemM hkhe
        have hpoolHe : (s.sets he.id).pool = t := InvP_own hP t he hmemM
        have hstate : updPool s t (fun p => { p with free_desc_sets :=
            (p.free_desc_sets.eraseP (entryMatches s hv k)) }) =
            updPool s t (fun pl => { pl with free_desc_sets :=
              ((s.pools t).free_desc_sets.eraseP (entryMatches s hv k)) }) :=
          updPool_eq_of_app s t _ _ rfl
        rw [hstate]
        have hctx : CtxC H (updPool s t (fun pl => { pl with free_desc_sets :=
            ((s.pools t).free_desc_sets.eraseP (entryMatches s hv k)) })) t he.id := by
          refine CtxC_newFree H s t he.id _ hI (InvP_own hP) (InvP_ownL hP)
            (List.eraseP_sublist _) ?_ hpoolHe
          intro x hx hne
          refine mem_eraseP_of_neg _ _ x hx ?_
          show (x.hash == hv && descStateEqual k ((s.sets x.id).key)) = false
          rw [hfresh x (List.mem_append.mpr (Or.inr hx)) hne]
          exact Bool.and_false _
        refine InvC_outTail_ctx H _ t hv k he.id a _ hctx ?_ ?_ ?_ ?_ ?_ ?_ ?_ ?_
        · exact hpoolHe
        · rw [updPool_pools, if_pos rfl]
          exact hnd
        · exact hvH
        · rw [updPool_pools, if_pos rfl, updPool_sets]
          intro x hx hne
          exact hfresh x (List.mem_append.mpr (Or.inl hx)) hne
        · rw [updPool_pools, if_pos rfl, updPool_sets]
          intro x hx hne
          exact hfresh x (List.mem_append.mpr (Or.inr (List.mem_of_mem_eraseP hx))) hne
        · rw [updPool_pools, if_pos rfl]
          show ∀ x ∈ List.eraseP (entryMatches s hv k) (s.pools t).free_desc_sets,
            x.id ≠ he.id
          exact eraseP_selfF H hH s t hv k he.id hI hvH hkhe
        · rw [updPool_pools, if_pos rfl]
          intro hmem
          exact hI.allocDisj t he.id hmem (List.mem_map.mpr ⟨he, hmemM, rfl⟩)
        · rw [updPool_pools, if_pos rfl]
          exact matchA_of_key H hH s t hv k he.id hI hvH hkhe
    · simp only [hA]
      have hA' : List.find? (entryMatches s hv k) (s.pools t).desc_sets = some he := hA
      have hmem : he ∈ (s.pools t).desc_sets := List.mem_of_find?_eq_some hA'
      have hmemM : he ∈ mapsOf s t := List.mem_append.mpr (Or.inl hmem)
      refine InvC_quickOut H s t he.id a _ hI (InvP_ownL hP) hnullM (Or.inl ⟨?_, ?_⟩)
      · exact List.mem_map.mpr ⟨he, hmemM, rfl⟩
      · exact InvP_own hP t he hmemM
  · rw [if_neg hnd]
    have hnd0 : (s.pools t).num_descriptors = 0 := not_not.mp hnd
    have hb1 : allocBucketSize (s.pools t).num_descriptors 1 = 1 := by
      rw [allocBucketSize_one, if_pos hnd0]
    have hmapsA : ∀ u, mapsOf (allocateDescSet s t 1).1 u = mapsOf s u := by
      intro u
      unfold mapsOf
      rw [allocA_active, allocA_free]
    have hallocA : ∀ u, ((allocateDescSet s t 1).1.pools u).alloc_desc_sets =
        (s.pools u).alloc_desc_sets := by
      intro u
      rw [allocA_alloc]
      rcases eq_or_ne u t with rfl | hu
      · rw [if_pos rfl, hb1]
        rw [show (List.range (1 - 1)).map (fun j => s.nextId + 1 + j) =
          ([] : List SetId) from rfl]
        exact List.append_nil _
      · rw [if_neg hu]
        exact List.append_nil _
    have hsetsBase : (allocateDescSet s t 1).1.sets s.nextId = mkFreshZDS t :=
      allocA_sets_new s t 1 s.nextId (Nat.le_refl _)
        (by rw [hb1]; exact Nat.lt_succ_self _)
    have hIA : InvC H (allocateDescSet s t 1).1 := by
      refine InvC_null_transport H hI ?_ ?_ ?_ ?_ ?_
      · exact fun u => ⟨allocA_active s t 1 u, allocA_free s t 1 u, hallocA u,
          allocateDescSet_pools_nd s t 1 u⟩
      · intro u _
        rw [allocateDescSet_fst_last_set]
      · intro u e he
        exact allocA_sets_old s t 1 e.id (InvP_bndE hP u e he)
      · intro u j hj
        exact allocA_sets_old s t 1 j (InvP_bndL hP u j hj)
      · intro u hu j hpj hij
        by_cases hjlo : j < s.nextId
        · rw [allocA_sets_old s t 1 j hjlo] at hpj hij
          exact ⟨hpj, hij⟩
        · by_cases hjeq : j = s.nextId
          · rw [hjeq, hsetsBase] at hij
            exact absurd hij (by simp [mkFreshZDS])
          · have hge : s.nextId + 1 ≤ j :=
              Nat.succ_le_of_lt (Nat.lt_of_le_of_ne (Nat.le_of_not_lt hjlo)
                (Ne.symm hjeq))
            rw [allocA_sets_hi s t 1 j (by rw [hb1]; exact hge)] at hpj hij
            exact ⟨hpj, hij⟩
    have hAllocNull : InvC H
        (outTail (allocateDescSet s t 1).1 t hv k s.nextId a false).1 := by
      refine InvC_outTail_null H _ t hv k s.nextId a false hIA ?_ ?_ ?_ ?_ ?_ ?_
      · rw [allocateDescSet_pools_nd]
        exact hnd0
      · rw [hsetsBase]
        show ((allocateDescSet s t 1).1.pools t).num_descriptors = 0
        rw [allocateDescSet_pools_nd]
        exact hnd0
      · intro u e he heq
        rw [hmapsA u] at he
        exact absurd heq (Nat.ne_of_lt (InvP_bndE hP u e he))
      · intro u hmem
        rw [hallocA u] at hmem
        exact absurd (InvP_bndL hP u _ hmem) (Nat.lt_irrefl _)
      · intro u j hj
        rw [hallocA u] at hj
        rw [allocA_sets_old s t 1 j (InvP_bndL hP u j hj)]
        exact InvP_ownL hP u j hj
      · intro u hu
        rw [allocateDescSet_pools_nd] at hu
        rw [hallocA u]
        exact hnullM u hu
    rcases hls : s.last_set t with _ | ls
    · simp only [hls]
      rw [allocateDescSet_snd]
      exact hAllocNull
    · simp only [hls]
      have hlt := hP.lastLt t ls hls
      have hplnull : (s.pools ((s.sets ls).pool)).num_descriptors = 0 := by
        rcases hP.lastPool t ls hls with ⟨_, h2⟩ | ⟨h1, _⟩
        · exact h2
        · exact absurd hnd0 h1
      have hh0 : (s.sets ls).hash = 0 := hP.nullHash ls hlt hplnull
      rw [if_pos (show ((s.sets ls).hash == 0) = true by rw [hh0]; rfl)]
      exact InvC_quickOut H s t ls a true hI (InvP_ownL hP) hnullM
        (Or.inr ⟨hnd0, hplnull⟩)

/-- `zink_descriptor_set_get` with the context hash preserves `InvC`. -/
theorem InvC_get (maxDescs : Nat) (H : DKey → Nat)
    (hH : ∀ a b, descStateEqual a b = true → H a = H b)
    (s : St) (t : TypeIdx) (k : DKey) (a : Bool)
    (hP : InvP maxDescs s) (hI : InvC H s) :
    InvC H (zinkDescriptorSetGet maxDescs s t (H k) k a).1 := by
  have hhvH : (s.pools t).num_descriptors ≠ 0 →
      (if (s.pools t).num_descriptors ≠ 0 then H k else 0) = H k := fun h => if_pos h
  have hv0 : (s.pools t).num_descriptors = 0 →
      (if (s.pools t).num_descriptors ≠ 0 then H k else 0) = 0 := by
    intro h0
    rw [if_neg (by simpa using h0)]
  have hnullM : ∀ u, (s.pools u).num_descriptors = 0 →
      (s.pools u).alloc_desc_sets = [] := fun u hu => (hP.nullMaps u hu).2.2
  dsimp only [zinkDescriptorSetGet]
  rcases hls : s.last_set t with _ | ls
  · simp only [hls]
    exact InvC_getMain maxDescs H hH s t _ k a hP hI hhvH hv0
  · simp only [hls]
    by_cases hc : ((s.sets ls).hash ==
        (if (s.pools t).num_descriptors ≠ 0 then H k else 0) &&
        descStateEqual (s.sets ls).key k) = true
    · rw [if_pos hc]
      have hc2 := hc
      rw [Bool.and_eq_true] at hc2
      have hck' : descStateEqual k ((s.sets ls).key) = true :=
        descStateEqual_symm hc2.2
      have hlt := hP.lastLt t ls hls
      by_cases hrec : (decide ((s.pools t).num_descriptors ≠ 0) &&
          (s.sets ls).recycled) = true
      · rw [if_pos hrec]
        have hrec2 := hrec
        rw [Bool.and_eq_true] at hrec2
        obtain ⟨hnd', hrec'⟩ := hrec2
        have hnd : (s.pools t).num_descriptors ≠ 0 := of_decide_eq_true hnd'
        have hvH : (if (s.pools t).num_descriptors ≠ 0 then H k else 0) = H k :=
          hhvH hnd
        have hpoolLs : (s.sets ls).pool = t := by
          rcases hP.lastPool t ls hls with ⟨h1, _⟩ | ⟨_, h2⟩
          · exact absurd h1 hnd
          · exact h2
        have hlsIn : ls ∈ (mapsOf s t).map Entry.id := hI.lastIn t ls hnd hls
        have hfresh := fresh_of_id s t k (hI.pair t) ls hlsIn hck'
        have hstate : updPool s t (fun p => { p with free_desc_sets :=
            (p.free_desc_sets.eraseP (entryMatches s
              (if (s.pools t).num_descriptors ≠ 0 then H k else 0) k)) }) =
            updPool s t (fun pl => { pl with free_desc_sets :=
              ((s.pools t).free_desc_sets.eraseP (entryMatches s
                (if (s.pools t).num_descriptors ≠ 0 then H k else 0) k)) }) :=
          updPool_eq_of_app s t _ _ rfl
        rw [hstate]
        have hctx : CtxC H (updPool s t (fun pl => { pl with free_desc_sets :=
            ((s.pools t).free_desc_sets.eraseP (entryMatches s
              (if (s.pools t).num_descriptors ≠ 0 then H k else 0) k)) })) t ls := by
          refine CtxC_newFree H s t ls _ hI (InvP_own hP) (InvP_ownL hP)
            (List.eraseP_sublist _) ?_ hpoolLs
          intro x hx hne
          refine mem_eraseP_of_neg _ _ x hx ?_
          show (x.hash == (if (s.pools t).num_descriptors ≠ 0 then H k else 0) &&
            descStateEqual k ((s.sets x.id).key)) = false
          rw [hfresh x (List.mem_append.mpr (Or.inr hx)) hne]
          exact Bool.and_false _
        refine InvC_outTail_ctx H _ t _ k ls a _ hctx ?_ ?_ ?_ ?_ ?_ ?_ ?_ ?_
        · exact hpoolLs
        · rw [updPool_pools, if_pos rfl]
          exact hnd
        · exact hvH
        · rw [updPool_pools, if_pos rfl, updPool_sets]
          intro x hx hne
          exact hfresh x (List.mem_append.mpr (Or.inl hx)) hne
        · rw [updPool_pools, if_pos rfl, updPool_sets]
          intro x hx hne
          exact hfresh x (List.mem_append.mpr (Or.inr (List.mem_of_mem_eraseP hx))) hne
        · rw [updPool_pools, if_pos rfl]
          show ∀ x ∈ List.eraseP (entryMatches s
              (if (s.pools t).num_descriptors ≠ 0 then H k else 0) k)
              (s.pools t).free_desc_sets, x.id ≠ ls
          exact eraseP_selfF H hH s t _ k ls hI hvH hck'
        · rw [updPool_pools, if_pos rfl]
          intro hmem
          exact hI.allocDisj t ls hmem hlsIn
        · rw [updPool_pools, if_pos rfl]
          exact matchA_of_key H hH s t _ k ls hI hvH hck'
      · rw [if_neg hrec]
        by_cases hnd : (s.pools t).num_descriptors ≠ 0
        · have hvH : (if (s.pools t).num_descriptors ≠ 0 then H k else 0) = H k :=
            hhvH hnd
          have hpoolLs : (s.sets ls).pool = t := by
            rcases hP.lastPool t ls hls with ⟨h1, _⟩ | ⟨_, h2⟩
            · exact absurd h1 hnd
            · exact h2
          have hlsIn : ls ∈ (mapsOf s t).map Entry.id := hI.lastIn t ls hnd hls
          have hfresh := fresh_of_id s t k (hI.pair t) ls hlsIn hck'
          have hrecF : (s.sets ls).recycled = false := by
            cases hx : (s.sets ls).recycled
            · rfl
            · exfalso
              apply hrec
              rw [hx, decide_eq_true hnd]
              rfl
          have hctx := CtxC_of_InvC H s t ls hI (InvP_own hP) (InvP_ownL hP)
          refine InvC_outTail_ctx H s t _ k ls a _ hctx hpoolLs hnd hvH ?_ ?_ ?_ ?_ ?_
          · intro x hx hne
            exact hfresh x (List.mem_append.mpr (Or.inl hx)) hne
          · intro x hx hne
            exact hfresh x (List.mem_append.mpr (Or.inr hx)) hne
          · intro x hx heq
            have h1 := hI.freeRec t x hx
            rw [heq, hrecF] at h1
            exact Bool.noConfusion h1
          · intro hmem
            exact hI.allocDisj t ls hmem hlsIn
          · exact matchA_of_key H hH s t _ k ls hI hvH hck'
        · have hnd0 : (s.pools t).num_descriptors = 0 := not_not.mp hnd
          have hplnull : (s.pools ((s.sets ls).pool)).num_descriptors = 0 := by
            rcases hP.lastPool t ls hls with ⟨_, h2⟩ | ⟨h1, _⟩
            · exact h2
            · exact absurd hnd0 h1
          have hnotin : ∀ u, ∀ x ∈ mapsOf s u, x.id ≠ ls := by
            intro u x hx heq
            have hp := InvP_own hP u x hx
            rw [heq] at hp
            have hu0 : (s.pools u).num_descriptors = 0 := by
              rw [← hp]
              exact hplnull
            rcases List.mem_append.mp hx with h1 | h2
            · rw [(hP.nullMaps u hu0).1] at h1
              exact absurd h1 (List.not_mem_nil x)
            · rw [(hP.nullMaps u hu0).2.1] at h2
              exact absurd h2 (List.not_mem_nil x)
          have hnotalloc : ∀ u, ls ∉ (s.pools u).alloc_desc_sets := by
            intro u hmem
            have hp := InvP_ownL hP u ls hmem
            have hu0 : (s.pools u).num_descriptors = 0 := by
              rw [← hp]
              exact hplnull
            rw [(hP.nullMaps u hu0).2.2] at hmem
            exact absurd hmem (List.not_mem_nil ls)
          exact InvC_outTail_null H s t _ k ls a _ hI hnd0 hplnull hnotin hnotalloc
            (InvP_ownL hP) hnullM
    · rw [if_neg hc]
      exact InvC_getMain maxDescs H hH s t _ k a hP hI hhvH hv0

/-- `zink_descriptor_set_recycle` preserves `InvC` provided the
invalid-reclaim branch is not taken: the found active entry is the set's
own (class uniqueness), and moving it to the recycle map permutes the
pool's maps. -/
theorem InvC_recycle (maxDescs : Nat) (H : DKey → Nat) (s : St) (id : SetId)
    (hP : InvP maxDescs s) (hI : InvC H s)
    (hnb : ¬ recycleTakesInvalidBranch s id) :
    InvC H (zinkDescriptorSetRecycle s id) := by
  dsimp only [zinkDescriptorSetRecycle]
  by_cases hrc : (s.sets id).refcount ≠ 1
  · rw [if_pos hrc]
    exact hI
  · rw [if_neg hrc]
    have hrc1 : (s.sets id).refcount = 1 := not_not.mp hrc
    by_cases hnd : (s.pools (s.sets id).pool).num_descriptors = 0
    · rw [if_pos hnd]
      exact hI
    · rw [if_neg hnd]
      rcases hsearch : searchPreHashed s (s.pools (s.sets id).pool).desc_sets
          (s.sets id).hash (s.sets id).key with _ | e0
      · simp only [hsearch]
        exact hI
      · simp only [hsearch]
        by_cases hinv : (s.sets id).invalid = true
        · exact absurd ⟨hrc1, hnd, by rw [hsearch]; rfl, hinv⟩ hnb
        · rw [if_neg hinv]
          set u : TypeIdx := (s.sets id).pool with hu
          set zh : Nat := (s.sets id).hash with hzh
          set zk : DKey := (s.sets id).key with hzk
          set s1 : St := updPool s u (fun p =>
            { p with desc_sets :=
                (List.eraseP (entryMatches s zh zk) p.desc_sets) }) with hs1
          set s2 : St := updSet s1 id (fun w => { w with recycled := true }) with hs2
          set s3 : St := updPool s2 u (fun p =>
            { p with free_desc_sets :=
                (insertPreHashed s2 zh zk id p.free_desc_sets) }) with hs3
          have hfind : List.find? (entryMatches s zh zk) (s.pools u).desc_sets =
              some e0 := hsearch
          have hmemA : e0 ∈ (s.pools u).desc_sets := List.mem_of_find?_eq_some hfind
          have hmemM0 : e0 ∈ mapsOf s u := List.mem_append.mpr (Or.inl hmemA)
          have hm0 : entryMatches s zh zk e0 = true := List.find?_some hfind
          have hm0' : (e0.hash == zh && descStateEqual zk ((s.sets e0.id).key)) = true :=
            hm0
          rw [Bool.and_eq_true] at hm0'
          have hk0 : descStateEqual zk ((s.sets e0.id).key) = true := hm0'.2
          have hinvF : (s.sets id).invalid = false := by
            cases hx : (s.sets id).invalid
            · rfl
            · exact absurd hx hinv
          have hidIn : id ∈ (mapsOf s u).map Entry.id :=
            hI.validIn u hnd id hu.symm hinvF
          obtain ⟨eI, heImem, heIid⟩ := List.mem_map.mp hidIn
          have hkI : descStateEqual zk ((s.sets eI.id).key) = true := by
            rw [heIid, ← hzk]
            exact descStateEqual_refl zk
          have he0eI : e0 = eI :=
            class_unique s _ (hI.pair u) zk hmemM0 heImem hk0 hkI
          have he0id : e0.id = id := by
            rw [he0eI, heIid]
          have he0hash : e0.hash = zh := by
            have h1 := hI.hashS u e0 hmemM0
            rw [he0id] at h1
            exact h1.symm
          have he0ent : e0 = (⟨zh, id⟩ : Entry) := by
            have h2 : (⟨e0.hash, e0.id⟩ : Entry) = ⟨zh, id⟩ := by
              rw [he0hash, he0id]
            exact h2
          have hfresh := fresh_of_member s u zk (hI.pair u) hmemM0 hk0
          have hneF : ∀ e ∈ (s.pools u).free_desc_sets, e.id ≠ id := by
            intro e he heq
            exact ids_disjoint_of_pairwise s hI.pair u e0 hmemA e he
              (he0id.trans heq.symm)
          have hpairA : (s.pools u).desc_sets.Pairwise (keyNe s) :=
            (List.pairwise_append.mp (hI.pair u)).1
          have hcntA : (s.pools u).desc_sets.countP (entryMatches s zh zk) ≤ 1 := by
            refine countP_le_one_of_pairwise _ (keyNe s) _ hpairA ?_
            intro x y hpx hpy hne
            have hpx' : (x.hash == zh && descStateEqual zk ((s.sets x.id).key)) = true :=
              hpx
            have hpy' : (y.hash == zh && descStateEqual zk ((s.sets y.id).key)) = true :=
              hpy
            rw [Bool.and_eq_true] at hpx' hpy'
            unfold keyNe at hne
            rw [descStateEqual_trans (descStateEqual_symm hpx'.2) hpy'.2] at hne
            exact Bool.noConfusion hne
          rcases eraseP_split (entryMatches s zh zk) (s.pools u).desc_sets with
            ⟨hall, _⟩ | ⟨l1, x, l2, hlA, hpx, _, herase⟩
          · rw [hall e0 hmemA] at hm0
            exact Bool.noConfusion hm0
          · have hxmem : x ∈ (s.pools u).desc_sets := by
              rw [hlA]
              exact List.mem_append.mpr (Or.inr (List.mem_cons_self _ _))
            have hpx' : (x.hash == zh && descStateEqual zk ((s.sets x.id).key)) = true :=
              hpx
            rw [Bool.and_eq_true] at hpx'
            have hx0 : x = e0 :=
              class_unique s _ (hI.pair u) zk (List.mem_append.mpr (Or.inl hxmem))
                hmemM0 hpx'.2 hk0
            rw [hx0] at hlA
            have h2u : s2.pools u = { s.pools u with desc_sets :=
                (List.eraseP (entryMatches s zh zk) (s.pools u).desc_sets) } := by
              rw [hs2, updSet_pools, hs1, updPool_pools, if_pos rfl]
            have hallF : ∀ e ∈ (s.pools u).free_desc_sets,
                entryMatches s2 zh zk e = false := by
              intro e he
              have hne := hneF e he
              have hs2e : s2.sets e.id = s.sets e.id := by
                rw [hs2, updSet_sets, if_neg hne, hs1, updPool_sets]
              show (e.hash == zh && descStateEqual zk ((s2.sets e.id).key)) = false
              rw [hs2e, hfresh e (List.mem_append.mpr (Or.inr he))
                (fun hcon => hne (hcon.trans he0id))]
              exact Bool.and_false _
            have hins := insertPreHashed_append s2 zh zk id
              (s.pools u).free_desc_sets hallF
            have h3u : s3.pools u =
                { s.pools u with
                  desc_sets := (l1 ++ l2),
                  free_desc_sets := ((s.pools u).free_desc_sets ++ [(⟨zh, id⟩ : Entry)]) } := by
              rw [hs3, updPool_pools, if_pos rfl]
              show { s2.pools u with free_desc_sets :=
                (insertPreHashed s2 zh zk id (s2.pools u).free_desc_sets) } = _
              rw [h2u]
              rw [show ({ s.pools u with desc_sets :=
                (List.eraseP (entryMatches s zh zk) (s.pools u).desc_sets) } :
                  Pool).free_desc_sets = (s.pools u).free_desc_sets from rfl]
              rw [hins, herase]
            have h3pv : ∀ v, v ≠ u → s3.pools v = s.pools v := by
              intro v hv
              rw [hs3, updPool_pools, if_neg hv, hs2, updSet_pools, hs1,
                updPool_pools, if_neg hv]
            have h3sets : ∀ j, s3.sets j =
                if j = id then { s.sets id with recycled := true } else s.sets j := by
              intro j
              rw [hs3, updPool_sets, hs2, updSet_sets, hs1, updPool_sets]
            have hKey : ∀ j, (s3.sets j).key = (s.sets j).key := by
              intro j
              rw [h3sets j]
              rcases eq_or_ne j id with rfl | hj
              · rw [if_pos rfl]
              · rw [if_neg hj]
            have hHash : ∀ j, (s3.sets j).hash = (s.sets j).hash := by
              intro j
              rw [h3sets j]
              rcases eq_or_ne j id with rfl | hj
              · rw [if_pos rfl]
              · rw [if_neg hj]
            have hPool : ∀ j, (s3.sets j).pool = (s.sets j).pool := by
              intro j
              rw [h3sets j]
              rcases eq_or_ne j id with rfl | hj
              · rw [if_pos rfl]
              · rw [if_neg hj]
            have hInv : ∀ j, (s3.sets j).invalid = (s.sets j).invalid := by
              intro j
              rw [h3sets j]
              rcases eq_or_ne j id with rfl | hj
              · rw [if_pos rfl]
              · rw [if_neg hj]
            have hRec : ∀ j, (s3.sets j).recycled =
                if j = id then true else (s.sets j).recycled := by
              intro j
              rw [h3sets j]
              rcases eq_or_ne j id with rfl | hj
              · rw [if_pos rfl, if_pos rfl]
              · rw [if_neg hj, if_neg hj]
            have h3last : s3.last_set = s.last_set := rfl
            have h3A : (s3.pools u).desc_sets = l1 ++ l2 := by
              rw [h3u]
            have h3F : (s3.pools u).free_desc_sets =
                (s.pools u).free_desc_sets ++ [(⟨zh, id⟩ : Entry)] := by
              rw [h3u]
            have h3L : ∀ v, (s3.pools v).alloc_desc_sets =
                (s.pools v).alloc_desc_sets := by
              intro v
              rcases eq_or_ne v u with rfl | hv
              · rw [h3u]
              · rw [h3pv v hv]
            have h3N : ∀ v, (s3.pools v).num_descriptors =
                (s.pools v).num_descriptors := by
              intro v
              rcases eq_or_ne v u with rfl | hv
              · rw [h3u]
              · rw [h3pv v hv]
            have hpermM : (mapsOf s3 u).Perm (mapsOf s u) := by
              unfold mapsOf
              rw [h3A, h3F, ← he0ent, hlA]
              rw [← List.append_assoc]
              refine List.Perm.trans (List.perm_append_singleton _ _) ?_
              exact (List.Perm.append_right _ List.perm_middle).symm
            have hmapsPerm : ∀ v, (mapsOf s3 v).Perm (mapsOf s v) := by
              intro v
              rcases eq_or_ne v u with rfl | hv
              · exact hpermM
              · unfold mapsOf
                rw [h3pv v hv]
            have hmemP : ∀ v, ∀ x' ∈ mapsOf s3 v, x' ∈ mapsOf s v :=
              fun v x' hx' => (hmapsPerm v).subset hx'
            have hmemP' : ∀ v, ∀ x' ∈ mapsOf s v, x' ∈ mapsOf s3 v :=
              fun v x' hx' => (hmapsPerm v).symm.subset hx'
            refine ⟨?_, ?_, ?_, ?_, ?_, ?_, ?_, ?_, ?_⟩
            · intro v
              refine pair_congr s s3 _ (fun x' _ => hKey x'.id) ?_
              exact ((hmapsPerm v).pairwise_iff (fun hxy => keyNe_symm s hxy)).mpr (hI.pair v)
            · intro v x' hx'
              rw [hKey x'.id]
              exact hI.hashE v x' (hmemP v x' hx')
            · intro v x' hx'
              rw [hHash x'.id]
              exact hI.hashS v x' (hmemP v x' hx')
            · intro v
              rw [h3L v]
              exact hI.allocNd v
            · intro v j hj hmem
              rw [h3L v] at hj
              obtain ⟨x', hx', hxid⟩ := List.mem_map.mp hmem
              exact hI.allocDisj v j hj
                (List.mem_map.mpr ⟨x', hmemP v x' hx', hxid⟩)
            · intro v x' hx'
              rw [hRec x'.id]
              rcases eq_or_ne x'.id id with h | h
              · rw [if_pos h]
              · rw [if_neg h]
                rcases eq_or_ne v u with rfl | hv
                · rw [h3F] at hx'
                  rcases List.mem_append.mp hx' with h1 | h2
                  · exact hI.freeRec u x' h1
                  · exfalso
                    have hx'' : x' = (⟨zh, id⟩ : Entry) := List.mem_singleton.mp h2
                    apply h
                    rw [hx'']
                · rw [h3pv v hv] at hx'
                  exact hI.freeRec v x' hx'
            · intro v j hj
              rw [h3L v] at hj
              rw [hInv j]
              exact hI.allocInv v j hj
            · intro v hndv j hpj hij
              rw [h3N v] at hndv
              rw [hPool j] at hpj
              rw [hInv j] at hij
              obtain ⟨x', hx', hxid⟩ := List.mem_map.mp (hI.validIn v hndv j hpj hij)
              exact List.mem_map.mpr ⟨x', hmemP' v x' hx', hxid⟩
            · intro v ls hndv hl
              rw [h3N v] at hndv
              rw [h3last] at hl
              obtain ⟨x', hx', hxid⟩ := List.mem_map.mp (hI.lastIn v ls hndv hl)
              exact List.mem_map.mpr ⟨x', hmemP' v x' hx', hxid⟩

/-- `InvC` transport along a single-set update that keeps the key, hash,
recycled flag and pool, and never clears `invalid`. -/
theorem InvC_updSet_mono (H : DKey → Nat) (s : St) (j0 : SetId) (f : ZDS → ZDS)
    (hI : InvC H s)
    (hkey : ∀ z, (f z).key = z.key) (hhash : ∀ z, (f z).hash = z.hash)
    (hrec : ∀ z, (f z).recycled = z.recycled) (hpool : ∀ z, (f z).pool = z.pool)
    (hinv : ∀ z, (f z).invalid = false → z.invalid = false) :
    InvC H (updSet s j0 f) := by
  refine InvC_of_eq H hI rfl rfl ?_ ?_ ?_ ?_ ?_
  · intro j
    rw [updSet_sets]
    rcases eq_or_ne j j0 with rfl | hj
    · rw [if_pos rfl]
      exact hkey _
    · rw [if_neg hj]
  · intro j
    rw [updSet_sets]
    rcases eq_or_ne j j0 with rfl | hj
    · rw [if_pos rfl]
      exact hhash _
    · rw [if_neg hj]
  · intro j
    rw [updSet_sets]
    rcases eq_or_ne j j0 with rfl | hj
    · rw [if_pos rfl]
      exact hrec _
    · rw [if_neg hj]
  · intro j
    rw [updSet_sets]
    rcases eq_or_ne j j0 with rfl | hj
    · rw [if_pos rfl]
      exact hpool _
    · rw [if_neg hj]
  · intro j hj2
    rw [updSet_sets] at hj2
    rcases eq_or_ne j j0 with rfl | hj
    · rw [if_pos rfl] at hj2
      exact hinv _ hj2
    · rw [if_neg hj] at hj2
      exact hj2

/-- `zink_descriptor_set_invalidate` preserves `InvC`. -/
theorem InvC_invalidate (H : DKey → Nat) (s : St) (id : SetId) (hI : InvC H s) :
    InvC H (zinkDescriptorSetInvalidate s id) :=
  InvC_updSet_mono H s id _ hI (fun z => rfl) (fun z => rfl) (fun z => rfl)
    (fun z => rfl) (fun z h => Bool.noConfusion h)

/-- `desc_set_ref_add` preserves `InvC` (it only touches a slot and the
resource back-reference list). -/
theorem InvC_bind (H : DKey → Nat) (s : St) (id : SetId) (idx res : Nat)
    (hI : InvC H s) : InvC H (descSetRefAdd s id idx res) := by
  dsimp only [descSetRefAdd]
  have h1 : InvC H (updSet s id fun z =>
      { z with slots := Function.update z.slots idx (some res) }) :=
    InvC_updSet_mono H s id _ hI (fun z => rfl) (fun z => rfl) (fun z => rfl)
      (fun z => rfl) (fun z h => h)
  exact InvC_of_eq H h1 rfl rfl (fun j => rfl) (fun j => rfl) (fun j => rfl)
    (fun j => rfl) (fun j h => h)

/-- Batch-retirement reference release preserves `InvC`. -/
theorem InvC_release (H : DKey → Nat) (s : St) (id : SetId) (hI : InvC H s) :
    InvC H (releaseRef s id) :=
  InvC_updSet_mono H s id _ hI (fun z => rfl) (fun z => rfl) (fun z => rfl)
    (fun z => rfl) (fun z h => h)

/-- `zink_descriptor_set_refs_clear` preserves `InvC`: each swept
back-reference only invalidates a set and nulls a slot. -/
theorem InvC_refsClear (H : DKey → Nat) (s : St) (res : Nat) (hI : InvC H s) :
    InvC H (zinkDescriptorSetRefsClear s res) := by
  dsimp only [zinkDescriptorSetRefsClear]
  have h1 : InvC H ((s.refs res).foldl
      (fun acc r =>
        if (acc.sets r.1).slots r.2 = some res then
          updSet acc r.1 (fun z =>
            { z with invalid := true, slots := Function.update z.slots r.2 none })
        else acc) s) := by
    refine foldl_pres _ (fun a c => InvC H a → InvC H c) (fun b h => h)
      (fun a b c hab hbc h => hbc (hab h)) ?_ (s.refs res) s hI
    intro b x
    by_cases hcond : (b.sets x.1).slots x.2 = some res
    · rw [if_pos hcond]
      intro hb
      exact InvC_updSet_mono H b x.1 _ hb (fun z => rfl) (fun z => rfl)
        (fun z => rfl) (fun z => rfl) (fun z h => Bool.noConfusion h)
    · rw [if_neg hcond]
      exact fun hb => hb
  exact InvC_of_eq H h1 rfl rfl (fun j => rfl) (fun j => rfl) (fun j => rfl)
    (fun j => rfl) (fun j h => h)

/-- Every `ReachC`-reachable state satisfies the C2 invariant. -/
theorem reachC_InvC {maxDescs : Nat} {H : DKey → Nat}
    (hH : ∀ a b, descStateEqual a b = true → H a = H b) {s : St}
    (h : ReachC maxDescs H s) : InvC H s := by
  induction h with
  | init nd => exact InvC_init H nd
  | get t k a hr ih =>
    dsimp only [stepOp]
    exact InvC_get maxDescs H hH _ t k a (reach_InvP (ReachC_to_Reach hr)) ih
  | recycle id hr hni ih =>
    dsimp only [stepOp]
    exact InvC_recycle maxDescs H _ id (reach_InvP (ReachC_to_Reach hr)) ih hni
  | invalidate id hr ih =>
    dsimp only [stepOp]
    exact InvC_invalidate H _ id ih
  | bind id idx res hr ih =>
    dsimp only [stepOp]
    exact InvC_bind H _ id idx res ih
  | refsClear res hr ih =>
    dsimp only [stepOp]
    exact InvC_refsClear H _ res ih
  | release id hr ih =>
    dsimp only [stepOp]
    exact InvC_release H _ id ih

/-- C2: as stated, the claim fails. After the eight-call trace
`disjointCexOps` the fingerprint `keyVF21` is `desc_state_equal` to an
entry of pool 0's active map and to an entry of its recycle map at the
same time: the invalid-reclaim branch of `zink_descriptor_set_recycle`
puts a set on the shell list while the last-used shortcut can still
re-activate it, so a stale active entry survives whose pointer-held key
is later rewritten to the recycled fingerprint. -/
theorem C2_counterexample :
    keyInMap (runOps 5000 ndOne disjointCexOps)
        ((runOps 5000 ndOne disjointCexOps).pools 0).desc_sets keyVF21 = true ∧
    keyInMap (runOps 5000 ndOne disjointCexOps)
        ((runOps 5000 ndOne disjointCexOps).pools 0).free_desc_sets keyVF21 = true := by
  constructor <;> decide

/-- C2 (amended): for states reached when the context presents each
fingerprint with a fixed hash function `H` consistent with
`desc_state_equal` and batch retirement never recycles an
already-invalidated set (the invalid-reclaim branch of
`zink_descriptor_set_recycle` is never exercised), the active map and the
recycle map of every pool are fingerprint-disjoint: a fingerprint present
in the active map is absent from the recycle map. -/
theorem C2_map_disjoint (H : DKey → Nat)
    (hH : ∀ a b, descStateEqual a b = true → H a = H b)
    (s : St) (h : ReachC ZINK_DEFAULT_MAX_DESCS H s) (t : TypeIdx) (k : DKey)
    (hA : keyInMap s (s.pools t).desc_sets k = true) :
    keyInMap s (s.pools t).free_desc_sets k = false := by
  have hI := reachC_InvC hH h
  cases hF : keyInMap s (s.pools t).free_desc_sets k
  · rfl
  · exfalso
    unfold keyInMap at hA hF
    obtain ⟨eA, hAm, hpA⟩ := List.any_eq_true.mp hA
    obtain ⟨eF, hFm, hpF⟩ := List.any_eq_true.mp hF
    have hcross := (List.pairwise_append.mp (hI.pair t)).2.2 eA hAm eF hFm
    unfold keyNe at hcross
    rw [descStateEqual_trans hpA (descStateEqual_symm hpF)] at hcross
    exact Bool.noConfusion hcross

theorem C2_map_disjoint_witness :
    keyInMap (stepOp ZINK_DEFAULT_MAX_DESCS (initSt ndOne)
        (.get 0 0 keyVF12 false))
      ((stepOp ZINK_DEFAULT_MAX_DESCS (initSt ndOne)
        (.get 0 0 keyVF12 false)).pools 0).desc_sets keyVF12 = true ∧
    keyInMap (stepOp ZINK_DEFAULT_MAX_DESCS (initSt ndOne)
        (.get 0 0 keyVF12 false))
      ((stepOp ZINK_DEFAULT_MAX_DESCS (initSt ndOne)
        (.get 0 0 keyVF12 false)).pools 0).free_desc_sets keyVF12 = false :=
  ⟨by decide,
   C2_map_disjoint (fun _ => 0) (fun a b _ => rfl) _
     (ReachC.get 0 keyVF12 false (ReachC.init ndOne)) 0 keyVF12 (by decide)⟩

end ZinkDesc
